import Mathlib

/-!
# banbot: feeder scheduling and merge replay

A shallow embedding of `data/provider.go` of banbot: the merge order of the historical
feeders (`SortFeeders`), the replay loop (`RunHistFeeders`), the subscription sweep
(`Provider.SubWarmPairs`, `HistProvider.SubWarmPairs`) and the handler of the live
messages (`makeOnKlineMsg`).

Conventions.
* Go `int` and `int64` values are `Int`; no arithmetic of the embedded code can overflow
  (only comparisons and `max`), and theorems that need the `int64` range say so.
* Go strings are `String`; `<` on both sides is the lexicographic order of the code points,
  which is the byte order of UTF-8.
* A Go slice is a `List`, a Go map is an association list that holds each key once.
* A run-time panic (nil receiver, index out of range) is an explicit result.
-/

namespace Banbot

/-! ## Data model -/

/-- The constant `math.MaxInt64`, the next-due timestamp of an exhausted feeder. -/
def MaxInt64 : Int := 9223372036854775807

/-- A bar (`banexg.Kline`). The scheduler reads nothing but `Time`; the price and volume
fields are floating point numbers that no embedded function inspects. -/
structure Kline where
  Time : Int
deriving DecidableEq, Repr

/-- The error value `*errs.Error`; a nil error is `none : Option Error`. -/
structure Error where
  Msg : String
deriving DecidableEq, Repr

/-- One state record of a feeder (`PairTFCache`), one per subscribed timeframe. -/
structure PairTFCache where
  TimeFrame : String
  TFSecs : Int
  NextMS : Int
deriving DecidableEq, Repr

/-- Modelled from the spec: the feeder behind the interfaces `IKlineFeeder` and
`IHistKlineFeeder`, whose implementation is not part of the sources. A feeder is a cursor
over one instrument (spec 4.1). What the replay loop can observe of it is scripted:
`script` lists, for the current cursor position and for every later one, the value
`getNextMS()` reports there and the bar `GetBar()` returns there; `CallNext()` moves to the
next position. Past the end of the script the feeder is exhausted: `getNextMS()` is the
sentinel maximum and `GetBar()` is nil. `barErrs` gives the bars (by timestamp) whose
delivery through `RunBar` fails, with the error returned. `states` are the state records
(`getStates()`), smallest timeframe first; `waitBar` is the pending bar of a live feeder;
`warmSince` and `warmErr` are what `WarmTfs` returns (the resume timestamp and the error),
`downErr` is what `DownIfNeed` returns. -/
structure Feeder where
  symbol : String
  script : List (Int × Option Kline)
  barErrs : List (Int × Error) := []
  states : List PairTFCache := []
  waitBar : Option Kline := none
  warmSince : Int := 0
  warmErr : Option Error := none
  downErr : Option Error := none
deriving DecidableEq, Repr

namespace Feeder

/-- The method `getSymbol()`. -/
def getSymbol (f : Feeder) : String := f.symbol

/-- The method `getNextMS()`: the next-due timestamp, the sentinel when none remains. -/
def getNextMS (f : Feeder) : Int :=
  match f.script with
  | [] => MaxInt64
  | o :: _ => o.1

/-- The method `GetBar()`: the next due bar, `none` (nil) when exhausted. -/
def GetBar (f : Feeder) : Option Kline :=
  match f.script with
  | [] => none
  | o :: _ => o.2

/-- The method `CallNext()`: commit the cursor past the bar just pulled. -/
def CallNext (f : Feeder) : Feeder :=
  { f with script := f.script.tail }

/-- The method `RunBar(bar)`: deliver the bar to the engine; `none` is a nil error. -/
def RunBar (f : Feeder) (bar : Kline) : Option Error :=
  f.barErrs.lookup bar.Time

end Feeder

/-- A historical feeder over the bars `bars`: it yields them in order, reports the
timestamp of its next bar as next-due and the sentinel when no bar remains. -/
def histFeeder (symbol : String) (bars : List Kline) : Feeder :=
  { symbol := symbol, script := bars.map fun b => (b.Time, some b) }

/-! ## The Go library routines used by `SortFeeders` -/

/-- The loop of `sort.Search`: `i, j := 0, n; for i < j { h := int(uint(i+j) >> 1);
if !f(h) { i = h + 1 } else { j = h } }; return i`. The interval `j - i` shrinks in every
round, so `fuel = n` rounds are enough. -/
def searchLoop (f : Nat → Bool) : Nat → Nat → Nat → Nat
  | 0, i, _ => i
  | fuel + 1, i, j =>
    if i < j then
      let h := (i + j) / 2
      if !f h then searchLoop f fuel (h + 1) j else searchLoop f fuel i h
    else i

/-- The library function `sort.Search(n, f)`. -/
def sortSearch (n : Nat) (f : Nat → Bool) : Nat :=
  searchLoop f n 0 n

/-- The inner loop of the library's insertion sort,
`for j := i; j > a && less(j, j-1); j-- { swap(j, j-1) }`, for the element `x = data[i]`.
The argument is the part `data[a:i]` to the left of `x`, nearest element first. -/
def sinkLeft {α : Type} (less : α → α → Bool) (x : α) : List α → List α
  | [] => [x]
  | y :: ys => if less x y then y :: sinkLeft less x ys else x :: y :: ys

/-- The library function `sort.Slice(x, less)`, as the insertion sort
(`insertionSortLessFunc`: `for i := a + 1; i < b; i++ { inner loop }`) that the library
runs on a slice of at most 12 elements. On a longer slice the library runs a pattern
defeating quicksort, which also orders the slice by `less` but may leave elements that
`less` does not separate in another relative order. -/
def sortSlice {α : Type} (less : α → α → Bool) (data : List α) : List α :=
  (data.foldl (fun left x => sinkLeft less x left) []).reverse

/-- The builtin `copy(s[dst:], s[src:])` on one slice `s` (it copies as if through a
temporary buffer): `min(len(s)-dst, len(s)-src)` elements move from `src` to `dst`. -/
def copyWithin {α : Type} (s : List α) (dst src : Nat) : List α :=
  let k := min (s.length - dst) (s.length - src)
  s.take dst ++ (s.drop src).take k ++ s.drop (dst + k)

/-- The comparison `s < t` of two Go strings: lexicographic by bytes, which for UTF-8 text
is the lexicographic order of the code points. -/
def strLess (s t : String) : Bool :=
  decide (s.data < t.data)

/-! ## SortFeeders -/

/-- The comparison closure of the full sort in `SortFeeders`
(`sort.Slice(holds, func(i, j int) bool {...})`), on `a = holds[i]`, `b = holds[j]`. -/
def sortLess (a b : Feeder) : Bool :=
  let va := a.getNextMS
  let vb := b.getNextMS
  if va = MaxInt64 ∨ vb = MaxInt64 then decide (va < vb)
  else if va ≠ vb then decide (va < vb)
  else strLess a.getSymbol b.getSymbol

/-- The closure handed to `sort.Search` in `SortFeeders`, on `a = holds[i]`, with
`vb = hold.getNextMS()` and `bSymbol = hold.getSymbol()`. -/
def searchAfter (vb : Int) (bSymbol : String) (a : Feeder) : Bool :=
  let va := a.getNextMS
  if va = MaxInt64 ∨ vb = MaxInt64 then decide (va > vb)
  else if va ≠ vb then decide (va > vb)
  else strLess bSymbol a.getSymbol

/-- The function `SortFeeders(holds, hold, insert)`. With `insert` the feeder `hold` is put
into the ordered `holds` at the index found by binary search; otherwise `holds` is sorted
in full. `none` is the panic of the method call on a nil `hold`. -/
def SortFeeders (holds : List Feeder) (hold : Option Feeder) (insert : Bool) :
    Option (List Feeder) :=
  if insert then
    match hold with
    | none => none
    | some hold =>
      let vb := hold.getNextMS
      let bSymbol := hold.getSymbol
      let index := sortSearch holds.length fun i =>
        match holds[i]? with
        | some a => searchAfter vb bSymbol a
        | none => false
      let holds1 := holds ++ [hold]
      let holds2 := copyWithin holds1 (index + 1) index
      some (holds2.set index hold)
  else
    some (sortSlice sortLess holds)

/-- The order of the working list of the scheduler: no feeder is less, by the comparison of
the full sort, than a feeder in front of it. -/
def MergeOrdered (l : List Feeder) : Prop :=
  l.Pairwise fun a b => sortLess b a = false

instance (l : List Feeder) : Decidable (MergeOrdered l) := by
  unfold MergeOrdered; infer_instance

/-- Exhausted feeders are last: every feeder whose next-due timestamp is the sentinel
stands behind every feeder whose next-due timestamp is not. -/
def ExhaustedLast (l : List Feeder) : Prop :=
  ∀ i j (hi : i < l.length) (hj : j < l.length),
    l[i].getNextMS = MaxInt64 → l[j].getNextMS ≠ MaxInt64 → j < i

/-! ## RunHistFeeders

The loop owns the variables `hold`, `retErr`, `lastBarMs`, `oldVer`, `holds` and the wait
group. Feeders are reference objects in the source; the embedding carries their current
state in the working list, and hands the closure `makeFeeders` the feeders the loop works
on (the one popped last, then `holds`) so that it can return them with the cursors as the
loop left them. The progress bar is observational and left out.

The goroutines started for the bars that tie the last timestamp are embedded by one of
their schedules: they run to completion, in the order of their start, when the wait group
is waited for. Until then they are held in `running`. -/

/-- What the loop does, in the order in which it happens. -/
inductive Event where
  /-- The call `makeFeeders()`. -/
  | makeFeeders
  /-- The call `SortFeeders(holds, nil, false)`. -/
  | sortFull
  /-- The call `SortFeeders(holds, hold, true)`, with the symbol of `hold`. -/
  | sortInsert (symbol : String)
  /-- The call `hold.GetBar()` and what it returned. -/
  | getBar (symbol : String) (bar : Option Kline)
  /-- The call `hold.CallNext()`. -/
  | callNext (symbol : String)
  /-- The statement `go func(hold, bar) {...}(hold, bar)` after `wg.Add(1)`. -/
  | spawn (symbol : String) (bar : Kline)
  /-- A call `hold.RunBar(bar)` and the error it returned. -/
  | runBar (symbol : String) (bar : Kline) (err : Option Error)
  /-- A goroutine that returned at `if retErr != nil` without delivering its bar. -/
  | skipBar (symbol : String) (bar : Kline)
  /-- A call `wg.Wait()` has returned. -/
  | wait
  /-- The assignment `lastBarMs = bar.Time`: a new time slice has begun. -/
  | newTime (ms : Int)
deriving DecidableEq, Repr

/-- The variables of `RunHistFeeders`, the goroutines of the wait group that have not
finished, the number of calls of `makeFeeders` so far, and the events so far. -/
structure RunState where
  hold : Option Feeder := none
  retErr : Option Error := none
  lastBarMs : Int := 0
  oldVer : Int := 0
  holds : List Feeder := []
  running : List (Feeder × Kline) := []
  calls : Nat := 0
  trace : List Event := []
deriving DecidableEq, Repr

/-- The body of the goroutine `func(hold, bar) { defer wg.Done(); if retErr != nil
{ return }; err := hold.RunBar(bar); if err != nil { retErr = err } }`. -/
def runTask (s : RunState) (t : Feeder × Kline) : RunState :=
  if s.retErr.isSome then
    { s with trace := s.trace ++ [Event.skipBar t.1.getSymbol t.2] }
  else
    let err := t.1.RunBar t.2
    { s with
      retErr := if err.isSome then err else s.retErr
      trace := s.trace ++ [Event.runBar t.1.getSymbol t.2 err] }

/-- The call `wg.Wait()`: every goroutine of the wait group runs to its end. -/
def wgWait (s : RunState) : RunState :=
  let s1 := s.running.foldl runTask s
  { s1 with running := [], trace := s1.trace ++ [Event.wait] }

/-- How one call of the closure `step` ends. -/
inductive StepResult where
  /-- The closure returned true. -/
  | next (s : RunState)
  /-- The closure returned false. -/
  | stop (s : RunState)
  /-- A run-time panic: `holds[0]` of an empty list, or a method call on a nil `hold`. -/
  | panic (s : RunState)
deriving DecidableEq, Repr

/-- The state in which a call of `step` ends. -/
def StepResult.state : StepResult → RunState
  | StepResult.next s => s
  | StepResult.stop s => s
  | StepResult.panic s => s

/-- The events of the first statement of `step`: a call of `makeFeeders` or of
`SortFeeders`. -/
def Event.isSort : Event → Bool
  | Event.makeFeeders => true
  | Event.sortFull => true
  | Event.sortInsert _ => true
  | _ => false

/-- The first statement of `step`: rebuild the working list, or put `hold` back into it.
`none` is the panic of `SortFeeders` on a nil `hold`. -/
def refresh (makeFeeders : Nat → List Feeder → List Feeder) (ver : Int) (s : RunState) :
    Option RunState :=
  if ver > s.oldVer ∨ s.holds.length = 0 then
    let holds := makeFeeders s.calls (s.hold.toList ++ s.holds)
    (SortFeeders holds none false).map fun holds =>
      { s with
        holds := holds
        oldVer := max s.oldVer ver
        calls := s.calls + 1
        trace := s.trace ++ [Event.makeFeeders, Event.sortFull] }
  else
    (SortFeeders s.holds s.hold true).map fun holds =>
      { s with
        holds := holds
        trace := s.trace ++ [Event.sortInsert ((s.hold.map Feeder.getSymbol).getD "")] }

/-- The second half of `step`, from `if bar.Time > lastBarMs` on: the bar `bar` has been
pulled from `hold` and the cursor of `hold` has been advanced. -/
def deliver (hold : Feeder) (bar : Kline) (s : RunState) : StepResult :=
  if bar.Time > s.lastBarMs then
    let s3 := wgWait s
    if s3.retErr.isSome then StepResult.stop s3
    else
      let err := hold.RunBar bar
      let s4 : RunState := { s3 with
        trace := s3.trace ++ [Event.runBar hold.getSymbol bar err] }
      if err.isSome then StepResult.stop s4
      else
        StepResult.next { s4 with
          lastBarMs := bar.Time
          trace := s4.trace ++ [Event.newTime bar.Time] }
  else
    StepResult.next { s with
      running := s.running ++ [(hold, bar)]
      trace := s.trace ++ [Event.spawn hold.getSymbol bar] }

/-- The closure `step(ver)` of `RunHistFeeders`. -/
def step (makeFeeders : Nat → List Feeder → List Feeder) (ver : Int) (s : RunState) :
    StepResult :=
  match refresh makeFeeders ver s with
  | none => StepResult.panic s
  | some s1 =>
    match s1.holds with
    | [] => StepResult.panic s1
    | hold :: rest =>
      match hold.GetBar with
      | none =>
        StepResult.stop { s1 with
          hold := some hold
          trace := s1.trace ++ [Event.getBar hold.getSymbol none] }
      | some bar =>
        deliver hold.CallNext bar { s1 with
          hold := some hold.CallNext
          holds := rest
          trace := s1.trace ++
            [Event.getBar hold.getSymbol (some bar), Event.callNext hold.getSymbol] }

/-- How a run of `RunHistFeeders` ends. -/
inductive Outcome where
  /-- The function returned this error (`none` is nil). -/
  | returned (err : Option Error)
  /-- A run-time panic ended the run. -/
  | panicked
  /-- The loop was still going when the fuel of the embedding ran out. -/
  | unfinished
deriving DecidableEq, Repr

/-- The loop `for { select {...}; if !step(ver) { break } }` with the statements after it.
`versions` lists what the `select` finds in each round: `some ver` is a value received
from the channel, `none` the default case; past the end of the list the channel is empty. -/
def runLoop (makeFeeders : Nat → List Feeder → List Feeder) :
    Nat → List (Option Int) → RunState → Outcome × RunState
  | 0, _, s => (Outcome.unfinished, s)
  | fuel + 1, versions, s =>
    let ver : Int := (versions.headD none).getD 0
    if ver < 0 then (Outcome.returned s.retErr, s)
    else
      match step makeFeeders ver s with
      | StepResult.next s1 => runLoop makeFeeders fuel versions.tail s1
      | StepResult.stop s1 =>
        let s2 := wgWait s1
        (Outcome.returned s2.retErr, s2)
      | StepResult.panic s1 => (Outcome.panicked, s1)

/-- The function `RunHistFeeders(makeFeeders, versions, pBar)`, run for at most `fuel`
rounds of its loop. -/
def RunHistFeeders (fuel : Nat) (makeFeeders : Nat → List Feeder → List Feeder)
    (versions : List (Option Int)) : Outcome × RunState :=
  runLoop makeFeeders fuel versions {}

/-- The timestamps of the bars popped from the working list, in the order of the pops. -/
def poppedTimes (trace : List Event) : List Int :=
  trace.filterMap fun e =>
    match e with
    | Event.getBar _ (some bar) => some bar.Time
    | _ => none

/-- One step of the scan for late deliveries: the state is the last boundary seen and
whether every delivery so far was at or after the boundary in force. -/
def scanEvent (st : Option Int × Bool) (e : Event) : Option Int × Bool :=
  match e with
  | Event.newTime t => (some t, st.2)
  | Event.runBar _ bar _ =>
    match st.1 with
    | some t => (st.1, st.2 && decide (t ≤ bar.Time))
    | none => st
  | _ => st

/-- The scan of a trace from its start: the last boundary, and whether no delivery was
late. -/
def scanTrace (trace : List Event) : Option Int × Bool :=
  trace.foldl scanEvent (none, true)

/-- No bar with a timestamp before the last new-time boundary is delivered after that
boundary. -/
def noLateDelivery (trace : List Event) : Bool :=
  (scanTrace trace).2

/-- The closure `makeFeeders` of `HistProvider.LoopMain` (`utils.ValsOfMap(p.holders)`)
while the map `holders` does not change: the first call returns the feeders `fs` of the
map, every later call returns the same feeders in their current state. -/
def staticFeeders (fs : List Feeder) : Nat → List Feeder → List Feeder :=
  fun calls live => if calls = 0 then fs else live

/-- A feeder that yields bars with strictly increasing timestamps above zero and reports
the timestamp of its next bar as next-due (and the sentinel when no bar remains). -/
def Feeder.Regular (f : Feeder) : Prop :=
  (∀ o ∈ f.script, 0 < o.1 ∧ o.2.map Kline.Time = some o.1) ∧
    f.script.Pairwise fun o p => o.1 < p.1

instance (f : Feeder) : Decidable f.Regular := by
  unfold Feeder.Regular; infer_instance

/-- What holds of the trace at every point of a run over regular feeders: the popped
timestamps do not decrease, no delivery was late, and no goroutine still to finish holds a
bar from before the last boundary. -/
def Safe (s : RunState) : Prop :=
  (poppedTimes s.trace).Pairwise (· ≤ ·) ∧ (scanTrace s.trace).2 = true ∧
    ∀ x ∈ s.running, ∀ t, (scanTrace s.trace).1 = some t → t ≤ x.2.Time

/-- The invariant of the loop of `RunHistFeeders` over regular feeders, at the start of
each round. -/
def Inv (s : RunState) : Prop :=
  Safe s ∧ MergeOrdered s.holds ∧
    (∀ f ∈ s.hold.toList ++ s.holds, f.Regular ∧ ∀ o ∈ f.script, s.lastBarMs ≤ o.1) ∧
    (s.calls = 0 → s.lastBarMs = 0) ∧ (s.holds ≠ [] → s.calls ≠ 0) ∧
    (∀ t ∈ poppedTimes s.trace, t ≤ s.lastBarMs) ∧
    (∀ t, (scanTrace s.trace).1 = some t → t ≤ s.lastBarMs)


/-- The number of cursor positions left in a list of feeders: the bound on the rounds of
the replay loop. -/
def totalBars (fs : List Feeder) : Nat :=
  (fs.map fun f => f.script.length).sum

/-- The cursor positions left to the loop: those of the feeders it works on, and those of
the first list `fs` before the first round. -/
def remaining (fs : List Feeder) (s : RunState) : Nat :=
  if s.calls = 0 then totalBars fs else totalBars (s.hold.toList ++ s.holds)

/-- The bars that a feeder still holds, in the order in which it yields them. -/
def Feeder.bars (f : Feeder) : List Kline :=
  f.script.filterMap fun o => o.2

/-- The bars delivered to the feeder `symbol` (the calls of `RunBar` on it), in the order
of delivery. -/
def deliveredOf (symbol : String) (trace : List Event) : List Kline :=
  trace.filterMap fun e =>
    match e with
    | Event.runBar sym bar _ => if sym = symbol then some bar else none
    | _ => none

/-- All deliveries of a run: the feeder and the bar of every call of `RunBar`, in order. -/
def deliveries (trace : List Event) : List (String × Kline) :=
  trace.filterMap fun e =>
    match e with
    | Event.runBar sym bar _ => some (sym, bar)
    | _ => none

/-- The bars of the feeder `symbol` in the hands of goroutines that have not finished. -/
def runningOf (symbol : String) (running : List (Feeder × Kline)) : List Kline :=
  running.filterMap fun x => if x.1.getSymbol = symbol then some x.2 else none

/-- The feeders that the loop works on: the first list `fs` before the first round, then
the feeder popped last and the working list. -/
def liveFeeders (fs : List Feeder) (s : RunState) : List Feeder :=
  if s.calls = 0 then fs else s.hold.toList ++ s.holds

/-- The bars of a feeder, each with the symbol of the feeder. -/
def Feeder.pairs (f : Feeder) : List (String × Kline) :=
  f.bars.map fun b => (f.getSymbol, b)

/-- What holds at the start of every round of a replay without delivery errors and
without generation messages over the feeders `fs`: no error is recorded; the feeders at
work have distinct symbols, no failing bar and no timestamp at the sentinel; for every
feeder of `fs`, what was delivered to it, what goroutines still hold for it and what the
feeder at work under its symbol still holds are, in this order, its bars; and all
deliveries, the bars with goroutines and the bars still held are together the bars of
`fs`. -/
def Complete (fs : List Feeder) (s : RunState) : Prop :=
  s.retErr = none ∧ s.oldVer = 0 ∧ (s.calls ≠ 0 → s.hold ≠ none) ∧
    ((liveFeeders fs s).map Feeder.getSymbol).Nodup ∧
    (∀ g ∈ liveFeeders fs s, g.barErrs = [] ∧ ∀ o ∈ g.script, o.1 < MaxInt64) ∧
    (∀ x ∈ s.running, x.1.barErrs = []) ∧
    (∀ f ∈ fs, ∃ g ∈ liveFeeders fs s, g.getSymbol = f.getSymbol ∧
      deliveredOf f.getSymbol s.trace ++ runningOf f.getSymbol s.running ++ g.bars = f.bars) ∧
    (deliveries s.trace ++ s.running.map (fun x => (x.1.getSymbol, x.2)) ++
      (liveFeeders fs s).flatMap Feeder.pairs).Perm (fs.flatMap Feeder.pairs)

/-! ## The subscription manager

A Go map with string keys is a list of entries that holds each key once; `range` visits the
entries in the order of the list (Go fixes no order, and no theorem depends on it). The
feeders in `holders` are reference objects in the source; the embedding keeps the current
state of each feeder in the map entry and writes it back where a method changes it. -/

/-- The lookup `v, ok := m[k]`. -/
def mapGet {V : Type} (m : List (String × V)) (k : String) : Option V :=
  m.lookup k

/-- The assignment `m[k] = v`. -/
def mapSet {V : Type} (m : List (String × V)) (k : String) (v : V) : List (String × V) :=
  if m.any (fun e => e.1 == k) then m.map fun e => if e.1 == k then (k, v) else e
  else m ++ [(k, v)]

/-- The builtin `delete(m, k)`. -/
def mapDel {V : Type} (m : List (String × V)) (k : String) : List (String × V) :=
  m.filter fun e => e.1 != k

/-- The function `utils.KeysOfMap`. -/
def KeysOfMap {V : Type} (m : List (String × V)) : List String :=
  m.map Prod.fst

/-- The function `utils.ValsOfMap`. -/
def ValsOfMap {V : Type} (m : List (String × V)) : List V :=
  m.map Prod.snd

/-- The function `utils.CutMap(m, keys...)`. -/
def CutMap {V : Type} (m : List (String × V)) (keys : List String) : List (String × V) :=
  keys.foldl (fun r k => match mapGet m k with
    | some v => mapSet r k v
    | none => r) []

/-- What `Provider.SubWarmPairs` and `HistProvider.SubWarmPairs` take from outside the
file: the feeder factory `p.newFeeder`, the length in seconds of a timeframe label
(`utils.TFToSecs`, not in the sources), the clock `btime.TimeMS()`, whether the exchange
can fetch bars (`exchange.HasApi(banexg.ApiFetchOHLCV, core.Market)`), and the error of
`orm.Conn(nil)`. -/
structure Env where
  newFeeder : String → List String → Except Error Feeder
  tfSecs : String → Int
  timeMS : Int := 0
  hasApi : Bool := false
  connErr : Option Error := none

namespace Feeder

/-- The method `getStates()`. -/
def getStates (f : Feeder) : List PairTFCache := f.states

/-- Modelled from the spec: the method `SubTfs(timeFrames, delOther)` (spec 4.1,
`advanceTimeframes`), which is not in the sources. It subscribes the requested timeframes,
removes the others when `delOther` is true, keeps the state records ordered with the
smallest timeframe first, and returns the timeframes that are newly added. -/
def SubTfs (tfSecs : String → Int) (f : Feeder) (timeFrames : List String)
    (delOther : Bool) : Feeder × List String :=
  let newTfs := timeFrames.filter fun tf => !(f.states.map PairTFCache.TimeFrame).contains tf
  let kept := if delOther then f.states.filter fun st => timeFrames.contains st.TimeFrame
    else f.states
  let added := newTfs.map fun tf =>
    ({ TimeFrame := tf, TFSecs := tfSecs tf, NextMS := 0 } : PairTFCache)
  ({ f with states := sortSlice (fun a b => decide (a.TFSecs < b.TFSecs)) (kept ++ added) },
    newTfs)

/-- Modelled from the spec: the method `WarmTfs(curTimeMS, tfWarms, pBar)` (spec 4.1,
`warmUp`), which is not in the sources: it returns the timestamp from which the replay
resumes, and an error. -/
def WarmTfs (f : Feeder) (_curTimeMS : Int) (_tfWarms : List (String × Int)) :
    Int × Option Error :=
  (f.warmSince, f.warmErr)

/-- Modelled from the spec: the method `SetSeek(since)` (spec 4.1, `setCursor`), which is
not in the sources: it forces the cursor to the first position due at or after `since`. -/
def SetSeek (f : Feeder) (since : Int) : Feeder :=
  { f with script := f.script.dropWhile fun o => decide (o.1 < since) }

/-- Modelled from the spec: the method `DownIfNeed(sess, exchange, pBar)` (spec 6,
`downloadIfNeeded`), which is not in the sources: it fills gaps in the storage and returns
an error when that fails. -/
def DownIfNeed (f : Feeder) : Option Error := f.downErr

end Feeder

/-- The struct `Provider[T]`: the feeders by instrument, the generation counter
`dirtyLast`, and the values sent on the channel `dirtyVers` so far. -/
structure Provider where
  holders : List (String × Feeder) := []
  dirtyVers : List Int := []
  dirtyLast : Int := 0
deriving DecidableEq, Repr

/-- The struct `WarmJob`. -/
structure WarmJob where
  hold : Feeder
  tfWarms : List (String × Int)
deriving DecidableEq, Repr

/-- Modelled from the spec: the function `utils.ParallelRun(arr, concurNum, handle)`
(spec 4.2, warm-up execution), which is not in the sources, in the schedule of one worker:
the jobs run in order, the first error aborts the batch and is returned. The state `σ` is
what the handlers share. -/
def ParallelRun {α σ : Type} (handle : σ → α → σ × Option Error) :
    List α → σ → σ × Option Error
  | [], st => (st, none)
  | job :: jobs, st =>
    match handle st job with
    | (st1, some err) => (st1, some err)
    | (st1, none) => ParallelRun handle jobs st1

/-- The method `Provider.warmJobs(warmJobs)`: the map of resume timestamps and the first
error. -/
def Provider.warmJobs (env : Env) (warmJobs : List WarmJob) :
    List (String × Int) × Option Error :=
  ParallelRun (fun (sinceMap : List (String × Int)) (job : WarmJob) =>
    let hold := job.hold
    let r := hold.WarmTfs env.timeMS job.tfWarms
    (mapSet sinceMap hold.getSymbol r.1, r.2)) warmJobs []

/-- The four values that `Provider.SubWarmPairs` returns. -/
structure SubResult where
  newHolds : List Feeder := []
  sinceMap : List (String × Int) := []
  delPairs : List String := []
  err : Option Error := none
deriving DecidableEq, Repr

/-- The variables of the first loop of `Provider.SubWarmPairs`. -/
structure SubState where
  holders : List (String × Feeder)
  newHolds : List Feeder := []
  warmJobs : List WarmJob := []
  oldSince : List (String × Int) := []
deriving DecidableEq, Repr

/-- How a statement that can fail or panic ends. -/
inductive Flow (α : Type) where
  /-- It ran to its end. -/
  | done (a : α)
  /-- The function returns this error. -/
  | fail (err : Error) (a : α)
  /-- A run-time panic. -/
  | panic

/-- The body of the loop `for pair, tfWarms := range items` of `Provider.SubWarmPairs`. -/
def subPair (env : Env) (delOther : Bool) (st : SubState)
    (item : String × List (String × Int)) : Flow SubState :=
  let pair := item.1
  let tfWarms := item.2
  match mapGet st.holders pair with
  | none =>
    match env.newFeeder pair (KeysOfMap tfWarms) with
    | Except.error err => Flow.fail err st
    | Except.ok hold =>
      Flow.done { st with
        holders := mapSet st.holders pair hold
        newHolds := st.newHolds ++ [hold]
        warmJobs := st.warmJobs ++ [{ hold := hold, tfWarms := tfWarms }] }
  | some hold =>
    match hold.getStates.head? with
    | none => Flow.panic
    | some old0 =>
      let oldMinTf := old0.TimeFrame
      let r := hold.SubTfs env.tfSecs (KeysOfMap tfWarms) delOther
      let hold := r.1
      let newTfs := r.2
      match hold.getStates.head? with
      | none => Flow.panic
      | some cur0 =>
        let curMinTf := cur0.TimeFrame
        let st1 : SubState := { st with holders := mapSet st.holders pair hold }
        let st2 : SubState :=
          if oldMinTf != curMinTf then { st1 with newHolds := st1.newHolds ++ [hold] }
          else { st1 with oldSince := mapSet st1.oldSince (pair ++ "|" ++ curMinTf) cur0.NextMS }
        if newTfs.length > 0 then
          Flow.done { st2 with
            warmJobs := st2.warmJobs ++ [{ hold := hold, tfWarms := CutMap tfWarms newTfs }] }
        else Flow.done st2

/-- The loop `for pair, tfWarms := range items` of `Provider.SubWarmPairs`. -/
def subPairs (env : Env) (delOther : Bool) :
    List (String × List (String × Int)) → SubState → Flow SubState
  | [], st => Flow.done st
  | item :: items, st =>
    match subPair env delOther st item with
    | Flow.done st1 => subPairs env delOther items st1
    | Flow.fail err st1 => Flow.fail err st1
    | Flow.panic => Flow.panic

/-- The method `Provider.SubWarmPairs(items, delOther)`: the provider afterwards and the
four values returned; `none` is a panic. -/
def Provider.SubWarmPairs (env : Env) (p : Provider)
    (items : List (String × List (String × Int))) (delOther : Bool) :
    Option (Provider × SubResult) :=
  match subPairs env delOther items { holders := p.holders } with
  | Flow.panic => none
  | Flow.fail err st => some ({ p with holders := st.holders }, { err := some err })
  | Flow.done st =>
    let delPairs := if delOther then
        (KeysOfMap st.holders).filter fun pair => (mapGet items pair).isNone
      else []
    let holders := delPairs.foldl mapDel st.holders
    let r := Provider.warmJobs env st.warmJobs
    let sinceMap := st.oldSince.foldl (fun m e => mapSet m e.1 e.2) r.1
    some ({ p with holders := holders },
      { newHolds := st.newHolds, sinceMap := sinceMap, delPairs := delPairs, err := r.2 })

/-- The struct `HistProvider`, with the global `btime.CurTimeMS` that its method
`SubWarmPairs` assigns. -/
structure HistProvider where
  provider : Provider := {}
  CurTimeMS : Int := 0
deriving DecidableEq, Repr

/-- The method `HistProvider.downIfNeed()`. -/
def HistProvider.downIfNeed (env : Env) (p : HistProvider) : Option Error :=
  if !env.hasApi then none
  else
    match env.connErr with
    | some err => some err
    | none => (ValsOfMap p.provider.holders).findSome? Feeder.DownIfNeed

/-- The variables of the loop `for pair, since := range sinceMap` of
`HistProvider.SubWarmPairs`. -/
structure SeekState where
  maxSince : Int := 0
  holders : List (String × Feeder) := []
deriving DecidableEq, Repr

/-- The body of the loop `for pair, since := range sinceMap` of
`HistProvider.SubWarmPairs`; `none` is the panic of `getStates()[0]` on a feeder without
state records. -/
def seekPair (old : List (String × Feeder)) (st : SeekState) (e : String × Int) :
    Option SeekState :=
  let pair := e.1
  let since := e.2
  match mapGet old pair with
  | none => some st
  | some hold =>
    if hold.getNextMS = 0 then
      some { maxSince := max st.maxSince since,
             holders := mapSet st.holders pair (hold.SetSeek since) }
    else
      match hold.getStates.head? with
      | none => none
      | some st0 =>
        let hold1 := if st0.NextMS ≠ since then hold.SetSeek since else hold
        some { maxSince := max st.maxSince since,
               holders := mapSet st.holders pair hold1 }

/-- The loop `for pair, since := range sinceMap` of `HistProvider.SubWarmPairs`. -/
def seekPairs (old : List (String × Feeder)) :
    List (String × Int) → SeekState → Option SeekState
  | [], st => some st
  | e :: es, st =>
    match seekPair old st e with
    | none => none
    | some st1 => seekPairs old es st1

/-- The method `HistProvider.SubWarmPairs(items, delOther)`: the provider afterwards and
the error returned; `none` is a panic. -/
def HistProvider.SubWarmPairs (env : Env) (p : HistProvider)
    (items : List (String × List (String × Int))) (delOther : Bool) :
    Option (HistProvider × Option Error) :=
  match Provider.SubWarmPairs env p.provider items delOther with
  | none => none
  | some (prov, res) =>
    let p1 : HistProvider := { p with provider := prov }
    let err := HistProvider.downIfNeed env p1
    if err.isSome then some (p1, err)
    else
      match seekPairs prov.holders res.sinceMap {} with
      | none => none
      | some st =>
        some ({ p1 with
          provider := { prov with holders := st.holders }
          CurTimeMS := st.maxSince }, err)

/-- The method `LiveProvider.SubWarmPairs(items, delOther)` up to its first check, the
sibling of `HistProvider.SubWarmPairs`: `newHolds, sinceMap, delPairs, err :=
p.Provider.SubWarmPairs(items, delOther); if err != nil { return err }`. The value is the
error returned there, `none` when the method goes on. -/
def LiveProvider.subWarmPairsCheck (env : Env) (p : Provider)
    (items : List (String × List (String × Int))) (delOther : Bool) : Option Error :=
  match Provider.SubWarmPairs env p items delOther with
  | none => none
  | some (_, res) => res.err

/-- The value that a Go `int` (64 bits, two's complement) holds for the arithmetic result
`x`: the result wraps around on overflow. -/
def wrapInt64 (x : Int) : Int :=
  (x + 9223372036854775808) % 18446744073709551616 - 9223372036854775808

/-- The method `Provider.SetDirty()`: `p.dirtyLast += 1; p.dirtyVers <- p.dirtyLast`. The
send waits while the buffer of the channel is full; `dirtyVers` lists the values in the
order in which they are sent. -/
def Provider.SetDirty (p : Provider) : Provider :=
  let dirtyLast := wrapInt64 (p.dirtyLast + 1)
  { p with dirtyLast := dirtyLast, dirtyVers := p.dirtyVers ++ [dirtyLast] }

/-- The method `Provider.UnSubPairs(pairs...)`: the provider afterwards and the list
`removed` that is returned. -/
def Provider.UnSubPairs (p : Provider) (pairs : List String) : Provider × List String :=
  pairs.foldl (fun (acc : Provider × List String) pair =>
    match mapGet acc.1.holders pair with
    | some _ => ({ acc.1 with holders := mapDel acc.1.holders pair }, acc.2 ++ [pair])
    | none => acc) (p, [])

/-! ## The live message handler

The handler that `makeOnKlineMsg` returns reads the message, the feeder held under the
instrument of the message and the clock. The feeder is a reference object in the source;
the embedding writes the feeder back under its instrument when the handler has changed it.
The logger is observational and left out. -/

/-- Modelled from the spec: the struct `KLineMsg` (spec 3, live message), whose declaration
is not in the sources: the exchange, the market, the instrument, the timeframe length and
the push interval in seconds, and the bars, oldest first. -/
structure KLineMsg where
  ExgName : String
  Market : String
  Pair : String
  TFSecs : Int
  Interval : Int
  Arr : List Kline
deriving DecidableEq, Repr

/-- One call `hold.onNewBars(barTfMSecs, bars)`: the instrument that `hold` is held under,
and the two arguments. -/
structure Delivery where
  pair : String
  tfMSecs : Int
  bars : List Kline
deriving DecidableEq, Repr

/-- The struct `LiveProvider` as far as the message handler uses it: the `Provider` it
embeds, and the calls of `onNewBars` so far, in their order. -/
structure LiveProvider where
  provider : Provider := {}
  delivered : List Delivery := []
deriving DecidableEq, Repr

/-- Modelled from the spec: the method `getWaitBar()` (spec 4.1, `getPendingBar`), which is
not in the sources. -/
def Feeder.getWaitBar (f : Feeder) : Option Kline := f.waitBar

/-- Modelled from the spec: the method `setWaitBar(bar)` (spec 4.1, `setPendingBar`), which
is not in the sources. -/
def Feeder.setWaitBar (f : Feeder) (bar : Option Kline) : Feeder :=
  { f with waitBar := bar }

/-- Modelled from the spec: the call `hold.onNewBars(barTfMSecs, bars)` (spec 4.4,
"deliver"), on the feeder held under `pair`; the method is not in the sources. The handler
logs the error that the call returns and reads nothing else of it: the call is recorded,
and the pending bar and the state records of the feeder are left as they are. -/
def LiveProvider.onNewBars (p : LiveProvider) (pair : String) (tfMSecs : Int)
    (bars : List Kline) : LiveProvider :=
  { p with delivered := p.delivered ++ [{ pair := pair, tfMSecs := tfMSecs, bars := bars }] }

/-- The feeder `hold`, changed by the handler, is the feeder held under `pair`. -/
def LiveProvider.store (p : LiveProvider) (pair : String) (hold : Feeder) : LiveProvider :=
  { p with provider := { p.provider with holders := mapSet p.provider.holders pair hold } }

/-- The statement `if waitBar != nil && waitBar.Time < lastBar.Time { doneArr =
append([]*banexg.Kline{waitBar}, doneArr...); hold.setWaitBar(nil) }` of the handler, on
the feeder `hold` held under `pair`: the completed set, the provider and the feeder
afterwards. -/
def takeWaitBar (p : LiveProvider) (pair : String) (hold : Feeder) (doneArr : List Kline)
    (lastBar : Kline) : List Kline × LiveProvider × Feeder :=
  match hold.getWaitBar with
  | some waitBar =>
    if waitBar.Time < lastBar.Time then
      (waitBar :: doneArr, p.store pair (hold.setWaitBar none), hold.setWaitBar none)
    else (doneArr, p, hold)
  | none => (doneArr, p, hold)

/-- The condition `msg.Interval <= 5 && hold.getStates()[0].TFSecs >= 60` of the handler;
`none` is the panic of `getStates()[0]` on a feeder without state records, which the
condition reaches only when the first half holds. -/
def fastStream (msg : KLineMsg) (hold : Feeder) : Option Bool :=
  if msg.Interval ≤ 5 then
    match hold.getStates.head? with
    | none => none
    | some st0 => some (decide (st0.TFSecs ≥ 60))
  else some false

/-- The handler from `endLackSecs := int((lastBar.Time + tfMSecs - btime.TimeMS()) / 1000)`
on; `now` is what `btime.TimeMS()` returns. The division of Go truncates toward zero. -/
def lastBarRule (now : Int) (p : LiveProvider) (msg : KLineMsg) (hold : Feeder)
    (tfMSecs : Int) (lastBar : Kline) : LiveProvider :=
  let endLackSecs := Int.tdiv (lastBar.Time + tfMSecs - now) 1000
  if endLackSecs * 2 < msg.Interval then p.onNewBars msg.Pair tfMSecs [lastBar]
  else p.store msg.Pair (hold.setWaitBar (some lastBar))

/-- The handler that `makeOnKlineMsg(p)` returns, on the message `msg`: the provider
afterwards. `exgName` and `market` are `core.ExgName` and `core.Market`, `now` is what
`btime.TimeMS()` returns; `none` is a run-time panic (a slice bound or an index out of
range). -/
def makeOnKlineMsg (exgName market : String) (now : Int) (p : LiveProvider)
    (msg : KLineMsg) : Option LiveProvider :=
  if msg.ExgName ≠ exgName ∨ msg.Market ≠ market then some p
  else
    match mapGet p.provider.holders msg.Pair with
    | none => some p
    | some hold =>
      let tfMSecs := msg.TFSecs * 1000
      if msg.Interval ≥ msg.TFSecs then some (p.onNewBars msg.Pair tfMSecs msg.Arr)
      else
        let lastIdx : Int := (msg.Arr.length : Int) - 1
        if lastIdx < 0 then none
        else
          match msg.Arr[lastIdx.toNat]? with
          | none => none
          | some lastBar =>
            let r := takeWaitBar p msg.Pair hold (msg.Arr.take lastIdx.toNat) lastBar
            let doneArr := r.1
            let p1 := r.2.1
            let hold1 := r.2.2
            if doneArr.length > 0 then some (p1.onNewBars msg.Pair tfMSecs doneArr)
            else
              match fastStream msg hold1 with
              | none => none
              | some true => some (p1.store msg.Pair (hold1.setWaitBar (some lastBar)))
              | some false => some (lastBarRule now p1 msg hold1 tfMSecs lastBar)

/-- The handler on the messages `msgs`, one after the other, each with the time at which
it is handled; `none` when a message ends in a panic. -/
def handleAll (exgName market : String) :
    List (Int × KLineMsg) → LiveProvider → Option LiveProvider
  | [], p => some p
  | m :: ms, p =>
    match makeOnKlineMsg exgName market m.1 p m.2 with
    | none => none
    | some p1 => handleAll exgName market ms p1

/-- The bars handed to the feeder held under `pair`, in the order of their delivery. -/
def deliveredBars (p : LiveProvider) (pair : String) : List Kline :=
  ((p.delivered.filter fun d => d.pair = pair).map Delivery.bars).flatten

/-- The pending bar of the feeder held under `pair`, `none` when there is no such feeder or
it holds no pending bar. -/
def pendingBar (p : LiveProvider) (pair : String) : Option Kline :=
  (mapGet p.provider.holders pair).bind Feeder.getWaitBar

/-! ## Fixtures -/

/-- The lengths of the timeframe labels used in the examples. -/
def exampleSecs (tf : String) : Int :=
  if tf = "1m" then 60 else if tf = "5m" then 300 else 3600

/-- A feeder factory that succeeds: a feeder over one bar at 60000 ms, subscribed to the
timeframes asked for (as `NewHistProvider` does: `feeder.SubTfs(tfs, false)`), whose
warm-up fails when `warmErr` is an error. -/
def exampleEnv (warmErr : Option Error) : Env :=
  { newFeeder := fun pair tfs =>
      Except.ok ({ histFeeder pair [⟨60000⟩] with warmErr := warmErr }.SubTfs
        exampleSecs tfs false).1
    tfSecs := exampleSecs }

/-- A feeder factory that fails (`orm.GetExSymbolCur` does not know the pair). -/
def failingEnv : Env :=
  { newFeeder := fun _ _ => Except.error ⟨"no symbol"⟩
    tfSecs := exampleSecs }

/-- A subscribed feeder of instrument "X" on the timeframe "1m". -/
def exampleFeeder : Feeder :=
  { histFeeder "X" [⟨60000⟩] with states := [⟨"1m", 60, 60000⟩] }

/-- A subscribed feeder of the instrument `symbol` on the timeframe "1m". -/
def heldFeeder (symbol : String) : Feeder :=
  { histFeeder symbol [⟨60000⟩] with states := [⟨"1m", 60, 60000⟩] }

/-- A provider that holds the instruments "ETH" and "BTC". -/
def exampleProvider : Provider :=
  { holders := [("ETH", heldFeeder "ETH"), ("BTC", heldFeeder "BTC")] }

/-- A request for "BTC" (held by `exampleProvider`) and "SOL" (not held), both on "1m". -/
def exampleItems : List (String × List (String × Int)) :=
  [("BTC", [("1m", 10)]), ("SOL", [("1m", 10)])]

/-- A live provider that holds "BTC" on the timeframe "1m", with no pending bar. -/
def liveExample : LiveProvider :=
  { provider := { holders := [("BTC", heldFeeder "BTC")] } }

/-- A live provider that holds "BTC" on the timeframe "1m", with the bar at 60000 ms
pending. -/
def livePending : LiveProvider :=
  { provider := { holders := [("BTC", (heldFeeder "BTC").setWaitBar (some ⟨60000⟩))] } }

/-- A live provider that holds "BTC" with a smallest timeframe of 30 s, with no pending
bar. -/
def liveShort : LiveProvider :=
  { provider := { holders := [("BTC", { heldFeeder "BTC" with states := [⟨"30s", 30, 0⟩] })] } }

/-- A live message for "BTC": bars of 60 s, pushed every `interval` seconds. -/
def liveMsg (interval : Int) (arr : List Kline) : KLineMsg :=
  { ExgName := "binance", Market := "spot", Pair := "BTC", TFSecs := 60,
    Interval := interval, Arr := arr }

end Banbot

namespace Banbot

/-! ## The merge order -/

/-- What the comparison of the full sort decides. -/
theorem sortLess_iff (a b : Feeder) :
    sortLess a b = true ↔
      a.getNextMS < b.getNextMS ∨
        (a.getNextMS = b.getNextMS ∧ a.getNextMS ≠ MaxInt64 ∧
          a.getSymbol.data < b.getSymbol.data) := by
  unfold sortLess strLess
  by_cases h1 : a.getNextMS = MaxInt64 ∨ b.getNextMS = MaxInt64
  · simp only [h1, if_true, decide_eq_true_eq]
    constructor
    · intro h; exact Or.inl h
    · rintro (h | ⟨h2, h3, -⟩)
      · exact h
      · rcases h1 with h1 | h1
        · exact absurd h1 h3
        · exact absurd (h2.trans h1) h3
  · have h1a : a.getNextMS ≠ MaxInt64 := fun h => h1 (Or.inl h)
    by_cases h2 : a.getNextMS = b.getNextMS
    · simp [h1, h2, h1a, h2 ▸ h1a]
    · simp [h1, h2]

/-- The closure of the binary search is the comparison of the full sort, read from the
side of the inserted feeder. -/
theorem searchAfter_eq (h a : Feeder) :
    searchAfter h.getNextMS h.getSymbol a = sortLess h a := by
  unfold searchAfter sortLess
  by_cases h1 : a.getNextMS = MaxInt64 ∨ h.getNextMS = MaxInt64
  · have h1s : h.getNextMS = MaxInt64 ∨ a.getNextMS = MaxInt64 := h1.symm
    simp only [h1, h1s, if_true, gt_iff_lt]
  · have h1s : ¬ (h.getNextMS = MaxInt64 ∨ a.getNextMS = MaxInt64) := fun h => h1 h.symm
    by_cases h2 : a.getNextMS = h.getNextMS
    · simp [h1, h1s, h2]
    · have h2s : ¬ h.getNextMS = a.getNextMS := fun h => h2 h.symm
      simp [h1, h1s, h2, h2s]

theorem sortLess_false_iff (a b : Feeder) :
    sortLess a b = false ↔
      b.getNextMS < a.getNextMS ∨
        (a.getNextMS = b.getNextMS ∧
          (a.getNextMS = MaxInt64 ∨ b.getSymbol.data ≤ a.getSymbol.data)) := by
  rw [← Bool.not_eq_true, sortLess_iff]
  constructor
  · intro h
    push_neg at h
    rcases lt_trichotomy a.getNextMS b.getNextMS with h1 | h1 | h1
    · exact absurd h1 (not_lt.mpr h.1)
    · refine Or.inr ⟨h1, ?_⟩
      by_cases h2 : a.getNextMS = MaxInt64
      · exact Or.inl h2
      · exact Or.inr (h.2 h1 h2)
    · exact Or.inl h1
  · rintro (h | ⟨h1, h2⟩)
    · rintro (h3 | ⟨h3, -, -⟩) <;> omega
    · rintro (h3 | ⟨-, h4, h5⟩)
      · omega
      · rcases h2 with h2 | h2
        · exact h4 h2
        · exact absurd h5 (not_lt.mpr h2)

theorem sortLess_asymm (a b : Feeder) : sortLess a b = false ∨ sortLess b a = false := by
  by_cases h : sortLess a b = true
  · right
    rw [sortLess_iff] at h
    rw [sortLess_false_iff]
    rcases h with h | ⟨h1, h2, h3⟩
    · exact Or.inl h
    · exact Or.inr ⟨h1.symm, Or.inr (le_of_lt h3)⟩
  · left; simpa using h

theorem sortLess_negTrans (a b c : Feeder) (hab : sortLess a b = false)
    (hbc : sortLess b c = false) : sortLess a c = false := by
  rw [sortLess_false_iff] at *
  rcases hab with h | ⟨h1, h2⟩ <;> rcases hbc with h' | ⟨h1', h2'⟩
  · left; omega
  · left; omega
  · left; omega
  · right
    refine ⟨h1.trans h1', ?_⟩
    rcases h2 with h2 | h2
    · exact Or.inl h2
    · rcases h2' with h2' | h2'
      · exact Or.inl (h1.trans h2')
      · exact Or.inr (le_trans h2' h2)

end Banbot

namespace Banbot

/-! ## The library routines -/

theorem sinkLeft_perm {α : Type} (less : α → α → Bool) (x : α) (l : List α) :
    (sinkLeft less x l).Perm (x :: l) := by
  induction l with
  | nil => exact List.Perm.refl _
  | cons y ys ih =>
    unfold sinkLeft
    split
    · exact (List.Perm.cons y ih).trans (List.Perm.swap x y ys)
    · exact List.Perm.refl _

theorem mem_sinkLeft {α : Type} (less : α → α → Bool) (x z : α) (l : List α) :
    z ∈ sinkLeft less x l ↔ z = x ∨ z ∈ l := by
  rw [(sinkLeft_perm less x l).mem_iff, List.mem_cons]

theorem sinkLeft_pairwise {α : Type} (less : α → α → Bool)
    (hasymm : ∀ a b, less a b = false ∨ less b a = false)
    (htrans : ∀ a b c, less a b = false → less b c = false → less a c = false)
    (x : α) (l : List α) (hl : l.Pairwise fun y z => less y z = false) :
    (sinkLeft less x l).Pairwise fun y z => less y z = false := by
  induction l with
  | nil => simp [sinkLeft]
  | cons y ys ih =>
    rw [List.pairwise_cons] at hl
    unfold sinkLeft
    split
    · rename_i hxy
      rw [List.pairwise_cons]
      refine ⟨?_, ih hl.2⟩
      intro z hz
      rw [mem_sinkLeft] at hz
      rcases hz with hz | hz
      · subst hz
        rcases hasymm y z with h | h
        · exact h
        · rw [hxy] at h; cases h
      · exact hl.1 z hz
    · rename_i hxy
      have hxy : less x y = false := by simpa using hxy
      rw [List.pairwise_cons]
      refine ⟨?_, List.pairwise_cons.mpr hl⟩
      intro z hz
      rcases List.mem_cons.mp hz with hz | hz
      · subst hz; exact hxy
      · exact htrans x y z hxy (hl.1 z hz)

theorem foldl_sinkLeft_perm {α : Type} (less : α → α → Bool) (l acc : List α) :
    (l.foldl (fun left x => sinkLeft less x left) acc).Perm (l ++ acc) := by
  induction l generalizing acc with
  | nil => exact List.Perm.refl _
  | cons x xs ih =>
    rw [List.foldl_cons]
    refine (ih _).trans ?_
    refine ((sinkLeft_perm less x acc).append_left xs).trans ?_
    simp

theorem foldl_sinkLeft_pairwise {α : Type} (less : α → α → Bool)
    (hasymm : ∀ a b, less a b = false ∨ less b a = false)
    (htrans : ∀ a b c, less a b = false → less b c = false → less a c = false)
    (l acc : List α) (hacc : acc.Pairwise fun y z => less y z = false) :
    (l.foldl (fun left x => sinkLeft less x left) acc).Pairwise
      fun y z => less y z = false := by
  induction l generalizing acc with
  | nil => exact hacc
  | cons x xs ih =>
    rw [List.foldl_cons]
    exact ih _ (sinkLeft_pairwise less hasymm htrans x acc hacc)

theorem sortSlice_perm {α : Type} (less : α → α → Bool) (l : List α) :
    (sortSlice less l).Perm l := by
  unfold sortSlice
  refine (List.reverse_perm _).trans ?_
  simpa using foldl_sinkLeft_perm less l []

theorem sortSlice_pairwise {α : Type} (less : α → α → Bool)
    (hasymm : ∀ a b, less a b = false ∨ less b a = false)
    (htrans : ∀ a b c, less a b = false → less b c = false → less a c = false)
    (l : List α) : (sortSlice less l).Pairwise fun a b => less b a = false := by
  unfold sortSlice
  rw [List.pairwise_reverse]
  exact foldl_sinkLeft_pairwise less hasymm htrans l [] List.Pairwise.nil

/-- The binary search returns the border between the indices where the predicate fails
and those where it holds, when the predicate is monotone. -/
theorem searchLoop_spec (f : Nat → Bool) (n : Nat)
    (hmono : ∀ x y, x ≤ y → y < n → f x = true → f y = true) :
    ∀ fuel i j, i ≤ j → j ≤ n → j - i ≤ fuel → (∀ x, x < i → f x = false) →
      (∀ x, j ≤ x → x < n → f x = true) →
      i ≤ searchLoop f fuel i j ∧ searchLoop f fuel i j ≤ j ∧
        (∀ x, x < searchLoop f fuel i j → f x = false) ∧
        (∀ x, searchLoop f fuel i j ≤ x → x < n → f x = true) := by
  intro fuel
  induction fuel with
  | zero =>
    intro i j hij _ hf hlo hhi
    have : i = j := by omega
    subst this
    exact ⟨le_refl _, le_refl _, hlo, hhi⟩
  | succ fuel ih =>
    intro i j hij hjn hf hlo hhi
    unfold searchLoop
    by_cases hlt : i < j
    · simp only [hlt, if_true]
      have hh1 : i ≤ (i + j) / 2 := by omega
      have hh2 : (i + j) / 2 < j := by omega
      cases hfh : f ((i + j) / 2) with
      | false =>
        simp only [Bool.not_false, if_true]
        have := ih ((i + j) / 2 + 1) j (by omega) hjn (by omega)
          (fun x hx => by
            cases hfx : f x with
            | false => rfl
            | true =>
              have := hmono x ((i + j) / 2) (by omega) (by omega) hfx
              rw [hfh] at this; cases this)
          hhi
        exact ⟨by omega, this.2.1, this.2.2.1, this.2.2.2⟩
      | true =>
        simp only [Bool.not_true, Bool.false_eq_true, if_false]
        have := ih i ((i + j) / 2) hh1 (by omega) (by omega) hlo
          (fun x hx hxn => hmono _ x hx hxn hfh)
        exact ⟨this.1, by omega, this.2.2.1, this.2.2.2⟩
    · have : i = j := by omega
      subst this
      simp only [lt_self_iff_false, if_false]
      exact ⟨le_refl _, le_refl _, hlo, hhi⟩

theorem sortSearch_spec (f : Nat → Bool) (n : Nat)
    (hmono : ∀ x y, x ≤ y → y < n → f x = true → f y = true) :
    sortSearch n f ≤ n ∧ (∀ x, x < sortSearch n f → f x = false) ∧
      (∀ x, sortSearch n f ≤ x → x < n → f x = true) := by
  have := searchLoop_spec f n hmono n 0 n (Nat.zero_le _) (le_refl _) (by omega)
    (fun x hx => by omega) (fun x hx hxn => by omega)
  exact ⟨this.2.1, this.2.2.1, this.2.2.2⟩

/-- The three slice statements of the insertion (`append`, `copy`, assignment) put the
element at the index and shift the rest. -/
theorem copyWithin_set {α : Type} (h : α) (l : List α) (k : Nat) (hk : k ≤ l.length) :
    (copyWithin (l ++ [h]) (k + 1) k).set k h = l.take k ++ h :: l.drop k := by
  induction l generalizing k with
  | nil =>
    have : k = 0 := by simpa using hk
    subst this
    simp [copyWithin]
  | cons a as ih =>
    cases k with
    | zero =>
      simp [copyWithin]
      omega
    | succ k =>
      have hk2 : k ≤ as.length := by simpa using hk
      have := ih k hk2
      simp only [copyWithin, List.length_append, List.length_cons, List.length_singleton,
        List.length_nil] at this ⊢
      simp only [List.cons_append, List.take_succ_cons, List.drop_succ_cons, List.set_cons_succ,
        List.cons.injEq, true_and]
      have e1 : as.length + 1 + 1 - (k + 1 + 1) = as.length + 1 - (k + 1) := by omega
      have e2 : as.length + 1 + 1 - (k + 1) = as.length + 1 - k := by omega
      have e3 : ∀ m, k + 1 + 1 + m = (k + 1 + m) + 1 := by intro m; omega
      rw [e1, e2, e3, List.drop_succ_cons]
      exact this

end Banbot

namespace Banbot

/-! ## SortFeeders -/

theorem SortFeeders_full (l : List Feeder) (hold : Option Feeder) :
    SortFeeders l hold false = some (sortSlice sortLess l) := by
  simp [SortFeeders]

theorem sortSlice_mergeOrdered (l : List Feeder) : MergeOrdered (sortSlice sortLess l) :=
  sortSlice_pairwise sortLess sortLess_asymm sortLess_negTrans l

/-- The binary-search insertion splits the ordered list at an index `k`: the inserted
feeder is not less than any feeder in front of `k` and is less than every feeder from `k`
on. -/
theorem SortFeeders_insert (l : List Feeder) (h : Feeder) (hl : MergeOrdered l) :
    ∃ k, k ≤ l.length ∧
      SortFeeders l (some h) true = some (l.take k ++ h :: l.drop k) ∧
      (∀ a ∈ l.take k, sortLess h a = false) ∧ (∀ a ∈ l.drop k, sortLess h a = true) := by
  let f : Nat → Bool := fun i =>
    match l[i]? with
    | some a => searchAfter h.getNextMS h.getSymbol a
    | none => false
  have hf : ∀ i (hi : i < l.length), f i = sortLess h l[i] := by
    intro i hi
    simp only [f, List.getElem?_eq_getElem hi, searchAfter_eq]
  have hmono : ∀ x y, x ≤ y → y < l.length → f x = true → f y = true := by
    intro x y hxy hy hx
    have hxl : x < l.length := by omega
    rw [hf x hxl] at hx
    rw [hf y hy]
    rcases Nat.lt_or_ge x y with hlt | hge
    · have hp := List.pairwise_iff_getElem.mp hl x y hxl hy hlt
      cases hb : sortLess h l[y] with
      | true => rfl
      | false =>
        have := sortLess_negTrans _ _ _ hb hp
        rw [hx] at this; cases this
    · have : x = y := by omega
      subst this; exact hx
  obtain ⟨hk, hlo, hhi⟩ := sortSearch_spec f l.length hmono
  refine ⟨sortSearch l.length f, hk, ?_, ?_, ?_⟩
  · simp only [SortFeeders, if_true]
    exact congrArg some (copyWithin_set h l _ hk)
  · intro a ha
    obtain ⟨i, hi, rfl⟩ := List.mem_iff_getElem.mp ha
    rw [List.length_take] at hi
    have hi1 : i < sortSearch l.length f := by omega
    have hi2 : i < l.length := by omega
    rw [List.getElem_take]
    rw [← hf i hi2]
    exact hlo i hi1
  · intro a ha
    obtain ⟨i, hi, rfl⟩ := List.mem_iff_getElem.mp ha
    rw [List.length_drop] at hi
    rw [List.getElem_drop]
    have hi2 : sortSearch l.length f + i < l.length := by omega
    rw [← hf _ hi2]
    exact hhi _ (by omega) hi2

theorem SortFeeders_insert_ordered (l : List Feeder) (h : Feeder) (hl : MergeOrdered l) :
    ∃ r, SortFeeders l (some h) true = some r ∧ MergeOrdered r ∧ r.Perm (h :: l) := by
  obtain ⟨k, -, he, hlo, hhi⟩ := SortFeeders_insert l h hl
  refine ⟨_, he, ?_, ?_⟩
  · have hl2 : MergeOrdered (l.take k ++ l.drop k) := by rw [List.take_append_drop]; exact hl
    unfold MergeOrdered at hl2 ⊢
    rw [List.pairwise_append] at hl2 ⊢
    refine ⟨hl2.1, ?_, ?_⟩
    · rw [List.pairwise_cons]
      refine ⟨?_, hl2.2.1⟩
      intro b hb
      rcases sortLess_asymm h b with h1 | h1
      · rw [hhi b hb] at h1; cases h1
      · exact h1
    · intro a ha b hb
      rcases List.mem_cons.mp hb with hb | hb
      · subst hb; exact hlo a ha
      · exact hl2.2.2 a ha b hb
  · refine (List.perm_middle).trans ?_
    rw [List.take_append_drop]

end Banbot

namespace Banbot

/-! ## The claims on the merge order -/

theorem mergeOrdered_exhaustedLast (r : List Feeder) (hr : MergeOrdered r)
    (hrange : ∀ f ∈ r, f.getNextMS ≤ MaxInt64) : ExhaustedLast r := by
  intro i j hi hj hmax hne
  by_contra hji
  have hlt : i < j := by
    rcases Nat.lt_or_ge i j with h | h
    · exact h
    · have : i = j := by omega
      subst this
      exact absurd hmax hne
  have hp := List.pairwise_iff_getElem.mp hr i j hi hj hlt
  have hlt2 : r[j].getNextMS < r[i].getNextMS := by
    have := hrange r[j] (List.getElem_mem _)
    rw [hmax]
    exact lt_of_le_of_ne this hne
  have : sortLess r[j] r[i] = true := (sortLess_iff _ _).mpr (Or.inl hlt2)
  rw [hp] at this
  cases this

/-- C6 (counterexample). Two exhausted feeders have the same next-due timestamp (the
sentinel); the full sort leaves "B" in front of "A". -/
theorem C6_full_sort_exhausted_tie_not_by_symbol :
    SortFeeders [histFeeder "B" [], histFeeder "A" []] none false =
        some [histFeeder "B" [], histFeeder "A" []] ∧
      (histFeeder "B" []).getNextMS = (histFeeder "A" []).getNextMS ∧
      strLess (histFeeder "A" []).getSymbol (histFeeder "B" []).getSymbol = true := by
  decide

/-- C6 (amended). After a full sort by `SortFeeders`, which returns a permutation of the
list, any two feeders with the same next-due timestamp other than the sentinel stand in
ascending order of their symbols. -/
theorem C6_full_sort_ties_by_symbol (l : List Feeder) :
    ∃ r, SortFeeders l none false = some r ∧ r.Perm l ∧
      ∀ i j (hi : i < r.length) (hj : j < r.length), i < j →
        r[i].getNextMS = r[j].getNextMS → r[i].getNextMS ≠ MaxInt64 →
        r[i].getSymbol ≤ r[j].getSymbol := by
  refine ⟨_, SortFeeders_full l none, sortSlice_perm sortLess l, ?_⟩
  intro i j hi hj hij heq hne
  have hp := List.pairwise_iff_getElem.mp (sortSlice_mergeOrdered l) i j hi hj hij
  rw [sortLess_false_iff] at hp
  rw [← not_lt, String.lt_iff_toList_lt]
  rcases hp with hp | ⟨-, hp | hp⟩
  · omega
  · exact absurd (heq.trans hp) hne
  · exact not_lt.mpr hp

/-- C8. With next-due timestamps in the range of `int64`, the full sort by `SortFeeders`
and the binary-search insertion into a list in scheduler order both return a list in
which every exhausted feeder (next-due timestamp `math.MaxInt64`) stands behind every
feeder that is not exhausted. -/
theorem C8_exhausted_feeders_sort_last (l : List Feeder) (h : Feeder)
    (hrange : ∀ f ∈ h :: l, f.getNextMS ≤ MaxInt64) :
    (∃ r, SortFeeders l none false = some r ∧ r.Perm l ∧ ExhaustedLast r) ∧
      (MergeOrdered l →
        ∃ r, SortFeeders l (some h) true = some r ∧ r.Perm (h :: l) ∧ ExhaustedLast r) := by
  constructor
  · refine ⟨_, SortFeeders_full l none, sortSlice_perm sortLess l, ?_⟩
    apply mergeOrdered_exhaustedLast _ (sortSlice_mergeOrdered l)
    intro f hf
    exact hrange f (List.mem_cons_of_mem _ ((sortSlice_perm sortLess l).mem_iff.mp hf))
  · intro hl
    obtain ⟨r, he, hr, hp⟩ := SortFeeders_insert_ordered l h hl
    refine ⟨r, he, hp, mergeOrdered_exhaustedLast r hr ?_⟩
    intro f hf
    exact hrange f (hp.mem_iff.mp hf)

theorem C8_exhausted_feeders_sort_last_witness :
    (∀ f ∈ [histFeeder "B" [], histFeeder "C" [⟨7⟩], histFeeder "A" []],
        f.getNextMS ≤ MaxInt64) ∧
      ((∃ r, SortFeeders [histFeeder "C" [⟨7⟩], histFeeder "A" []] none false = some r ∧
          r.Perm [histFeeder "C" [⟨7⟩], histFeeder "A" []] ∧ ExhaustedLast r) ∧
        (MergeOrdered [histFeeder "C" [⟨7⟩], histFeeder "A" []] →
          ∃ r, SortFeeders [histFeeder "C" [⟨7⟩], histFeeder "A" []]
              (some (histFeeder "B" [])) true = some r ∧
            r.Perm [histFeeder "B" [], histFeeder "C" [⟨7⟩], histFeeder "A" []] ∧
            ExhaustedLast r)) :=
  ⟨by decide, C8_exhausted_feeders_sort_last _ _ (by decide)⟩

end Banbot

namespace Banbot

/-! ## Traces -/

theorem poppedTimes_append (a b : List Event) :
    poppedTimes (a ++ b) = poppedTimes a ++ poppedTimes b := by
  simp [poppedTimes, List.filterMap_append]

theorem scanTrace_append (a b : List Event) :
    scanTrace (a ++ b) = b.foldl scanEvent (scanTrace a) := by
  simp [scanTrace, List.foldl_append]

theorem scanEvent_runBar_of_le (st : Option Int × Bool) (sym : String) (bar : Kline)
    (err : Option Error) (hok : st.2 = true) (hle : ∀ t, st.1 = some t → t ≤ bar.Time) :
    scanEvent st (Event.runBar sym bar err) = st := by
  obtain ⟨b, ok⟩ := st
  cases b with
  | none => rfl
  | some t =>
    have := hle t rfl
    simp only at hok
    simp [scanEvent, hok, this]

/-- What a goroutine of the wait group changes: `retErr` and the trace, by one event that
is neither a pop nor a boundary. -/
theorem runTask_spec (s : RunState) (x : Feeder × Kline)
    (hok : (scanTrace s.trace).2 = true)
    (hle : ∀ t, (scanTrace s.trace).1 = some t → t ≤ x.2.Time) :
    scanTrace (runTask s x).trace = scanTrace s.trace ∧
      poppedTimes (runTask s x).trace = poppedTimes s.trace ∧
      (runTask s x).hold = s.hold ∧ (runTask s x).holds = s.holds ∧
      (runTask s x).lastBarMs = s.lastBarMs ∧ (runTask s x).oldVer = s.oldVer ∧
      (runTask s x).calls = s.calls ∧ (runTask s x).running = s.running := by
  unfold runTask
  split
  · refine ⟨?_, ?_, rfl, rfl, rfl, rfl, rfl, rfl⟩
    · simp [scanTrace_append, scanEvent]
    · simp [poppedTimes_append, poppedTimes]
  · refine ⟨?_, ?_, rfl, rfl, rfl, rfl, rfl, rfl⟩
    · simp only [scanTrace_append, List.foldl_cons, List.foldl_nil]
      exact scanEvent_runBar_of_le _ _ _ _ hok hle
    · simp [poppedTimes_append, poppedTimes]

theorem foldl_runTask_spec (ts : List (Feeder × Kline)) (s : RunState)
    (hok : (scanTrace s.trace).2 = true)
    (hle : ∀ x ∈ ts, ∀ t, (scanTrace s.trace).1 = some t → t ≤ x.2.Time) :
    scanTrace (ts.foldl runTask s).trace = scanTrace s.trace ∧
      poppedTimes (ts.foldl runTask s).trace = poppedTimes s.trace ∧
      (ts.foldl runTask s).hold = s.hold ∧ (ts.foldl runTask s).holds = s.holds ∧
      (ts.foldl runTask s).lastBarMs = s.lastBarMs ∧
      (ts.foldl runTask s).oldVer = s.oldVer ∧
      (ts.foldl runTask s).calls = s.calls ∧ (ts.foldl runTask s).running = s.running := by
  induction ts generalizing s with
  | nil => exact ⟨rfl, rfl, rfl, rfl, rfl, rfl, rfl, rfl⟩
  | cons x xs ih =>
    rw [List.foldl_cons]
    obtain ⟨h1, h2, h3, h4, h5, h6, h7, h8⟩ :=
      runTask_spec s x hok (hle x (List.mem_cons_self _ _))
    obtain ⟨k1, k2, k3, k4, k5, k6, k7, k8⟩ := ih (runTask s x) (by rw [h1]; exact hok)
      (fun y hy t ht => hle y (List.mem_cons_of_mem _ hy) t (by rw [← h1]; exact ht))
    exact ⟨k1.trans h1, k2.trans h2, k3.trans h3, k4.trans h4, k5.trans h5, k6.trans h6,
      k7.trans h7, k8.trans h8⟩

/-- The barrier `wg.Wait()` on a safe state. -/
theorem wgWait_spec (s : RunState) (hs : Safe s) :
    Safe (wgWait s) ∧ scanTrace (wgWait s).trace = scanTrace s.trace ∧
      poppedTimes (wgWait s).trace = poppedTimes s.trace ∧
      (wgWait s).hold = s.hold ∧ (wgWait s).holds = s.holds ∧
      (wgWait s).lastBarMs = s.lastBarMs ∧ (wgWait s).oldVer = s.oldVer ∧
      (wgWait s).calls = s.calls ∧ (wgWait s).running = [] := by
  obtain ⟨hp, hok, hle⟩ := hs
  obtain ⟨k1, k2, k3, k4, k5, k6, k7, -⟩ := foldl_runTask_spec s.running s hok hle
  have e1 : scanTrace (wgWait s).trace = scanTrace s.trace := by
    simp only [wgWait, scanTrace_append, List.foldl_cons, List.foldl_nil, scanEvent]
    exact k1
  have e2 : poppedTimes (wgWait s).trace = poppedTimes s.trace := by
    simp only [wgWait, poppedTimes_append]
    rw [k2]
    simp [poppedTimes]
  refine ⟨⟨?_, ?_, ?_⟩, e1, e2, k3, k4, k5, k6, k7, rfl⟩
  · rw [e2]; exact hp
  · rw [e1]; exact hok
  · intro x hx
    have : (wgWait s).running = [] := rfl
    rw [this] at hx
    cases hx

end Banbot

namespace Banbot

/-! ## Regular feeders -/

theorem Feeder.Regular.getBar {f : Feeder} (hf : f.Regular) {bar : Kline}
    (hb : f.GetBar = some bar) : bar.Time = f.getNextMS ∧ f.script ≠ [] := by
  unfold Feeder.GetBar at hb
  unfold Feeder.getNextMS
  cases hs : f.script with
  | nil => rw [hs] at hb; cases hb
  | cons o rest =>
    rw [hs] at hb
    simp only at hb
    have := (hf.1 o (by rw [hs]; exact List.mem_cons_self _ _)).2
    rw [hb] at this
    simp only [Option.map_some', Option.some.injEq] at this
    exact ⟨this, by simp⟩

theorem Feeder.Regular.callNext {f : Feeder} (hf : f.Regular) : f.CallNext.Regular := by
  unfold Feeder.Regular Feeder.CallNext
  simp only
  exact ⟨fun o ho => hf.1 o (List.mem_of_mem_tail ho), hf.2.tail⟩

theorem Feeder.Regular.next_le {f : Feeder} (hf : f.Regular) :
    ∀ o ∈ f.script, f.getNextMS ≤ o.1 := by
  intro o ho
  unfold Feeder.getNextMS
  cases hs : f.script with
  | nil => rw [hs] at ho; cases ho
  | cons p rest =>
    rw [hs] at ho
    simp only
    rcases List.mem_cons.mp ho with h | h
    · rw [h]
    · have := hf.2
      rw [hs, List.pairwise_cons] at this
      exact le_of_lt (this.1 o h)

theorem Feeder.Regular.lt_callNext {f : Feeder} (hf : f.Regular) (hne : f.script ≠ []) :
    ∀ o ∈ f.CallNext.script, f.getNextMS < o.1 := by
  intro o ho
  unfold Feeder.CallNext at ho
  unfold Feeder.getNextMS
  cases hs : f.script with
  | nil => exact absurd hs hne
  | cons p rest =>
    rw [hs] at ho
    simp only [List.tail_cons] at ho
    have := hf.2
    rw [hs, List.pairwise_cons] at this
    exact this.1 o ho

theorem sortLess_false_le {g f : Feeder} (h : sortLess g f = false) :
    f.getNextMS ≤ g.getNextMS := by
  rw [sortLess_false_iff] at h
  rcases h with h | ⟨h, -⟩
  · exact le_of_lt h
  · exact le_of_eq h.symm

/-! ## The invariant of the loop -/

theorem safe_of_same_trace {s s1 : RunState}
    (hp : poppedTimes s1.trace = poppedTimes s.trace)
    (hsc : scanTrace s1.trace = scanTrace s.trace) (hr : s1.running = s.running)
    (hs : Safe s) : Safe s1 := by
  unfold Safe at *
  rw [hp, hsc, hr]
  exact hs

/-- The state after the first statement of `step`. -/
theorem refresh_spec (fs : List Feeder) (mk : Nat → List Feeder → List Feeder)
    (hfs : ∀ f ∈ fs, f.Regular)
    (hmk : ∀ k live, (mk k live).Perm (if k = 0 then fs else live))
    (ver : Int) (s s1 : RunState) (hs : Inv s) (hr : refresh mk ver s = some s1) :
    Safe s1 ∧ MergeOrdered s1.holds ∧
      (∀ f ∈ s1.holds, f.Regular ∧ ∀ o ∈ f.script, s1.lastBarMs ≤ o.1) ∧
      s1.calls ≠ 0 ∧ (∀ t ∈ poppedTimes s1.trace, t ≤ s1.lastBarMs) ∧
      (∀ t, (scanTrace s1.trace).1 = some t → t ≤ s1.lastBarMs) := by
  obtain ⟨hsafe, hord, hreg, hzero, hcalls, hpop, hscan⟩ := hs
  unfold refresh at hr
  split at hr
  · simp only [SortFeeders_full, Option.map_some', Option.some.injEq] at hr
    subst hr
    have hp : poppedTimes (s.trace ++ [Event.makeFeeders, Event.sortFull]) =
        poppedTimes s.trace := by simp [poppedTimes_append, poppedTimes]
    have hsc : scanTrace (s.trace ++ [Event.makeFeeders, Event.sortFull]) =
        scanTrace s.trace := by simp [scanTrace_append, scanEvent]
    refine ⟨safe_of_same_trace hp hsc rfl hsafe, sortSlice_mergeOrdered _, ?_, ?_, ?_, ?_⟩
    · intro f hf
      have hf1 := (sortSlice_perm sortLess _).mem_iff.mp hf
      have hf2 := (hmk _ _).mem_iff.mp hf1
      by_cases hc : s.calls = 0
      · rw [if_pos hc] at hf2
        refine ⟨hfs f hf2, fun o ho => ?_⟩
        show s.lastBarMs ≤ o.1
        rw [hzero hc]
        exact le_of_lt ((hfs f hf2).1 o ho).1
      · rw [if_neg hc] at hf2
        exact hreg f hf2
    · show s.calls + 1 ≠ 0
      omega
    · intro t ht
      change t ∈ poppedTimes (s.trace ++ _) at ht
      rw [hp] at ht
      exact hpop t ht
    · intro t ht
      change (scanTrace (s.trace ++ _)).1 = some t at ht
      rw [hsc] at ht
      exact hscan t ht
  · rename_i hcond
    have hne : s.holds ≠ [] := by
      intro h
      apply hcond
      right
      rw [h]; rfl
    cases hh : s.hold with
    | none =>
      rw [hh] at hr
      simp [SortFeeders] at hr
    | some h =>
      rw [hh] at hr
      obtain ⟨r, he, hro, hrp⟩ := SortFeeders_insert_ordered s.holds h hord
      rw [he] at hr
      simp only [Option.map_some', Option.some.injEq] at hr
      subst hr
      have hp : ∀ x, poppedTimes (s.trace ++ [Event.sortInsert x]) =
          poppedTimes s.trace := by intro x; simp [poppedTimes_append, poppedTimes]
      have hsc : ∀ x, scanTrace (s.trace ++ [Event.sortInsert x]) =
          scanTrace s.trace := by intro x; simp [scanTrace_append, scanEvent]
      refine ⟨safe_of_same_trace (hp _) (hsc _) rfl hsafe, hro, ?_, hcalls hne, ?_, ?_⟩
      · intro f hf
        have hf1 := hrp.mem_iff.mp hf
        apply hreg f
        rw [hh]
        simpa using hf1
      · intro t ht
        change t ∈ poppedTimes (s.trace ++ _) at ht
        rw [hp] at ht
        exact hpop t ht
      · intro t ht
        change (scanTrace (s.trace ++ _)).1 = some t at ht
        rw [hsc] at ht
        exact hscan t ht

end Banbot

namespace Banbot

theorem Feeder.getNextMS_mem {f : Feeder} (hne : f.script ≠ []) :
    ∃ o ∈ f.script, o.1 = f.getNextMS := by
  unfold Feeder.getNextMS
  cases hs : f.script with
  | nil => exact absurd hs hne
  | cons o rest => exact ⟨o, List.mem_cons_self _ _, rfl⟩

/-- The delivery of a popped bar that is not older than the last boundary keeps the
invariant. -/
theorem deliver_inv (hold : Feeder) (bar : Kline) (s : RunState) (hsafe : Safe s)
    (hpop : ∀ t ∈ poppedTimes s.trace, t ≤ bar.Time)
    (hscan : ∀ t, (scanTrace s.trace).1 = some t → t ≤ s.lastBarMs)
    (hge : s.lastBarMs ≤ bar.Time) (hord : MergeOrdered s.holds)
    (hreg : ∀ f ∈ s.hold.toList ++ s.holds, f.Regular ∧ ∀ o ∈ f.script, bar.Time ≤ o.1)
    (hcalls : s.calls ≠ 0) :
    match deliver hold bar s with
    | StepResult.next s1 => Inv s1
    | StepResult.stop s1 => Safe s1
    | StepResult.panic s1 => Safe s1 := by
  unfold deliver
  by_cases hgt : bar.Time > s.lastBarMs
  · simp only [hgt, if_true]
    obtain ⟨hs3, e1, e2, e3, e4, e5, e6, e7, e8⟩ := wgWait_spec s hsafe
    by_cases herr : (wgWait s).retErr.isSome = true
    · simp only [herr, if_true]
      exact hs3
    · simp only [herr]
      have hsc4 : ∀ err, scanTrace ((wgWait s).trace ++
          [Event.runBar hold.getSymbol bar err]) = scanTrace s.trace := by
        intro err
        rw [scanTrace_append, e1]
        simp only [List.foldl_cons, List.foldl_nil]
        apply scanEvent_runBar_of_le _ _ _ _ hsafe.2.1
        intro t ht
        exact le_trans (hscan t ht) hge
      have hp4 : ∀ err, poppedTimes ((wgWait s).trace ++
          [Event.runBar hold.getSymbol bar err]) = poppedTimes s.trace := by
        intro err
        rw [poppedTimes_append, e2]
        simp [poppedTimes]
      by_cases herr2 : (hold.RunBar bar).isSome = true
      · simp only [herr2, if_true]
        refine ⟨?_, ?_, ?_⟩
        · show (poppedTimes (_ ++ [Event.runBar _ _ _])).Pairwise _
          rw [hp4]; exact hsafe.1
        · show (scanTrace (_ ++ [Event.runBar _ _ _])).2 = true
          rw [hsc4]; exact hsafe.2.1
        · intro x hx
          change x ∈ (wgWait s).running at hx
          rw [e8] at hx
          cases hx
      · simp only [herr2]
        have hp5 : poppedTimes (((wgWait s).trace ++
            [Event.runBar hold.getSymbol bar (hold.RunBar bar)]) ++
            [Event.newTime bar.Time]) = poppedTimes s.trace := by
          rw [poppedTimes_append, hp4]
          simp [poppedTimes]
        have hsc5 : scanTrace (((wgWait s).trace ++
            [Event.runBar hold.getSymbol bar (hold.RunBar bar)]) ++
            [Event.newTime bar.Time]) = (some bar.Time, (scanTrace s.trace).2) := by
          rw [scanTrace_append, hsc4]
          simp [scanEvent]
        refine ⟨⟨?_, ?_, ?_⟩, ?_, ?_, ?_, ?_, ?_, ?_⟩
        · show (poppedTimes (_ ++ [Event.newTime _])).Pairwise _
          rw [hp5]; exact hsafe.1
        · show (scanTrace (_ ++ [Event.newTime _])).2 = true
          rw [hsc5]; exact hsafe.2.1
        · intro x hx
          change x ∈ (wgWait s).running at hx
          rw [e8] at hx
          cases hx
        · show MergeOrdered (wgWait s).holds
          rw [e4]; exact hord
        · show ∀ f ∈ (wgWait s).hold.toList ++ (wgWait s).holds,
            f.Regular ∧ ∀ o ∈ f.script, bar.Time ≤ o.1
          rw [e3, e4]; exact hreg
        · intro hc
          change (wgWait s).calls = 0 at hc
          rw [e7] at hc
          exact absurd hc hcalls
        · intro _
          show (wgWait s).calls ≠ 0
          rw [e7]; exact hcalls
        · show ∀ t ∈ poppedTimes (_ ++ [Event.newTime _]), t ≤ bar.Time
          rw [hp5]; exact hpop
        · intro t ht
          change (scanTrace (_ ++ [Event.newTime _])).1 = some t at ht
          rw [hsc5] at ht
          simp only [Option.some.injEq] at ht
          show t ≤ bar.Time
          rw [← ht]
  · simp only [hgt, if_false]
    have heq : bar.Time = s.lastBarMs := by omega
    have hp3 : poppedTimes (s.trace ++ [Event.spawn hold.getSymbol bar]) =
        poppedTimes s.trace := by
      simp [poppedTimes_append, poppedTimes]
    have hsc3 : scanTrace (s.trace ++ [Event.spawn hold.getSymbol bar]) =
        scanTrace s.trace := by
      simp [scanTrace_append, scanEvent]
    refine ⟨⟨?_, ?_, ?_⟩, ?_, ?_, ?_, ?_, ?_, ?_⟩
    · show (poppedTimes (_ ++ [Event.spawn _ _])).Pairwise _
      rw [hp3]; exact hsafe.1
    · show (scanTrace (_ ++ [Event.spawn _ _])).2 = true
      rw [hsc3]; exact hsafe.2.1
    · intro x hx t ht
      change (scanTrace (_ ++ [Event.spawn _ _])).1 = some t at ht
      rw [hsc3] at ht
      change x ∈ s.running ++ [(hold, bar)] at hx
      rcases List.mem_append.mp hx with hx | hx
      · exact hsafe.2.2 x hx t ht
      · rw [List.mem_singleton] at hx
        rw [hx]
        exact le_trans (hscan t ht) hge
    · exact hord
    · show ∀ f ∈ s.hold.toList ++ s.holds, f.Regular ∧ ∀ o ∈ f.script, s.lastBarMs ≤ o.1
      rw [← heq]; exact hreg
    · intro hc
      exact absurd hc hcalls
    · intro _
      exact hcalls
    · show ∀ t ∈ poppedTimes (_ ++ [Event.spawn _ _]), t ≤ s.lastBarMs
      rw [hp3, ← heq]; exact hpop
    · intro t ht
      change (scanTrace (_ ++ [Event.spawn _ _])).1 = some t at ht
      rw [hsc3] at ht
      exact hscan t ht

/-- One round of the loop over regular feeders keeps the invariant, and leaves a safe
trace when it ends the loop. -/
theorem step_inv (fs : List Feeder) (mk : Nat → List Feeder → List Feeder)
    (hfs : ∀ f ∈ fs, f.Regular)
    (hmk : ∀ k live, (mk k live).Perm (if k = 0 then fs else live))
    (ver : Int) (s : RunState) (hs : Inv s) :
    match step mk ver s with
    | StepResult.next s1 => Inv s1
    | StepResult.stop s1 => Safe s1
    | StepResult.panic s1 => Safe s1 := by
  unfold step
  cases hr : refresh mk ver s with
  | none => exact hs.1
  | some s1 =>
    obtain ⟨hsafe, hord, hreg, hcalls, hpop, hscan⟩ :=
      refresh_spec fs mk hfs hmk ver s s1 hs hr
    simp only
    cases hh : s1.holds with
    | nil => exact hsafe
    | cons hold rest =>
      simp only
      rw [hh] at hord hreg
      have hregh := hreg hold (List.mem_cons_self _ _)
      cases hb : hold.GetBar with
      | none =>
        simp only
        refine safe_of_same_trace (s := s1) ?_ ?_ rfl hsafe
        · simp [poppedTimes_append, poppedTimes]
        · simp [scanTrace_append, scanEvent]
      | some bar =>
        simp only
        obtain ⟨hbt, hne⟩ := hregh.1.getBar hb
        have hge : s1.lastBarMs ≤ bar.Time := by
          obtain ⟨o, ho, hoe⟩ := Feeder.getNextMS_mem hne
          rw [hbt, ← hoe]
          exact hregh.2 o ho
        have hp2 : poppedTimes (s1.trace ++ [Event.getBar hold.getSymbol (some bar),
            Event.callNext hold.getSymbol]) = poppedTimes s1.trace ++ [bar.Time] := by
          simp [poppedTimes_append, poppedTimes]
        have hsc2 : scanTrace (s1.trace ++ [Event.getBar hold.getSymbol (some bar),
            Event.callNext hold.getSymbol]) = scanTrace s1.trace := by
          simp [scanTrace_append, scanEvent]
        apply deliver_inv
        · refine ⟨?_, ?_, ?_⟩
          · show (poppedTimes (s1.trace ++ _)).Pairwise _
            rw [hp2, List.pairwise_append]
            refine ⟨hsafe.1, List.pairwise_singleton _ _, ?_⟩
            intro a ha b hb'
            rw [List.mem_singleton] at hb'
            subst hb'
            exact le_trans (hpop a ha) hge
          · show (scanTrace (s1.trace ++ _)).2 = true
            rw [hsc2]; exact hsafe.2.1
          · intro x hx t ht
            change (scanTrace (s1.trace ++ _)).1 = some t at ht
            rw [hsc2] at ht
            exact hsafe.2.2 x hx t ht
        · show ∀ t ∈ poppedTimes (s1.trace ++ _), t ≤ bar.Time
          rw [hp2]
          intro t ht
          rcases List.mem_append.mp ht with ht | ht
          · exact le_trans (hpop t ht) hge
          · rw [List.mem_singleton] at ht
            rw [ht]
        · intro t ht
          change (scanTrace (s1.trace ++ _)).1 = some t at ht
          rw [hsc2] at ht
          exact hscan t ht
        · exact hge
        · exact (List.pairwise_cons.mp hord).2
        · intro f hf
          change f ∈ (some hold.CallNext).toList ++ rest at hf
          simp only [Option.toList_some, List.singleton_append, List.mem_cons] at hf
          rcases hf with hf | hf
          · subst hf
            refine ⟨hregh.1.callNext, fun o ho => ?_⟩
            rw [hbt]
            exact le_of_lt (hregh.1.lt_callNext hne o ho)
          · have hfr := (hreg f (List.mem_cons_of_mem _ hf)).1
            refine ⟨hfr, fun o ho => ?_⟩
            have h1 : sortLess f hold = false := (List.pairwise_cons.mp hord).1 f hf
            have h2 := sortLess_false_le h1
            have h3 := hfr.next_le o ho
            rw [hbt]
            exact le_trans h2 h3
        · exact hcalls

end Banbot

namespace Banbot

/-! ## The run -/

theorem inv_init : Inv {} := by
  refine ⟨⟨?_, rfl, ?_⟩, ?_, ?_, ?_, ?_, ?_, ?_⟩
  · exact List.Pairwise.nil
  · intro x hx; cases hx
  · exact List.Pairwise.nil
  · intro f hf; cases hf
  · intro _; rfl
  · intro h; exact absurd rfl h
  · intro t ht; cases ht
  · intro t ht; cases ht

/-- Every state that a run over regular feeders reaches has a safe trace. -/
theorem runLoop_safe (fs : List Feeder) (mk : Nat → List Feeder → List Feeder)
    (hfs : ∀ f ∈ fs, f.Regular)
    (hmk : ∀ k live, (mk k live).Perm (if k = 0 then fs else live)) :
    ∀ (fuel : Nat) (versions : List (Option Int)) (s : RunState), Inv s →
      Safe (runLoop mk fuel versions s).2 := by
  intro fuel
  induction fuel with
  | zero => intro versions s hs; exact hs.1
  | succ fuel ih =>
    intro versions s hs
    unfold runLoop
    simp only
    split
    · exact hs.1
    · have hstep := step_inv fs mk hfs hmk ((versions.headD none).getD 0) s hs
      split
      · rename_i s1 he
        rw [he] at hstep
        exact ih _ s1 hstep
      · rename_i s1 he
        rw [he] at hstep
        exact (wgWait_spec s1 hstep).1
      · rename_i s1 he
        rw [he] at hstep
        exact hstep

theorem staticFeeders_perm (fs : List Feeder) (k : Nat) (live : List Feeder) :
    (staticFeeders fs k live).Perm (if k = 0 then fs else live) :=
  List.Perm.refl _

/-! ## What one round appends to the trace -/

theorem foldl_runTask_trace (ts : List (Feeder × Kline)) (s : RunState) :
    ∃ ev, (ts.foldl runTask s).trace = s.trace ++ ev ∧
      ∀ e ∈ ev, ∃ x ∈ ts, e = Event.runBar x.1.getSymbol x.2 (x.1.RunBar x.2) ∨
        e = Event.skipBar x.1.getSymbol x.2 := by
  induction ts generalizing s with
  | nil => exact ⟨[], by simp, fun e he => by cases he⟩
  | cons x xs ih =>
    rw [List.foldl_cons]
    obtain ⟨ev, he, hev⟩ := ih (runTask s x)
    have h1 : ∃ e, (runTask s x).trace = s.trace ++ [e] ∧
        (e = Event.runBar x.1.getSymbol x.2 (x.1.RunBar x.2) ∨
          e = Event.skipBar x.1.getSymbol x.2) := by
      unfold runTask
      split
      · exact ⟨_, rfl, Or.inr rfl⟩
      · exact ⟨_, rfl, Or.inl rfl⟩
    obtain ⟨e0, he0, hor⟩ := h1
    refine ⟨e0 :: ev, ?_, ?_⟩
    · rw [he, he0]; simp
    · intro e hmem
      rcases List.mem_cons.mp hmem with h | h
      · subst h
        exact ⟨x, List.mem_cons_self _ _, hor⟩
      · obtain ⟨y, hy, hor2⟩ := hev e h
        exact ⟨y, List.mem_cons_of_mem _ hy, hor2⟩

/-- The barrier appends the deliveries of the goroutines that were running, and nothing
else, and touches no feeder. -/
theorem wgWait_trace (s : RunState) :
    ∃ ev, (wgWait s).trace = s.trace ++ ev ∧
      (∀ e ∈ ev, e = Event.wait ∨
        ∃ x ∈ s.running, e = Event.runBar x.1.getSymbol x.2 (x.1.RunBar x.2) ∨
          e = Event.skipBar x.1.getSymbol x.2) ∧
      (wgWait s).holds = s.holds ∧ (wgWait s).hold = s.hold ∧
      (wgWait s).calls = s.calls ∧ (wgWait s).oldVer = s.oldVer ∧
      (wgWait s).running = [] := by
  obtain ⟨ev, he, hev⟩ := foldl_runTask_trace s.running s
  have hfields : ∀ (ts : List (Feeder × Kline)) (s0 : RunState),
      (ts.foldl runTask s0).holds = s0.holds ∧ (ts.foldl runTask s0).hold = s0.hold ∧
        (ts.foldl runTask s0).calls = s0.calls ∧
        (ts.foldl runTask s0).oldVer = s0.oldVer := by
    intro ts
    induction ts with
    | nil => intro s0; exact ⟨rfl, rfl, rfl, rfl⟩
    | cons x xs ih =>
      intro s0
      rw [List.foldl_cons]
      obtain ⟨a, b, c, d⟩ := ih (runTask s0 x)
      have h0 : (runTask s0 x).holds = s0.holds ∧ (runTask s0 x).hold = s0.hold ∧
          (runTask s0 x).calls = s0.calls ∧ (runTask s0 x).oldVer = s0.oldVer := by
        unfold runTask
        split <;> exact ⟨rfl, rfl, rfl, rfl⟩
      exact ⟨a.trans h0.1, b.trans h0.2.1, c.trans h0.2.2.1, d.trans h0.2.2.2⟩
  obtain ⟨a, b, c, d⟩ := hfields s.running s
  refine ⟨ev ++ [Event.wait], ?_, ?_, a, b, c, d, rfl⟩
  · show (s.running.foldl runTask s).trace ++ [Event.wait] = _
    rw [he]; simp
  · intro e hmem
    rcases List.mem_append.mp hmem with h | h
    · exact Or.inr (hev e h)
    · rw [List.mem_singleton] at h
      exact Or.inl h

theorem isSort_of_wgWait_event {s : RunState} {e : Event}
    (h : e = Event.wait ∨
      ∃ x ∈ s.running, e = Event.runBar x.1.getSymbol x.2 (x.1.RunBar x.2) ∨
        e = Event.skipBar x.1.getSymbol x.2) : e.isSort = false := by
  rcases h with h | ⟨x, -, h | h⟩ <;> subst h <;> rfl

/-- The second half of `step` calls neither `makeFeeders` nor `SortFeeders`. -/
theorem deliver_trace (hold : Feeder) (bar : Kline) (s : RunState) :
    ∃ ev, (deliver hold bar s).state.trace = s.trace ++ ev ∧
      (∀ e ∈ ev, e.isSort = false) ∧ (deliver hold bar s).state.calls = s.calls ∧
      (deliver hold bar s).state.oldVer = s.oldVer := by
  obtain ⟨ev, he, hev, -, -, hc, ho, -⟩ := wgWait_trace s
  have hev2 : ∀ e ∈ ev, e.isSort = false := fun e h => isSort_of_wgWait_event (hev e h)
  unfold deliver
  by_cases hgt : bar.Time > s.lastBarMs
  · simp only [hgt, if_true]
    by_cases herr : (wgWait s).retErr.isSome = true
    · simp only [herr, if_true]
      exact ⟨ev, he, hev2, hc, ho⟩
    · simp only [herr]
      by_cases herr2 : (hold.RunBar bar).isSome = true
      · simp only [herr2, if_true]
        refine ⟨ev ++ [Event.runBar hold.getSymbol bar (hold.RunBar bar)], ?_, ?_, hc, ho⟩
        · show (wgWait s).trace ++ _ = _
          rw [he]; simp
        · intro e hmem
          rcases List.mem_append.mp hmem with h | h
          · exact hev2 e h
          · rw [List.mem_singleton] at h; subst h; rfl
      · simp only [herr2]
        refine ⟨ev ++ [Event.runBar hold.getSymbol bar (hold.RunBar bar),
          Event.newTime bar.Time], ?_, ?_, hc, ho⟩
        · show ((wgWait s).trace ++ _) ++ _ = _
          rw [he]; simp
        · intro e hmem
          rcases List.mem_append.mp hmem with h | h
          · exact hev2 e h
          · simp only [List.mem_cons, List.mem_singleton, List.not_mem_nil, or_false] at h
            rcases h with h | h <;> subst h <;> rfl
  · simp only [hgt, if_false]
    refine ⟨[Event.spawn hold.getSymbol bar], rfl, ?_, rfl, rfl⟩
    intro e h
    rw [List.mem_singleton] at h; subst h; rfl

/-- After its first statement `step` calls neither `makeFeeders` nor `SortFeeders`. -/
theorem step_trace (mk : Nat → List Feeder → List Feeder) (ver : Int) (s s1 : RunState)
    (hr : refresh mk ver s = some s1) :
    ∃ ev, (step mk ver s).state.trace = s1.trace ++ ev ∧
      (∀ e ∈ ev, e.isSort = false) ∧ (step mk ver s).state.calls = s1.calls ∧
      (step mk ver s).state.oldVer = s1.oldVer := by
  unfold step
  rw [hr]
  simp only
  cases hh : s1.holds with
  | nil =>
    refine ⟨[], ?_, ?_, rfl, rfl⟩
    · simp [StepResult.state]
    · intro e h; cases h
  | cons hold rest =>
    simp only
    cases hb : hold.GetBar with
    | none =>
      refine ⟨[Event.getBar hold.getSymbol none], rfl, ?_, rfl, rfl⟩
      intro e h
      rw [List.mem_singleton] at h; subst h; rfl
    | some bar =>
      simp only
      obtain ⟨ev, he, hev, hc, ho⟩ := deliver_trace hold.CallNext bar { s1 with
        hold := some hold.CallNext
        holds := rest
        trace := s1.trace ++
          [Event.getBar hold.getSymbol (some bar), Event.callNext hold.getSymbol] }
      refine ⟨[Event.getBar hold.getSymbol (some bar), Event.callNext hold.getSymbol] ++ ev,
        ?_, ?_, hc, ho⟩
      · rw [he]; simp
      · intro e hmem
        rcases List.mem_append.mp hmem with h | h
        · simp only [List.mem_cons, List.mem_singleton, List.not_mem_nil, or_false] at h
          rcases h with h | h <;> subst h <;> rfl
        · exact hev e h

end Banbot

namespace Banbot

/-! ## Termination of the run -/

theorem totalBars_perm {l1 l2 : List Feeder} (h : l1.Perm l2) :
    totalBars l1 = totalBars l2 :=
  (h.map _).sum_eq

theorem totalBars_cons (f : Feeder) (l : List Feeder) :
    totalBars (f :: l) = f.script.length + totalBars l := by
  simp [totalBars]

/-- The first statement of `step` keeps the feeders the loop works on. -/
theorem refresh_perm (fs : List Feeder) (mk : Nat → List Feeder → List Feeder)
    (hmk : ∀ k live, (mk k live).Perm (if k = 0 then fs else live))
    (ver : Int) (s s1 : RunState) (hs : Inv s) (hr : refresh mk ver s = some s1) :
    totalBars s1.holds = remaining fs s := by
  obtain ⟨-, hord, -, -, hcalls, -, -⟩ := hs
  unfold refresh at hr
  unfold remaining
  split at hr
  · simp only [SortFeeders_full, Option.map_some', Option.some.injEq] at hr
    subst hr
    show totalBars (sortSlice sortLess _) = _
    rw [totalBars_perm (sortSlice_perm sortLess _), totalBars_perm (hmk _ _)]
    by_cases hc : s.calls = 0
    · simp [hc]
    · simp [hc]
  · rename_i hcond
    have hne : s.holds ≠ [] := by
      intro h
      apply hcond
      right
      rw [h]; rfl
    cases hh : s.hold with
    | none =>
      rw [hh] at hr
      simp [SortFeeders] at hr
    | some h =>
      rw [hh] at hr
      obtain ⟨r, he, -, hrp⟩ := SortFeeders_insert_ordered s.holds h hord
      rw [he] at hr
      simp only [Option.map_some', Option.some.injEq] at hr
      subst hr
      rw [if_neg (hcalls hne)]
      show totalBars r = _
      rw [totalBars_perm hrp]
      rfl

theorem deliver_next (hold : Feeder) (bar : Kline) (s s1 : RunState)
    (h : deliver hold bar s = StepResult.next s1) :
    s1.hold = s.hold ∧ s1.holds = s.holds ∧ s1.calls = s.calls := by
  obtain ⟨_, _, _, h1, h2, h3, _, _⟩ := wgWait_trace s
  unfold deliver at h
  by_cases hgt : bar.Time > s.lastBarMs
  · simp only [hgt, if_true] at h
    by_cases herr : (wgWait s).retErr.isSome = true
    · simp only [herr, if_true] at h
      cases h
    · simp only [herr] at h
      by_cases herr2 : (hold.RunBar bar).isSome = true
      · simp only [herr2, if_true] at h
        cases h
      · simp only [herr2] at h
        cases h
        exact ⟨h2, h1, h3⟩
  · simp only [hgt, if_false] at h
    cases h
    exact ⟨rfl, rfl, rfl⟩

/-- A round that lets the loop go on uses up one cursor position. -/
theorem step_remaining (fs : List Feeder) (mk : Nat → List Feeder → List Feeder)
    (hfs : ∀ f ∈ fs, f.Regular)
    (hmk : ∀ k live, (mk k live).Perm (if k = 0 then fs else live))
    (ver : Int) (s s1 : RunState) (hs : Inv s)
    (hstep : step mk ver s = StepResult.next s1) :
    remaining fs s1 + 1 = remaining fs s := by
  unfold step at hstep
  cases hr : refresh mk ver s with
  | none => rw [hr] at hstep; cases hstep
  | some s0 =>
    rw [hr] at hstep
    simp only at hstep
    have hperm := refresh_perm fs mk hmk ver s s0 hs hr
    have hcalls := (refresh_spec fs mk hfs hmk ver s s0 hs hr).2.2.2.1
    cases hh : s0.holds with
    | nil => rw [hh] at hstep; cases hstep
    | cons hold rest =>
      rw [hh] at hstep hperm
      simp only at hstep
      cases hb : hold.GetBar with
      | none => rw [hb] at hstep; cases hstep
      | some bar =>
        rw [hb] at hstep
        simp only at hstep
        obtain ⟨e1, e2, e3⟩ := deliver_next _ _ _ _ hstep
        have hne : hold.script ≠ [] := by
          intro h
          unfold Feeder.GetBar at hb
          rw [h] at hb
          cases hb
        have hlen : hold.CallNext.script.length + 1 = hold.script.length := by
          unfold Feeder.CallNext
          simp only [List.length_tail]
          have : 0 < hold.script.length := List.length_pos.mpr hne
          omega
        rw [← hperm]
        unfold remaining
        rw [e3, e1, e2]
        simp only [hcalls, if_false, Option.toList_some, List.singleton_append]
        rw [totalBars_cons, totalBars_cons]
        omega

/-- With more fuel than cursor positions left, the run over regular feeders ends before
the fuel does. -/
theorem runLoop_finishes (fs : List Feeder) (mk : Nat → List Feeder → List Feeder)
    (hfs : ∀ f ∈ fs, f.Regular)
    (hmk : ∀ k live, (mk k live).Perm (if k = 0 then fs else live)) :
    ∀ (fuel : Nat) (versions : List (Option Int)) (s : RunState), Inv s →
      remaining fs s < fuel → (runLoop mk fuel versions s).1 ≠ Outcome.unfinished := by
  intro fuel
  induction fuel with
  | zero => intro versions s _ h; omega
  | succ fuel ih =>
    intro versions s hs hlt
    unfold runLoop
    simp only
    split
    · intro h; cases h
    · have hinv := step_inv fs mk hfs hmk ((versions.headD none).getD 0) s hs
      split
      · rename_i s1 he
        rw [he] at hinv
        have := step_remaining fs mk hfs hmk _ s s1 hs he
        exact ih _ s1 hinv (by omega)
      · intro h; cases h
      · intro h; cases h

end Banbot

namespace Banbot

theorem refresh_running (mk : Nat → List Feeder → List Feeder) (ver : Int)
    (s s1 : RunState) (hr : refresh mk ver s = some s1) : s1.running = s.running := by
  unfold refresh at hr
  split at hr
  · simp only [SortFeeders_full, Option.map_some', Option.some.injEq] at hr
    subst hr; rfl
  · cases hs : SortFeeders s.holds s.hold true with
    | none => rw [hs] at hr; cases hr
    | some l =>
      rw [hs] at hr
      simp only [Option.map_some', Option.some.injEq] at hr
      subst hr; rfl

/-! ## The claims on the replay loop -/

/-- C1. Over regular feeders (each yields bars with strictly increasing timestamps above
zero and reports the timestamp of its next bar, or the sentinel, as next-due) that
`makeFeeders` returns in any order, the timestamps of the bars that `RunHistFeeders` pops
and hands to `RunBar` never decrease, at any point of the run; and the run ends within as
many rounds as the feeders have bars, plus one. The theorem needs neither distinct symbols
nor the absence of generation messages or delivery errors. -/
theorem C1_popped_timestamps_non_decreasing (fs : List Feeder)
    (mk : Nat → List Feeder → List Feeder) (versions : List (Option Int)) (fuel : Nat)
    (hfs : ∀ f ∈ fs, f.Regular)
    (hmk : ∀ k live, (mk k live).Perm (if k = 0 then fs else live)) :
    (poppedTimes (RunHistFeeders fuel mk versions).2.trace).Pairwise (· ≤ ·) ∧
      (totalBars fs < fuel →
        (RunHistFeeders fuel mk versions).1 ≠ Outcome.unfinished) :=
  ⟨(runLoop_safe fs mk hfs hmk fuel versions {} inv_init).1,
    fun h => runLoop_finishes fs mk hfs hmk fuel versions {} inv_init h⟩

theorem C1_popped_timestamps_non_decreasing_witness :
    (∀ f ∈ [histFeeder "B" [⟨10⟩, ⟨30⟩], histFeeder "A" [⟨10⟩, ⟨20⟩]], f.Regular) ∧
      poppedTimes (RunHistFeeders 9
        (staticFeeders [histFeeder "B" [⟨10⟩, ⟨30⟩], histFeeder "A" [⟨10⟩, ⟨20⟩]])
        []).2.trace = [10, 10, 20, 30] ∧
      (RunHistFeeders 9
        (staticFeeders [histFeeder "B" [⟨10⟩, ⟨30⟩], histFeeder "A" [⟨10⟩, ⟨20⟩]])
        []).1 = Outcome.returned none ∧
      ((poppedTimes (RunHistFeeders 9
        (staticFeeders [histFeeder "B" [⟨10⟩, ⟨30⟩], histFeeder "A" [⟨10⟩, ⟨20⟩]])
        []).2.trace).Pairwise (· ≤ ·) ∧
        (totalBars [histFeeder "B" [⟨10⟩, ⟨30⟩], histFeeder "A" [⟨10⟩, ⟨20⟩]] < 9 →
          (RunHistFeeders 9
            (staticFeeders [histFeeder "B" [⟨10⟩, ⟨30⟩], histFeeder "A" [⟨10⟩, ⟨20⟩]])
            []).1 ≠ Outcome.unfinished)) :=
  ⟨by decide, by decide, by decide,
    C1_popped_timestamps_non_decreasing _ _ _ _ (by decide) (staticFeeders_perm _)⟩

/-- C2 (counterexample). The first list holds feeder "A" with bars at 10 and 20; a
generation message makes the loop fetch a list that also holds feeder "B" with a bar at 5.
The bar at 5 is delivered after the boundary `lastBarMs = 10`. -/
theorem C2_older_bar_delivered_after_refetch :
    (RunHistFeeders 9
        (fun k live =>
          if k = 0 then [histFeeder "A" [⟨10⟩, ⟨20⟩]] else live ++ [histFeeder "B" [⟨5⟩]])
        [none, some 1]).2.trace =
      [Event.makeFeeders, Event.sortFull,
        Event.getBar "A" (some ⟨10⟩), Event.callNext "A", Event.wait,
        Event.runBar "A" ⟨10⟩ none, Event.newTime 10,
        Event.makeFeeders, Event.sortFull,
        Event.getBar "B" (some ⟨5⟩), Event.callNext "B", Event.spawn "B" ⟨5⟩,
        Event.sortInsert "B",
        Event.getBar "A" (some ⟨20⟩), Event.callNext "A",
        Event.runBar "B" ⟨5⟩ none, Event.wait,
        Event.runBar "A" ⟨20⟩ none, Event.newTime 20,
        Event.sortInsert "A", Event.getBar "B" none, Event.wait] ∧
      noLateDelivery (RunHistFeeders 9
        (fun k live =>
          if k = 0 then [histFeeder "A" [⟨10⟩, ⟨20⟩]] else live ++ [histFeeder "B" [⟨5⟩]])
        [none, some 1]).2.trace = false := by
  decide

/-- C2 (amended). In every run of `RunHistFeeders`, with or without generation messages,
in which every list fetched through `makeFeeders` holds the same regular feeders (in any
order), no bar with a timestamp before the last new-time boundary is delivered after that
boundary. -/
theorem C2_no_late_delivery_over_same_feeders (fs : List Feeder)
    (mk : Nat → List Feeder → List Feeder) (versions : List (Option Int)) (fuel : Nat)
    (hfs : ∀ f ∈ fs, f.Regular)
    (hmk : ∀ k live, (mk k live).Perm (if k = 0 then fs else live)) :
    noLateDelivery (RunHistFeeders fuel mk versions).2.trace = true :=
  (runLoop_safe fs mk hfs hmk fuel versions {} inv_init).2.1

theorem C2_no_late_delivery_over_same_feeders_witness :
    (∀ f ∈ [histFeeder "A" [⟨10⟩, ⟨20⟩], histFeeder "B" [⟨10⟩, ⟨15⟩]], f.Regular) ∧
      noLateDelivery (RunHistFeeders 9
        (staticFeeders [histFeeder "A" [⟨10⟩, ⟨20⟩], histFeeder "B" [⟨10⟩, ⟨15⟩]])
        [none, some 1, none, some 2]).2.trace = true :=
  ⟨by decide, C2_no_late_delivery_over_same_feeders _ _ _ _ (by decide)
    (staticFeeders_perm _)⟩

/-- C3 (the code at the failing input). The only feeder fails on its first bar, which is
delivered synchronously as the first bar of a new timestamp: `RunBar` returns the error,
the loop stops, and `RunHistFeeders` returns nil. -/
theorem C3_synchronous_delivery_error_is_not_returned :
    (RunHistFeeders 9
        (staticFeeders [{ histFeeder "C" [⟨10⟩, ⟨20⟩] with barErrs := [(10, ⟨"boom"⟩)] }])
        []).1 = Outcome.returned none ∧
      (RunHistFeeders 9
        (staticFeeders [{ histFeeder "C" [⟨10⟩, ⟨20⟩] with barErrs := [(10, ⟨"boom"⟩)] }])
        []).2.trace =
        [Event.makeFeeders, Event.sortFull, Event.getBar "C" (some ⟨10⟩),
          Event.callNext "C", Event.wait, Event.runBar "C" ⟨10⟩ (some ⟨"boom"⟩),
          Event.wait] := by
  decide

/-- C9. When the feeder at the head of the merge order has no next bar, the round ends the
loop and `RunHistFeeders` returns: after the `GetBar` that returned nil the trace holds
only the barrier and the deliveries of the goroutines that were already running (the
current batch); no cursor is advanced, the working list is left as it is, and no goroutine
is running at the return. -/
theorem C9_exhausted_head_ends_loop (mk : Nat → List Feeder → List Feeder) (fuel : Nat)
    (versions : List (Option Int)) (s s1 : RunState) (hold : Feeder) (rest : List Feeder)
    (hver : 0 ≤ (versions.headD none).getD 0)
    (hr : refresh mk ((versions.headD none).getD 0) s = some s1)
    (hh : s1.holds = hold :: rest) (hb : hold.GetBar = none) :
    (runLoop mk (fuel + 1) versions s).1 =
        Outcome.returned (runLoop mk (fuel + 1) versions s).2.retErr ∧
      (runLoop mk (fuel + 1) versions s).2.holds = hold :: rest ∧
      (runLoop mk (fuel + 1) versions s).2.running = [] ∧
      ∃ ev, (runLoop mk (fuel + 1) versions s).2.trace =
          s1.trace ++ Event.getBar hold.getSymbol none :: ev ∧
        ∀ e ∈ ev, e = Event.wait ∨
          ∃ x ∈ s.running, e = Event.runBar x.1.getSymbol x.2 (x.1.RunBar x.2) ∨
            e = Event.skipBar x.1.getSymbol x.2 := by
  have hstep : step mk ((versions.headD none).getD 0) s =
      StepResult.stop { s1 with
        hold := some hold
        trace := s1.trace ++ [Event.getBar hold.getSymbol none] } := by
    unfold step
    rw [hr]
    simp only
    rw [hh]
    simp only
    rw [hb]
  unfold runLoop
  simp only [not_lt.mpr hver, if_false, hstep]
  obtain ⟨ev, he, hev, h1, -, -, -, h5⟩ := wgWait_trace { s1 with
    hold := some hold
    trace := s1.trace ++ [Event.getBar hold.getSymbol none] }
  refine ⟨trivial, ?_, h5, ev, ?_, ?_⟩
  · rw [h1]; exact hh
  · rw [he]; simp
  · intro e hmem
    have := hev e hmem
    rw [← refresh_running mk _ s s1 hr]
    exact this

theorem C9_exhausted_head_ends_loop_witness :
    (runLoop (staticFeeders []) 1 []
        { hold := some (histFeeder "A" []), holds := [histFeeder "B" []], calls := 1,
          lastBarMs := 10, running := [(histFeeder "C" [], ⟨10⟩)] }).1 =
        Outcome.returned (runLoop (staticFeeders []) 1 []
          { hold := some (histFeeder "A" []), holds := [histFeeder "B" []], calls := 1,
            lastBarMs := 10, running := [(histFeeder "C" [], ⟨10⟩)] }).2.retErr ∧
      (runLoop (staticFeeders []) 1 []
        { hold := some (histFeeder "A" []), holds := [histFeeder "B" []], calls := 1,
          lastBarMs := 10, running := [(histFeeder "C" [], ⟨10⟩)] }).2.holds =
        histFeeder "B" [] :: [histFeeder "A" []] ∧
      (runLoop (staticFeeders []) 1 []
        { hold := some (histFeeder "A" []), holds := [histFeeder "B" []], calls := 1,
          lastBarMs := 10, running := [(histFeeder "C" [], ⟨10⟩)] }).2.running = [] :=
  have h := C9_exhausted_head_ends_loop (staticFeeders []) 0 []
    { hold := some (histFeeder "A" []), holds := [histFeeder "B" []], calls := 1,
      lastBarMs := 10, running := [(histFeeder "C" [], ⟨10⟩)] }
    { hold := some (histFeeder "A" []), holds := [histFeeder "B" [], histFeeder "A" []],
      calls := 1, lastBarMs := 10, running := [(histFeeder "C" [], ⟨10⟩)],
      trace := [Event.sortInsert "A"] }
    (histFeeder "B" []) [histFeeder "A" []] (by decide) (by decide) rfl (by decide)
  ⟨h.1, h.2.1, h.2.2.1⟩

end Banbot

namespace Banbot

/-- C10. In a round where the working list is not empty and the generation value read is
at most the last applied one (0 stands for an empty channel), `step` does not rebuild: it
does not call `makeFeeders`, does no full sort and leaves `oldVer`; its first statement
puts the feeder advanced last back by `SortFeeders(holds, hold, true)` and is the only
call of `SortFeeders`. In a round where the value is greater than the last applied one or
the working list is empty, `step` rebuilds: one call of `makeFeeders`, one full sort, and
`oldVer = max(oldVer, ver)`. -/
theorem C10_rebuild_only_on_newer_generation_or_empty_list
    (mk : Nat → List Feeder → List Feeder) (ver : Int) (s : RunState) :
    (s.holds ≠ [] → ver ≤ s.oldVer →
      (step mk ver s).state.calls = s.calls ∧ (step mk ver s).state.oldVer = s.oldVer ∧
      ∃ ev, (step mk ver s).state.trace = s.trace ++ ev ∧
        Event.makeFeeders ∉ ev ∧ Event.sortFull ∉ ev ∧
        ∀ h, s.hold = some h →
          ∃ l ev1, SortFeeders s.holds (some h) true = some l ∧
            refresh mk ver s = some { s with
              holds := l, trace := s.trace ++ [Event.sortInsert h.getSymbol] } ∧
            ev = Event.sortInsert h.getSymbol :: ev1 ∧ ∀ e ∈ ev1, e.isSort = false) ∧
    (s.oldVer < ver ∨ s.holds = [] →
      (step mk ver s).state.calls = s.calls + 1 ∧
      (step mk ver s).state.oldVer = max s.oldVer ver ∧
      ∃ l ev1, SortFeeders (mk s.calls (s.hold.toList ++ s.holds)) none false = some l ∧
        refresh mk ver s = some { s with
          holds := l, oldVer := max s.oldVer ver, calls := s.calls + 1,
          trace := s.trace ++ [Event.makeFeeders, Event.sortFull] } ∧
        (step mk ver s).state.trace =
          s.trace ++ Event.makeFeeders :: Event.sortFull :: ev1 ∧
        ∀ e ∈ ev1, e.isSort = false) := by
  constructor
  · intro hne hver
    have hcond : ¬ (ver > s.oldVer ∨ s.holds.length = 0) := by
      rintro (h | h)
      · omega
      · exact hne (List.length_eq_zero.mp h)
    cases hh : s.hold with
    | none =>
      have hr : refresh mk ver s = none := by
        unfold refresh
        rw [if_neg hcond, hh]
        simp [SortFeeders]
      have hst : step mk ver s = StepResult.panic s := by
        unfold step
        rw [hr]
      rw [hst]
      refine ⟨rfl, rfl, [], by simp [StepResult.state], by simp, by simp, ?_⟩
      intro h hh2
      cases hh2
    | some h =>
      obtain ⟨l, he⟩ : ∃ l, SortFeeders s.holds (some h) true = some l := ⟨_, rfl⟩
      have hr : refresh mk ver s = some { s with
          holds := l
          trace := s.trace ++ [Event.sortInsert h.getSymbol] } := by
        unfold refresh
        rw [if_neg hcond, hh, he]
        rfl
      obtain ⟨ev, hev, hsort, hc, ho⟩ := step_trace mk ver s _ hr
      refine ⟨hc, ho, Event.sortInsert h.getSymbol :: ev, ?_, ?_, ?_, ?_⟩
      · rw [hev]; simp
      · intro hmem
        rcases List.mem_cons.mp hmem with h1 | h1
        · cases h1
        · have := hsort _ h1
          cases this
      · intro hmem
        rcases List.mem_cons.mp hmem with h1 | h1
        · cases h1
        · have := hsort _ h1
          cases this
      · intro h2 hh2
        cases hh2
        rw [hh] at hr
        exact ⟨_, ev, he, hr, rfl, hsort⟩
  · intro hcond0
    have hcond : ver > s.oldVer ∨ s.holds.length = 0 := by
      rcases hcond0 with h | h
      · exact Or.inl h
      · exact Or.inr (by rw [h]; rfl)
    have hr : refresh mk ver s = some { s with
        holds := sortSlice sortLess (mk s.calls (s.hold.toList ++ s.holds))
        oldVer := max s.oldVer ver
        calls := s.calls + 1
        trace := s.trace ++ [Event.makeFeeders, Event.sortFull] } := by
      unfold refresh
      rw [if_pos hcond]
      simp only [SortFeeders_full, Option.map_some']
    obtain ⟨ev, hev, hsort, hc, ho⟩ := step_trace mk ver s _ hr
    refine ⟨hc, ho, _, ev, SortFeeders_full _ _, hr, ?_, hsort⟩
    rw [hev]; simp

theorem C10_rebuild_only_on_newer_generation_or_empty_list_witness :
    (step (staticFeeders []) 1
        { hold := some (histFeeder "A" [⟨20⟩]), holds := [histFeeder "B" [⟨15⟩]],
          oldVer := 1, calls := 1, lastBarMs := 10 }).state.calls = 1 ∧
      (step (staticFeeders []) 2
        { hold := some (histFeeder "A" [⟨20⟩]), holds := [histFeeder "B" [⟨15⟩]],
          oldVer := 1, calls := 1, lastBarMs := 10 }).state.calls = 1 + 1 :=
  ⟨((C10_rebuild_only_on_newer_generation_or_empty_list (staticFeeders []) 1
      { hold := some (histFeeder "A" [⟨20⟩]), holds := [histFeeder "B" [⟨15⟩]],
        oldVer := 1, calls := 1, lastBarMs := 10 }).1 (by decide) (by decide)).1,
    ((C10_rebuild_only_on_newer_generation_or_empty_list (staticFeeders []) 2
      { hold := some (histFeeder "A" [⟨20⟩]), holds := [histFeeder "B" [⟨15⟩]],
        oldVer := 1, calls := 1, lastBarMs := 10 }).2 (Or.inl (by decide))).1⟩

end Banbot

namespace Banbot

/-! ## The claims on the subscription sweep -/

/-- C4 (the code at the failing input). Instrument "X" is subscribed on "1m" and is
requested again with the same timeframe. `Provider.SubWarmPairs` records its resume point
under the key "X|1m" and starts no warm-up job; `HistProvider.SubWarmPairs` looks the key
"X|1m" up in `holders`, finds nothing, and replaces `holders` by the empty map: the call
returns nil and "X" is no longer subscribed. -/
theorem C4_resubscribed_instrument_is_dropped :
    (Provider.SubWarmPairs (exampleEnv none) { holders := [("X", exampleFeeder)] }
        [("X", [("1m", 10)])] false).map (fun r => r.2.sinceMap) =
        some [("X|1m", 60000)] ∧
      HistProvider.SubWarmPairs (exampleEnv none)
          { provider := { holders := [("X", exampleFeeder)] } }
          [("X", [("1m", 10)])] false =
        some ({ provider := { holders := [] }, CurTimeMS := 0 }, none) := by
  decide

/-- C5 (the code at the failing input). The feeder factory fails for the requested
instrument, or the warm-up job of the new feeder fails: `Provider.SubWarmPairs` returns the
error (and `LiveProvider.SubWarmPairs` returns it to its caller), but
`HistProvider.SubWarmPairs` overwrites it with the nil result of `downIfNeed` and returns
nil. -/
theorem C5_subscription_error_is_overwritten :
    ((Provider.SubWarmPairs failingEnv {} [("X", [("1m", 10)])] false).map
        (fun r => r.2.err) = some (some ⟨"no symbol"⟩) ∧
      LiveProvider.subWarmPairsCheck failingEnv {} [("X", [("1m", 10)])] false =
        some ⟨"no symbol"⟩ ∧
      (HistProvider.SubWarmPairs failingEnv {} [("X", [("1m", 10)])] false).map
        (fun r => r.2) = some none) ∧
    ((Provider.SubWarmPairs (exampleEnv (some ⟨"warm-up failed"⟩)) {}
        [("X", [("1m", 10)])] false).map (fun r => r.2.err) =
        some (some ⟨"warm-up failed"⟩) ∧
      LiveProvider.subWarmPairsCheck (exampleEnv (some ⟨"warm-up failed"⟩)) {}
        [("X", [("1m", 10)])] false = some ⟨"warm-up failed"⟩ ∧
      (HistProvider.SubWarmPairs (exampleEnv (some ⟨"warm-up failed"⟩)) {}
        [("X", [("1m", 10)])] false).map (fun r => r.2) = some none) := by
  decide

end Banbot

namespace Banbot

/-! ## The claims on the generation protocol -/

/-- C11 (counterexample). The loop reads the generation 1 twice. The first read (round 2)
is greater than the last applied generation 0 and rebuilds; the second read (round 3) is
equal to the last applied generation 1, and the round only puts the feeder advanced last
back: there is no third call of `makeFeeders`. -/
theorem C11_equal_generation_does_not_rebuild :
    (RunHistFeeders 3
        (staticFeeders [histFeeder "A" [⟨10⟩, ⟨20⟩], histFeeder "B" [⟨10⟩, ⟨20⟩]])
        [none, some 1, some 1]).2.trace =
      [Event.makeFeeders, Event.sortFull,
        Event.getBar "A" (some ⟨10⟩), Event.callNext "A", Event.wait,
        Event.runBar "A" ⟨10⟩ none, Event.newTime 10,
        Event.makeFeeders, Event.sortFull,
        Event.getBar "B" (some ⟨10⟩), Event.callNext "B", Event.spawn "B" ⟨10⟩,
        Event.sortInsert "B",
        Event.getBar "A" (some ⟨20⟩), Event.callNext "A",
        Event.runBar "B" ⟨10⟩ none, Event.wait,
        Event.runBar "A" ⟨20⟩ none, Event.newTime 20] ∧
      (RunHistFeeders 3
        (staticFeeders [histFeeder "A" [⟨10⟩, ⟨20⟩], histFeeder "B" [⟨10⟩, ⟨20⟩]])
        [none, some 1, some 1]).2.calls = 2 := by
  decide

/-- C11 (amended). Whenever the generation value read is strictly greater than the last
applied one, the round performs a full rebuild: it fetches the feeder list through
`makeFeeders`, sorts it in full, and takes the value as the last applied generation. -/
theorem C11_newer_generation_rebuilds (mk : Nat → List Feeder → List Feeder) (ver : Int)
    (s : RunState) (hver : s.oldVer < ver) :
    (step mk ver s).state.calls = s.calls + 1 ∧ (step mk ver s).state.oldVer = ver ∧
      ∃ l ev, SortFeeders (mk s.calls (s.hold.toList ++ s.holds)) none false = some l ∧
        refresh mk ver s = some { s with
          holds := l, oldVer := ver, calls := s.calls + 1,
          trace := s.trace ++ [Event.makeFeeders, Event.sortFull] } ∧
        (step mk ver s).state.trace = s.trace ++ Event.makeFeeders :: Event.sortFull :: ev ∧
        ∀ e ∈ ev, e.isSort = false := by
  have hmax : max s.oldVer ver = ver := max_eq_right (le_of_lt hver)
  have hr : refresh mk ver s = some { s with
      holds := sortSlice sortLess (mk s.calls (s.hold.toList ++ s.holds))
      oldVer := ver
      calls := s.calls + 1
      trace := s.trace ++ [Event.makeFeeders, Event.sortFull] } := by
    unfold refresh
    rw [if_pos (Or.inl hver)]
    simp only [SortFeeders_full, Option.map_some', hmax]
  obtain ⟨ev, hev, hsort, hc, ho⟩ := step_trace mk ver s _ hr
  refine ⟨hc, ho, _, ev, SortFeeders_full _ _, hr, ?_, hsort⟩
  rw [hev]; simp

theorem C11_newer_generation_rebuilds_witness :
    (step (staticFeeders []) 2
        { hold := some (histFeeder "A" [⟨20⟩]), holds := [histFeeder "B" [⟨15⟩]],
          oldVer := 1, calls := 1, lastBarMs := 10 }).state.calls = 1 + 1 ∧
      (step (staticFeeders []) 2
        { hold := some (histFeeder "A" [⟨20⟩]), holds := [histFeeder "B" [⟨15⟩]],
          oldVer := 1, calls := 1, lastBarMs := 10 }).state.oldVer = 2 :=
  have h := C11_newer_generation_rebuilds (staticFeeders []) 2
    { hold := some (histFeeder "A" [⟨20⟩]), holds := [histFeeder "B" [⟨15⟩]],
      oldVer := 1, calls := 1, lastBarMs := 10 } (by decide)
  ⟨h.1, h.2.1⟩

/-- C12. Whenever the value read from the control channel is negative, `RunHistFeeders`
returns at once with the pending error, whatever the last applied generation and the
working list are: the state of the loop is left as it is, so no feeder is popped, no
cursor is advanced and the trace gets no further event. -/
theorem C12_negative_value_returns_at_once (mk : Nat → List Feeder → List Feeder)
    (fuel : Nat) (v : Int) (rest : List (Option Int)) (s : RunState) (hneg : v < 0) :
    runLoop mk (fuel + 1) (some v :: rest) s = (Outcome.returned s.retErr, s) := by
  unfold runLoop
  simp [hneg]

theorem C12_negative_value_returns_at_once_witness :
    runLoop (staticFeeders []) 1 [some (-1)]
        { hold := some (histFeeder "A" [⟨20⟩]), holds := [histFeeder "B" [⟨15⟩]],
          oldVer := 1, calls := 1, lastBarMs := 10, retErr := some ⟨"boom"⟩ } =
      (Outcome.returned (some ⟨"boom"⟩),
        { hold := some (histFeeder "A" [⟨20⟩]), holds := [histFeeder "B" [⟨15⟩]],
          oldVer := 1, calls := 1, lastBarMs := 10, retErr := some ⟨"boom"⟩ }) :=
  C12_negative_value_returns_at_once (staticFeeders []) 0 (-1) []
    { hold := some (histFeeder "A" [⟨20⟩]), holds := [histFeeder "B" [⟨15⟩]],
      oldVer := 1, calls := 1, lastBarMs := 10, retErr := some ⟨"boom"⟩ } (by decide)

/-- C14 (counterexample). Feeder "B" ties the timestamp 10 of feeder "A", so its bar goes
to a goroutine; the next read of the channel is the terminate signal, and
`RunHistFeeders` returns while that goroutine has not finished. -/
theorem C14_terminate_signal_returns_with_delivery_in_flight :
    (RunHistFeeders 9
        (staticFeeders [histFeeder "A" [⟨10⟩, ⟨20⟩], histFeeder "B" [⟨10⟩, ⟨20⟩]])
        [none, none, some (-1)]).1 = Outcome.returned none ∧
      (RunHistFeeders 9
        (staticFeeders [histFeeder "A" [⟨10⟩, ⟨20⟩], histFeeder "B" [⟨10⟩, ⟨20⟩]])
        [none, none, some (-1)]).2.running = [(histFeeder "B" [⟨20⟩], ⟨10⟩)] ∧
      (RunHistFeeders 9
        (staticFeeders [histFeeder "A" [⟨10⟩, ⟨20⟩], histFeeder "B" [⟨10⟩, ⟨20⟩]])
        [none, none, some (-1)]).2.trace =
        [Event.makeFeeders, Event.sortFull,
          Event.getBar "A" (some ⟨10⟩), Event.callNext "A", Event.wait,
          Event.runBar "A" ⟨10⟩ none, Event.newTime 10,
          Event.sortInsert "A",
          Event.getBar "B" (some ⟨10⟩), Event.callNext "B", Event.spawn "B" ⟨10⟩] := by
  decide

/-- The loop returns with no goroutine running unless a negative value ends it. -/
theorem runLoop_returned_running (mk : Nat → List Feeder → List Feeder) :
    ∀ (fuel : Nat) (versions : List (Option Int)) (s : RunState) (err : Option Error),
      (∀ v ∈ versions, ∀ x, v = some x → 0 ≤ x) →
      (runLoop mk fuel versions s).1 = Outcome.returned err →
      (runLoop mk fuel versions s).2.running = [] := by
  intro fuel
  induction fuel with
  | zero =>
    intro versions s err _ h
    simp [runLoop] at h
  | succ fuel ih =>
    intro versions s err hv h
    have hver : ¬ (versions.headD none).getD 0 < 0 := by
      cases versions with
      | nil => simp
      | cons v rest =>
        cases v with
        | none => simp
        | some x =>
          have := hv (some x) (List.mem_cons_self _ _) x rfl
          simp only [List.headD_cons, Option.getD_some]
          omega
    unfold runLoop at h ⊢
    simp only [hver, if_false] at h ⊢
    cases hs : step mk ((versions.headD none).getD 0) s with
    | next s1 =>
      rw [hs] at h
      simp only at h ⊢
      exact ih versions.tail s1 err
        (fun v hmem => hv v (List.mem_of_mem_tail hmem)) h
    | stop s1 =>
      simp only
      obtain ⟨_, _, _, _, _, _, _, h5⟩ := wgWait_trace s1
      exact h5
    | panic s1 =>
      rw [hs] at h
      simp at h

/-- C14 (amended). On the exit paths exhaustion and delivery error (every return of a run
that reads no negative value) `RunHistFeeders` has waited for all same-timestamp
deliveries: no goroutine is running when it returns. On the terminate signal it returns at
once, without waiting: the goroutines that were running are still running. -/
theorem C14_waits_unless_terminate_signal (mk : Nat → List Feeder → List Feeder)
    (fuel : Nat) (versions : List (Option Int)) (s : RunState) :
    (∀ err, (∀ v ∈ versions, ∀ x, v = some x → 0 ≤ x) →
      (runLoop mk fuel versions s).1 = Outcome.returned err →
      (runLoop mk fuel versions s).2.running = []) ∧
    (∀ v, v < 0 →
      (runLoop mk (fuel + 1) (some v :: versions) s).1 = Outcome.returned s.retErr ∧
      (runLoop mk (fuel + 1) (some v :: versions) s).2.running = s.running) := by
  refine ⟨fun err hv h => runLoop_returned_running mk fuel versions s err hv h, ?_⟩
  intro v hneg
  unfold runLoop
  simp [hneg]

theorem C14_waits_unless_terminate_signal_witness :
    (RunHistFeeders 9
        (staticFeeders [histFeeder "A" [⟨10⟩, ⟨20⟩], histFeeder "B" [⟨10⟩, ⟨20⟩]])
        [none, some 1]).1 = Outcome.returned none ∧
      (RunHistFeeders 9
        (staticFeeders [histFeeder "A" [⟨10⟩, ⟨20⟩], histFeeder "B" [⟨10⟩, ⟨20⟩]])
        [none, some 1]).2.running = [] :=
  ⟨by decide,
    (C14_waits_unless_terminate_signal
      (staticFeeders [histFeeder "A" [⟨10⟩, ⟨20⟩], histFeeder "B" [⟨10⟩, ⟨20⟩]])
      9 [none, some 1] {}).1 none (by decide) (by decide)⟩

end Banbot

namespace Banbot

/-! ## The recorded error -/

end Banbot

namespace Banbot

/-! ## Maps -/

theorem mapGet_nil {V : Type} (k : String) : mapGet ([] : List (String × V)) k = none := rfl

theorem mapGet_cons {V : Type} (a : String) (b : V) (m : List (String × V)) (k : String) :
    mapGet ((a, b) :: m) k = if k = a then some b else mapGet m k := by
  unfold mapGet
  rw [List.lookup_cons]
  by_cases h : k = a
  · simp [h]
  · have hb : (k == a) = false := by simpa using h
    rw [hb, if_neg h]

theorem mapGet_eq_none_iff {V : Type} (m : List (String × V)) (k : String) :
    mapGet m k = none ↔ k ∉ KeysOfMap m := by
  induction m with
  | nil => simp [mapGet_nil, KeysOfMap]
  | cons e m ih =>
    obtain ⟨a, b⟩ := e
    rw [mapGet_cons]
    by_cases h : k = a
    · simp [h, KeysOfMap]
    · simp only [h, if_false, ih]
      simp [KeysOfMap, h]

theorem mapGet_isSome_iff {V : Type} (m : List (String × V)) (k : String) :
    (mapGet m k).isSome = true ↔ k ∈ KeysOfMap m := by
  rw [← not_iff_not, ← mapGet_eq_none_iff]
  cases mapGet m k <;> simp

theorem mapGet_mapDel_self {V : Type} (m : List (String × V)) (k : String) :
    mapGet (mapDel m k) k = none := by
  rw [mapGet_eq_none_iff]
  simp [KeysOfMap, mapDel]

theorem mapGet_mapDel_ne {V : Type} (m : List (String × V)) (k x : String) (h : x ≠ k) :
    mapGet (mapDel m k) x = mapGet m x := by
  induction m with
  | nil => rfl
  | cons e m ih =>
    obtain ⟨a, b⟩ := e
    unfold mapDel at ih ⊢
    by_cases hak : a = k
    · subst hak
      simp only [List.filter_cons, bne_self_eq_false, Bool.false_eq_true, if_false]
      rw [ih, mapGet_cons, if_neg h]
    · have : (a != k) = true := by simpa using hak
      simp only [List.filter_cons, this, if_true]
      rw [mapGet_cons, mapGet_cons, ih]

theorem keys_mapDel {V : Type} (m : List (String × V)) (k x : String) :
    x ∈ KeysOfMap (mapDel m k) ↔ x ∈ KeysOfMap m ∧ x ≠ k := by
  rw [← mapGet_isSome_iff, ← mapGet_isSome_iff]
  by_cases h : x = k
  · subst h
    simp [mapGet_mapDel_self]
  · rw [mapGet_mapDel_ne m k x h]
    simp [h]

/-! ## The generation counter -/

theorem wrapInt64_of_range (x : Int) (h1 : -9223372036854775808 ≤ x)
    (h2 : x ≤ 9223372036854775807) : wrapInt64 x = x := by
  unfold wrapInt64
  rw [Int.emod_eq_of_lt (by omega) (by omega)]
  omega

theorem setDirty_iterate (n : Nat) (hn : (n : Int) ≤ MaxInt64) :
    (Nat.iterate Provider.SetDirty n {}).dirtyLast = n ∧
      (Nat.iterate Provider.SetDirty n {}).dirtyVers =
        (List.range n).map fun (i : Nat) => (i : Int) + 1 := by
  induction n with
  | zero => exact ⟨rfl, rfl⟩
  | succ n ih =>
    have hn1 : (n : Int) ≤ MaxInt64 := by push_cast at hn; omega
    obtain ⟨h1, h2⟩ := ih hn1
    rw [Function.iterate_succ_apply']
    have hw : wrapInt64 ((n : Int) + 1) = (n : Int) + 1 := by
      apply wrapInt64_of_range
      · omega
      · unfold MaxInt64 at hn
        push_cast at hn
        exact hn
    constructor
    · show wrapInt64 ((Nat.iterate Provider.SetDirty n {}).dirtyLast + 1) = _
      rw [h1, hw]
      push_cast
      rfl
    · show (Nat.iterate Provider.SetDirty n {}).dirtyVers ++
        [wrapInt64 ((Nat.iterate Provider.SetDirty n {}).dirtyLast + 1)] = _
      rw [h1, h2, hw, List.range_succ, List.map_append]
      rfl

/-- C20. A call of `SetDirty` raises the generation counter by exactly one (short of the
overflow of `int`) and sends the new value on the control channel; starting from a fresh
provider the n-th call sends n, so the values sent are 1, 2, ..., n: strictly increasing
and never negative. -/
theorem C20_setDirty_pushes_increasing_generations (p : Provider) (n : Nat) :
    ((-9223372036854775808 : Int) ≤ p.dirtyLast + 1 → p.dirtyLast + 1 ≤ MaxInt64 →
      p.SetDirty.dirtyLast = p.dirtyLast + 1 ∧
      p.SetDirty.dirtyVers = p.dirtyVers ++ [p.dirtyLast + 1] ∧
      p.SetDirty.holders = p.holders) ∧
    ((n : Int) ≤ MaxInt64 →
      (Nat.iterate Provider.SetDirty n {}).dirtyLast = n ∧
      (Nat.iterate Provider.SetDirty n {}).dirtyVers =
        (List.range n).map (fun (i : Nat) => (i : Int) + 1) ∧
      (Nat.iterate Provider.SetDirty n {}).dirtyVers.Pairwise (· < ·) ∧
      ∀ v ∈ (Nat.iterate Provider.SetDirty n {}).dirtyVers, 0 < v) := by
  constructor
  · intro h1 h2
    have hw : wrapInt64 (p.dirtyLast + 1) = p.dirtyLast + 1 :=
      wrapInt64_of_range _ h1 h2
    refine ⟨?_, ?_, rfl⟩
    · show wrapInt64 (p.dirtyLast + 1) = _
      exact hw
    · show p.dirtyVers ++ [wrapInt64 (p.dirtyLast + 1)] = _
      rw [hw]
  · intro hn
    obtain ⟨h1, h2⟩ := setDirty_iterate n hn
    refine ⟨h1, h2, ?_, ?_⟩
    · rw [h2, List.pairwise_map]
      refine (List.pairwise_lt_range n).imp ?_
      intro a b hab
      omega
    · intro v hv
      rw [h2, List.mem_map] at hv
      obtain ⟨i, -, rfl⟩ := hv
      omega

theorem C20_setDirty_pushes_increasing_generations_witness :
    (Nat.iterate Provider.SetDirty 3 {}).dirtyLast = ((3 : Nat) : Int) ∧
      (Nat.iterate Provider.SetDirty 3 {}).dirtyVers =
        (List.range 3).map (fun (i : Nat) => (i : Int) + 1) ∧
      (Nat.iterate Provider.SetDirty 3 {}).dirtyVers = [1, 2, 3] :=
  have h := (C20_setDirty_pushes_increasing_generations {} 3).2 (by decide)
  ⟨h.1, h.2.1, by decide⟩

end Banbot

namespace Banbot

/-! ## UnSubPairs -/

/-- The loop of `UnSubPairs` from any point: what it appends to `removed` and what it
leaves in `holders`. -/
theorem unSub_fold (pairs : List String) :
    ∀ (p : Provider) (acc : List String),
      ∃ rem, (pairs.foldl (fun (acc : Provider × List String) pair =>
          match mapGet acc.1.holders pair with
          | some _ => ({ acc.1 with holders := mapDel acc.1.holders pair }, acc.2 ++ [pair])
          | none => acc) (p, acc)).2 = acc ++ rem ∧
        rem.Sublist pairs ∧ rem.Nodup ∧
        (∀ x, x ∈ rem ↔ x ∈ pairs ∧ (mapGet p.holders x).isSome = true) ∧
        (∀ x, x ∈ pairs → mapGet (pairs.foldl (fun (acc : Provider × List String) pair =>
          match mapGet acc.1.holders pair with
          | some _ => ({ acc.1 with holders := mapDel acc.1.holders pair }, acc.2 ++ [pair])
          | none => acc) (p, acc)).1.holders x = none) ∧
        (∀ x, x ∉ pairs → mapGet (pairs.foldl (fun (acc : Provider × List String) pair =>
          match mapGet acc.1.holders pair with
          | some _ => ({ acc.1 with holders := mapDel acc.1.holders pair }, acc.2 ++ [pair])
          | none => acc) (p, acc)).1.holders x = mapGet p.holders x) := by
  induction pairs with
  | nil =>
    intro p acc
    exact ⟨[], by simp, List.Sublist.refl _, List.nodup_nil, by simp, by simp, by simp⟩
  | cons a t ih =>
    intro p acc
    rw [List.foldl_cons]
    cases hg : mapGet p.holders a with
    | none =>
      simp only [hg]
      obtain ⟨rem, h1, h2, h3, h4, h5, h6⟩ := ih p acc
      refine ⟨rem, h1, h2.cons a, h3, ?_, ?_, ?_⟩
      · intro x
        rw [h4 x]
        constructor
        · rintro ⟨hx, hs⟩
          exact ⟨List.mem_cons_of_mem _ hx, hs⟩
        · rintro ⟨hx, hs⟩
          rcases List.mem_cons.mp hx with h | h
          · subst h
            rw [hg] at hs
            cases hs
          · exact ⟨h, hs⟩
      · intro x hx
        by_cases hxt : x ∈ t
        · exact h5 x hxt
        · have hxa : x = a := by
            rcases List.mem_cons.mp hx with h | h
            · exact h
            · exact absurd h hxt
          rw [h6 x hxt, hxa, hg]
      · intro x hx
        exact h6 x fun h => hx (List.mem_cons_of_mem _ h)
    | some f =>
      simp only [hg]
      obtain ⟨rem, h1, h2, h3, h4, h5, h6⟩ :=
        ih { p with holders := mapDel p.holders a } (acc ++ [a])
      have hnot : a ∉ rem := by
        intro h
        have := ((h4 a).mp h).2
        simp only at this
        rw [mapGet_mapDel_self] at this
        cases this
      refine ⟨a :: rem, ?_, h2.cons₂ a, List.nodup_cons.mpr ⟨hnot, h3⟩, ?_, ?_, ?_⟩
      · rw [h1]; simp
      · intro x
        rw [List.mem_cons, h4 x]
        simp only
        by_cases hxa : x = a
        · subst hxa
          simp [hg]
        · rw [mapGet_mapDel_ne _ _ _ hxa]
          simp [hxa]
      · intro x hx
        by_cases hxt : x ∈ t
        · exact h5 x hxt
        · have hxa : x = a := by
            rcases List.mem_cons.mp hx with h | h
            · exact h
            · exact absurd h hxt
          rw [h6 x hxt, hxa]
          exact mapGet_mapDel_self _ _
      · intro x hx
        have hxa : x ≠ a := fun h => hx (h ▸ List.mem_cons_self _ _)
        rw [h6 x fun h => hx (List.mem_cons_of_mem _ h)]
        exact mapGet_mapDel_ne _ _ _ hxa

/-- C15. `Provider.UnSubPairs(pairs...)` returns the requested instruments that were
subscribed when the call was made, in the order of the arguments and each once; after the
call none of the requested instruments is subscribed and every other instrument has the
feeder it had, so a second call with the same arguments returns nothing. -/
theorem C15_unSubPairs_returns_the_subscribed_pairs (p : Provider) (pairs : List String) :
    (p.UnSubPairs pairs).2.Sublist pairs ∧ (p.UnSubPairs pairs).2.Nodup ∧
      (∀ x, x ∈ (p.UnSubPairs pairs).2 ↔ x ∈ pairs ∧ (mapGet p.holders x).isSome = true) ∧
      (∀ x, x ∈ pairs → mapGet (p.UnSubPairs pairs).1.holders x = none) ∧
      (∀ x, x ∉ pairs → mapGet (p.UnSubPairs pairs).1.holders x = mapGet p.holders x) ∧
      ((p.UnSubPairs pairs).1.UnSubPairs pairs).2 = [] := by
  obtain ⟨rem, h1, h2, h3, h4, h5, h6⟩ := unSub_fold pairs p []
  have e : (p.UnSubPairs pairs).2 = rem := by
    unfold Provider.UnSubPairs
    rw [h1]; simp
  refine ⟨e ▸ h2, e ▸ h3, ?_, h5, h6, ?_⟩
  · intro x
    rw [e]
    exact h4 x
  · obtain ⟨rem2, k1, -, -, k4, -, -⟩ := unSub_fold pairs (p.UnSubPairs pairs).1 []
    have e2 : ((p.UnSubPairs pairs).1.UnSubPairs pairs).2 = rem2 := by
      show (List.foldl _ ((p.UnSubPairs pairs).1, []) pairs).2 = rem2
      rw [k1]; simp
    rw [e2, List.eq_nil_iff_forall_not_mem]
    intro x hx
    obtain ⟨hxp, hs⟩ := (k4 x).mp hx
    have : mapGet (p.UnSubPairs pairs).1.holders x = none := h5 x hxp
    rw [this] at hs
    cases hs

end Banbot

namespace Banbot

/-! ## More on maps -/

theorem mapGet_append {V : Type} (m n : List (String × V)) (x : String) :
    mapGet (m ++ n) x = match mapGet m x with
      | some v => some v
      | none => mapGet n x := by
  induction m with
  | nil => rfl
  | cons e m ih =>
    obtain ⟨a, b⟩ := e
    rw [List.cons_append, mapGet_cons, mapGet_cons]
    by_cases h : x = a
    · simp [h]
    · simp only [h, if_false]
      exact ih

theorem mapGet_map_set {V : Type} (m : List (String × V)) (k : String) (v : V)
    (x : String) :
    mapGet (m.map fun e => if e.1 == k then (k, v) else e) x =
      if x = k then (mapGet m x).map (fun _ => v) else mapGet m x := by
  induction m with
  | nil => simp [mapGet_nil]
  | cons e m ih =>
    obtain ⟨a, b⟩ := e
    rw [List.map_cons]
    by_cases hak : a = k
    · subst hak
      simp only [beq_self_eq_true, if_true]
      rw [mapGet_cons, mapGet_cons]
      by_cases hx : x = a
      · simp [hx]
      · simp only [hx, if_false]
        rw [ih]
        simp [hx]
    · have hb : (a == k) = false := by simpa using hak
      simp only [hb, Bool.false_eq_true, if_false]
      rw [mapGet_cons, mapGet_cons, ih]
      by_cases hx : x = a
      · have hxk : x ≠ k := fun h => hak (hx ▸ h)
        simp [hx, hak]
      · simp [hx]

theorem mapGet_mapSet_self {V : Type} (m : List (String × V)) (k : String) (v : V) :
    mapGet (mapSet m k v) k = some v := by
  unfold mapSet
  by_cases h : m.any (fun e => e.1 == k) = true
  · rw [if_pos h, mapGet_map_set, if_pos rfl]
    have hk : k ∈ KeysOfMap m := by
      rw [List.any_eq_true] at h
      obtain ⟨e, he, hek⟩ := h
      have : e.1 = k := by simpa using hek
      rw [← this]
      exact List.mem_map_of_mem _ he
    have := (mapGet_isSome_iff m k).mpr hk
    cases hg : mapGet m k with
    | none => rw [hg] at this; cases this
    | some w => rfl
  · rw [if_neg h, mapGet_append]
    have hk : k ∉ KeysOfMap m := by
      intro hk
      apply h
      rw [List.any_eq_true]
      obtain ⟨e, he, hek⟩ := List.mem_map.mp hk
      exact ⟨e, he, by simpa using hek⟩
    rw [(mapGet_eq_none_iff m k).mpr hk]
    simp [mapGet_cons]

theorem mapGet_mapSet_ne {V : Type} (m : List (String × V)) (k x : String) (v : V)
    (h : x ≠ k) : mapGet (mapSet m k v) x = mapGet m x := by
  unfold mapSet
  split
  · rw [mapGet_map_set, if_neg h]
  · rw [mapGet_append]
    cases mapGet m x with
    | none => simp [mapGet_cons, h, mapGet_nil]
    | some w => rfl

theorem keys_mapSet {V : Type} (m : List (String × V)) (k x : String) (v : V) :
    x ∈ KeysOfMap (mapSet m k v) ↔ x = k ∨ x ∈ KeysOfMap m := by
  rw [← mapGet_isSome_iff, ← mapGet_isSome_iff]
  by_cases h : x = k
  · subst h
    simp [mapGet_mapSet_self]
  · rw [mapGet_mapSet_ne m k x v h]
    simp [h]

theorem foldl_mapDel_mem {V : Type} (ks : List String) :
    ∀ (m : List (String × V)) (x : String), x ∈ ks → mapGet (ks.foldl mapDel m) x = none := by
  induction ks with
  | nil => intro m x hx; cases hx
  | cons a t ih =>
    intro m x hx
    rw [List.foldl_cons]
    by_cases hxt : x ∈ t
    · exact ih _ x hxt
    · have hxa : x = a := by
        rcases List.mem_cons.mp hx with h | h
        · exact h
        · exact absurd h hxt
      subst hxa
      have : ∀ (l : List String) (m0 : List (String × V)), mapGet m0 x = none →
          mapGet (l.foldl mapDel m0) x = none := by
        intro l
        induction l with
        | nil => intro m0 h; exact h
        | cons b l ihl =>
          intro m0 h
          rw [List.foldl_cons]
          apply ihl
          by_cases hb : x = b
          · subst hb; exact mapGet_mapDel_self _ _
          · rw [mapGet_mapDel_ne _ _ _ hb]; exact h
      exact this t _ (mapGet_mapDel_self _ _)

theorem foldl_mapDel_not_mem {V : Type} (ks : List String) :
    ∀ (m : List (String × V)) (x : String), x ∉ ks →
      mapGet (ks.foldl mapDel m) x = mapGet m x := by
  induction ks with
  | nil => intro m x _; rfl
  | cons a t ih =>
    intro m x hx
    rw [List.foldl_cons, ih _ x fun h => hx (List.mem_cons_of_mem _ h)]
    exact mapGet_mapDel_ne _ _ _ fun h => hx (h ▸ List.mem_cons_self _ _)

/-! ## warmJobs -/

/-- The keys of the map of resume timestamps are symbols of feeders of the jobs. -/
theorem parallelRun_warm_keys (env : Env) (jobs : List WarmJob) :
    ∀ (st : List (String × Int)) (k : String),
      k ∈ KeysOfMap (ParallelRun (fun (sinceMap : List (String × Int)) (job : WarmJob) =>
        let hold := job.hold
        let r := hold.WarmTfs env.timeMS job.tfWarms
        (mapSet sinceMap hold.getSymbol r.1, r.2)) jobs st).1 →
      k ∈ KeysOfMap st ∨ ∃ job ∈ jobs, k = job.hold.getSymbol := by
  induction jobs with
  | nil => intro st k hk; exact Or.inl hk
  | cons j t ih =>
    intro st k hk
    unfold ParallelRun at hk
    simp only at hk
    cases he : (j.hold.WarmTfs env.timeMS j.tfWarms).2 with
    | some err =>
      rw [he] at hk
      simp only at hk
      rcases (keys_mapSet _ _ _ _).mp hk with h | h
      · exact Or.inr ⟨j, List.mem_cons_self _ _, h⟩
      · exact Or.inl h
    | none =>
      rw [he] at hk
      simp only at hk
      rcases ih _ k hk with h | ⟨job, hj, hjk⟩
      · rcases (keys_mapSet _ _ _ _).mp h with h1 | h1
        · exact Or.inr ⟨j, List.mem_cons_self _ _, h1⟩
        · exact Or.inl h1
      · exact Or.inr ⟨job, List.mem_cons_of_mem _ hj, hjk⟩

/-- When no job fails, every job leaves the resume timestamp of its feeder under the
symbol of the feeder. -/
theorem parallelRun_warm_values (env : Env) (jobs : List WarmJob)
    (hok : ∀ job ∈ jobs, job.hold.warmErr = none)
    (hnd : (jobs.map fun j => j.hold.getSymbol).Nodup) :
    ∀ (st : List (String × Int)),
      (ParallelRun (fun (sinceMap : List (String × Int)) (job : WarmJob) =>
        let hold := job.hold
        let r := hold.WarmTfs env.timeMS job.tfWarms
        (mapSet sinceMap hold.getSymbol r.1, r.2)) jobs st).2 = none ∧
      (∀ job ∈ jobs, mapGet (ParallelRun (fun (sinceMap : List (String × Int))
          (job : WarmJob) =>
        let hold := job.hold
        let r := hold.WarmTfs env.timeMS job.tfWarms
        (mapSet sinceMap hold.getSymbol r.1, r.2)) jobs st).1 job.hold.getSymbol =
          some job.hold.warmSince) ∧
      (∀ x, (∀ job ∈ jobs, job.hold.getSymbol ≠ x) →
        mapGet (ParallelRun (fun (sinceMap : List (String × Int)) (job : WarmJob) =>
          let hold := job.hold
          let r := hold.WarmTfs env.timeMS job.tfWarms
          (mapSet sinceMap hold.getSymbol r.1, r.2)) jobs st).1 x = mapGet st x) := by
  induction jobs with
  | nil =>
    intro st
    refine ⟨rfl, ?_, ?_⟩
    · intro job hj; cases hj
    · intro x _; rfl
  | cons j t ih =>
    intro st
    have hj : j.hold.warmErr = none := hok j (List.mem_cons_self _ _)
    rw [List.map_cons, List.nodup_cons] at hnd
    obtain ⟨h1, h2, h3⟩ := ih (fun job hjob => hok job (List.mem_cons_of_mem _ hjob)) hnd.2
      (mapSet st j.hold.getSymbol j.hold.warmSince)
    have hun : ParallelRun (fun (sinceMap : List (String × Int)) (job : WarmJob) =>
        let hold := job.hold
        let r := hold.WarmTfs env.timeMS job.tfWarms
        (mapSet sinceMap hold.getSymbol r.1, r.2)) (j :: t) st =
        ParallelRun (fun (sinceMap : List (String × Int)) (job : WarmJob) =>
        let hold := job.hold
        let r := hold.WarmTfs env.timeMS job.tfWarms
        (mapSet sinceMap hold.getSymbol r.1, r.2)) t
          (mapSet st j.hold.getSymbol j.hold.warmSince) := by
      rw [ParallelRun]
      simp only [Feeder.WarmTfs, hj]
    rw [hun]
    refine ⟨h1, ?_, ?_⟩
    · intro job hjob
      rcases List.mem_cons.mp hjob with h | h
      · subst h
        rw [h3 _ ?_]
        · exact mapGet_mapSet_self _ _ _
        · intro job2 hjob2 heq
          exact hnd.1 (List.mem_map.mpr ⟨job2, hjob2, heq⟩)
      · exact h2 job h
    · intro x hx
      rw [h3 x fun job hjob => hx job (List.mem_cons_of_mem _ hjob)]
      exact mapGet_mapSet_ne _ _ _ _ (hx j (List.mem_cons_self _ _)).symm

/-- C19 (counterexample). The warm-up job of feeder "X" for the timeframe "1m" leaves the
resume timestamp under the key "X"; there is no entry for "X|1m". -/
theorem C19_warm_up_entry_is_keyed_by_symbol :
    (Provider.warmJobs (exampleEnv none)
        [{ hold := exampleFeeder, tfWarms := [("1m", 10)] }]).1 = [("X", 0)] ∧
      mapGet (Provider.warmJobs (exampleEnv none)
        [{ hold := exampleFeeder, tfWarms := [("1m", 10)] }]).1 "X|1m" = none := by
  decide

/-- C19 (amended). The map of resume timestamps produced by `Provider.warmJobs` is keyed
by instrument symbol: every key is the symbol of the feeder of a job, and when no job
fails every job (one per feeder) leaves the resume timestamp that `WarmTfs` returned for
its feeder under the symbol of that feeder. -/
theorem C19_warm_up_map_is_keyed_by_symbol (env : Env) (jobs : List WarmJob) :
    (∀ k ∈ KeysOfMap (Provider.warmJobs env jobs).1,
      ∃ job ∈ jobs, k = job.hold.getSymbol) ∧
    ((∀ job ∈ jobs, job.hold.warmErr = none) →
      (jobs.map fun j => j.hold.getSymbol).Nodup →
      (Provider.warmJobs env jobs).2 = none ∧
      ∀ job ∈ jobs, mapGet (Provider.warmJobs env jobs).1 job.hold.getSymbol =
        some (job.hold.WarmTfs env.timeMS job.tfWarms).1) := by
  constructor
  · intro k hk
    rcases parallelRun_warm_keys env jobs [] k hk with h | h
    · cases h
    · exact h
  · intro hok hnd
    obtain ⟨h1, h2, -⟩ := parallelRun_warm_values env jobs hok hnd []
    exact ⟨h1, h2⟩

theorem C19_warm_up_map_is_keyed_by_symbol_witness :
    (Provider.warmJobs (exampleEnv none)
        [{ hold := exampleFeeder, tfWarms := [("1m", 10)] }]).2 = none ∧
      ∀ job ∈ [({ hold := exampleFeeder, tfWarms := [("1m", 10)] } : WarmJob)],
        mapGet (Provider.warmJobs (exampleEnv none)
          [{ hold := exampleFeeder, tfWarms := [("1m", 10)] }]).1 job.hold.getSymbol =
          some (job.hold.WarmTfs (exampleEnv none).timeMS job.tfWarms).1 :=
  (C19_warm_up_map_is_keyed_by_symbol (exampleEnv none)
    [{ hold := exampleFeeder, tfWarms := [("1m", 10)] }]).2 (by decide) (by decide)

end Banbot

namespace Banbot

/-! ## Removal and a later subscription -/

/-- An instrument that `Provider.SubWarmPairs` reports as removed has no feeder
afterwards. -/
theorem subWarmPairs_removed (env : Env) (p p1 : Provider)
    (items : List (String × List (String × Int))) (delOther : Bool) (res1 : SubResult)
    (x : String) (h : Provider.SubWarmPairs env p items delOther = some (p1, res1))
    (hx : x ∈ res1.delPairs) : mapGet p1.holders x = none := by
  unfold Provider.SubWarmPairs at h
  cases hs : subPairs env delOther items { holders := p.holders } with
  | panic => rw [hs] at h; cases h
  | fail err st =>
    rw [hs] at h
    simp only [Option.some.injEq, Prod.mk.injEq] at h
    obtain ⟨-, h2⟩ := h
    rw [← h2] at hx
    cases hx
  | done st =>
    rw [hs] at h
    simp only [Option.some.injEq, Prod.mk.injEq] at h
    obtain ⟨h1, h2⟩ := h
    rw [← h2] at hx
    rw [← h1]
    exact foldl_mapDel_mem _ _ x hx

/-- The subscription of one instrument that has no feeder: the factory makes a feeder, a
warm-up job runs for it, and the resume timestamp of the warm-up is reported under the
symbol of the feeder. -/
theorem subWarmPairs_fresh (env : Env) (p1 : Provider) (x : String)
    (tfWarms : List (String × Int)) (f : Feeder) (delOther : Bool)
    (hx : mapGet p1.holders x = none)
    (hf : env.newFeeder x (KeysOfMap tfWarms) = Except.ok f) :
    ∃ p2 res2, Provider.SubWarmPairs env p1 [(x, tfWarms)] delOther = some (p2, res2) ∧
      res2.newHolds = [f] ∧ res2.sinceMap = [(f.getSymbol, f.warmSince)] ∧
      res2.err = f.warmErr ∧ mapGet p2.holders x = some f := by
  have hs : subPairs env delOther [(x, tfWarms)] { holders := p1.holders } =
      Flow.done { holders := mapSet p1.holders x f, newHolds := [f],
                  warmJobs := [{ hold := f, tfWarms := tfWarms }], oldSince := [] } := by
    simp [subPairs, subPair, hx, hf]
  have hw : Provider.warmJobs env [{ hold := f, tfWarms := tfWarms }] =
      ([(f.getSymbol, f.warmSince)], f.warmErr) := by
    unfold Provider.warmJobs
    rw [ParallelRun]
    cases hwe : f.warmErr with
    | none => simp [Feeder.WarmTfs, hwe, ParallelRun, mapSet]
    | some e => simp [Feeder.WarmTfs, hwe, mapSet]
  unfold Provider.SubWarmPairs
  rw [hs]
  simp only [hw, List.foldl_nil]
  refine ⟨_, _, rfl, rfl, rfl, rfl, ?_⟩
  simp only
  rw [foldl_mapDel_not_mem]
  · exact mapGet_mapSet_self _ _ _
  · intro hmem
    split at hmem
    · rw [List.mem_filter] at hmem
      have := hmem.2
      simp [mapGet_cons] at this
    · cases hmem

/-- C18 (counterexample). Instrument "X" is subscribed on "1m" with next-due timestamp
60000. A subscription of "Y" with `delOther` removes "X"; the next subscription asks for
"X" on "1m" again. "X" comes back as a new feeder made by the factory, and its resume
point is the result 0 of its warm-up, under the key "X"; the timestamp 60000 is not
reported. Had "X" stayed subscribed, the resume point 60000 would be reported under
"X|1m". -/
theorem C18_removed_instrument_is_recreated :
    ((Provider.SubWarmPairs (exampleEnv none) { holders := [("X", exampleFeeder)] }
        [("Y", [("1m", 10)])] true).map fun r => r.2.delPairs) = some ["X"] ∧
      (((Provider.SubWarmPairs (exampleEnv none) { holders := [("X", exampleFeeder)] }
        [("Y", [("1m", 10)])] true).bind fun r1 =>
          Provider.SubWarmPairs (exampleEnv none) r1.1 [("X", [("1m", 10)])] true).map
        fun r => (r.2.sinceMap, r.2.newHolds.map Feeder.getSymbol)) =
        some ([("X", 0)], ["X"]) ∧
      ((Provider.SubWarmPairs (exampleEnv none) { holders := [("X", exampleFeeder)] }
        [("X", [("1m", 10)])] true).map
        fun r => (r.2.sinceMap, r.2.newHolds.map Feeder.getSymbol)) =
        some ([("X|1m", 60000)], []) := by
  decide

/-- C18 (amended). After a subscription with `delOther` has removed instrument X, a later
subscription that asks for X makes a new feeder through the factory and warms it up: X is
returned as a new feeder, and the resume point reported for X, under the symbol of the
feeder, is the timestamp that this warm-up returns. -/
theorem C18_removed_instrument_resumes_from_warm_up (env : Env) (p p1 : Provider)
    (items : List (String × List (String × Int))) (res1 : SubResult) (x : String)
    (tfWarms : List (String × Int)) (f : Feeder) (delOther : Bool)
    (h1 : Provider.SubWarmPairs env p items true = some (p1, res1))
    (hx : x ∈ res1.delPairs)
    (hf : env.newFeeder x (KeysOfMap tfWarms) = Except.ok f) :
    ∃ p2 res2, Provider.SubWarmPairs env p1 [(x, tfWarms)] delOther = some (p2, res2) ∧
      res2.newHolds = [f] ∧
      res2.sinceMap = [(f.getSymbol, (f.WarmTfs env.timeMS tfWarms).1)] ∧
      res2.err = (f.WarmTfs env.timeMS tfWarms).2 ∧ mapGet p2.holders x = some f :=
  subWarmPairs_fresh env p1 x tfWarms f delOther
    (subWarmPairs_removed env p p1 items true res1 x h1 hx) hf

theorem C18_removed_instrument_resumes_from_warm_up_witness :
    ∃ p2 res2, Provider.SubWarmPairs (exampleEnv none)
        { holders := [("Y", ((histFeeder "Y" [⟨60000⟩]).SubTfs exampleSecs ["1m"] false).1)] }
        [("X", [("1m", 10)])] true = some (p2, res2) ∧
      res2.newHolds = [((histFeeder "X" [⟨60000⟩]).SubTfs exampleSecs ["1m"] false).1] ∧
      res2.sinceMap =
        [((((histFeeder "X" [⟨60000⟩]).SubTfs exampleSecs ["1m"] false).1).getSymbol,
          ((((histFeeder "X" [⟨60000⟩]).SubTfs exampleSecs ["1m"] false).1).WarmTfs
            (exampleEnv none).timeMS [("1m", 10)]).1)] ∧
      res2.err = ((((histFeeder "X" [⟨60000⟩]).SubTfs exampleSecs ["1m"] false).1).WarmTfs
        (exampleEnv none).timeMS [("1m", 10)]).2 ∧
      mapGet p2.holders "X" =
        some ((histFeeder "X" [⟨60000⟩]).SubTfs exampleSecs ["1m"] false).1 :=
  C18_removed_instrument_resumes_from_warm_up (exampleEnv none)
    { holders := [("X", exampleFeeder)] }
    { holders := [("Y", ((histFeeder "Y" [⟨60000⟩]).SubTfs exampleSecs ["1m"] false).1)] }
    [("Y", [("1m", 10)])]
    { newHolds := [((histFeeder "Y" [⟨60000⟩]).SubTfs exampleSecs ["1m"] false).1],
      sinceMap := [("Y", 0)], delPairs := ["X"], err := none }
    "X" [("1m", 10)] ((histFeeder "X" [⟨60000⟩]).SubTfs exampleSecs ["1m"] false).1 true
    (by decide) (by decide) rfl

end Banbot

namespace Banbot

/-! ## The loop of `Provider.SubWarmPairs` -/

theorem keysOfMap_mapSet {V : Type} (m : List (String × V)) (k : String) (v : V) :
    KeysOfMap (mapSet m k v) =
      if k ∈ KeysOfMap m then KeysOfMap m else KeysOfMap m ++ [k] := by
  unfold mapSet
  by_cases h : m.any (fun e => e.1 == k) = true
  · have hk : k ∈ KeysOfMap m := by
      rw [List.any_eq_true] at h
      obtain ⟨e, he, hek⟩ := h
      have : e.1 = k := by simpa using hek
      rw [← this]
      exact List.mem_map_of_mem _ he
    rw [if_pos h, if_pos hk]
    unfold KeysOfMap
    rw [List.map_map]
    apply List.map_congr_left
    intro e _
    by_cases hek : e.1 = k
    · simp [hek]
    · simp [hek]
  · have hk : k ∉ KeysOfMap m := by
      intro hk
      apply h
      rw [List.any_eq_true]
      obtain ⟨e, he, hek⟩ := List.mem_map.mp hk
      exact ⟨e, he, by simpa using hek⟩
    rw [if_neg h, if_neg hk]
    simp [KeysOfMap]

theorem nodup_keys_mapSet {V : Type} (m : List (String × V)) (k : String) (v : V)
    (h : (KeysOfMap m).Nodup) : (KeysOfMap (mapSet m k v)).Nodup := by
  rw [keysOfMap_mapSet]
  split
  · exact h
  · rename_i hk
    rw [List.nodup_append]
    refine ⟨h, List.nodup_singleton k, ?_⟩
    intro x hx hx2
    rw [List.mem_singleton] at hx2
    subst hx2
    exact hk hx

theorem subTfs_symbol (tfSecs : String → Int) (f : Feeder) (tfs : List String)
    (delOther : Bool) : (f.SubTfs tfSecs tfs delOther).1.getSymbol = f.getSymbol := rfl

/-- A feeder that is asked for at least one timeframe has a state record afterwards. -/
theorem subTfs_states_ne (tfSecs : String → Int) (f : Feeder) (tfs : List String)
    (delOther : Bool) (h : tfs ≠ []) : (f.SubTfs tfSecs tfs delOther).1.states ≠ [] := by
  unfold Feeder.SubTfs
  simp only
  intro hnil
  have hlen := (sortSlice_perm (fun (a b : PairTFCache) => decide (a.TFSecs < b.TFSecs))
    ((if delOther = true then
        f.states.filter fun st => tfs.contains st.TimeFrame else f.states) ++
      (tfs.filter fun tf => !(f.states.map PairTFCache.TimeFrame).contains tf).map
        fun tf => ({ TimeFrame := tf, TFSecs := tfSecs tf, NextMS := 0 } : PairTFCache))).length_eq
  rw [hnil] at hlen
  simp only [List.length_nil, List.length_append, List.length_map] at hlen
  cases tfs with
  | nil => exact h rfl
  | cons tf rest =>
    by_cases hc : (f.states.map PairTFCache.TimeFrame).contains tf = true
    · have hmem : tf ∈ f.states.map PairTFCache.TimeFrame := by simpa using hc
      obtain ⟨st, hst, hsttf⟩ := List.mem_map.mp hmem
      have hkept : st ∈ (if delOther = true then
          f.states.filter fun st => (tf :: rest).contains st.TimeFrame else f.states) := by
        split
        · rw [List.mem_filter]
          refine ⟨hst, ?_⟩
          simp [hsttf]
        · exact hst
      have := List.length_pos_of_mem hkept
      omega
    · have hnew : tf ∈ (tf :: rest).filter
          fun tf => !(f.states.map PairTFCache.TimeFrame).contains tf := by
        rw [List.mem_filter]
        refine ⟨List.mem_cons_self _ _, ?_⟩
        simpa using hc
      have := List.length_pos_of_mem hnew
      omega

/-- What the body of the loop does for one requested instrument, when the factory does not
fail and the feeder of an instrument that is already subscribed has a state record. -/
theorem subPair_done (env : Env) (delOther : Bool) (st : SubState) (pair : String)
    (tfWarms : List (String × Int))
    (hfac : ∃ f, env.newFeeder pair (KeysOfMap tfWarms) = Except.ok f)
    (hst : ∀ hold, mapGet st.holders pair = some hold → hold.states ≠ [])
    (htf : tfWarms ≠ []) :
    ∃ st1, subPair env delOther st (pair, tfWarms) = Flow.done st1 ∧
      ((mapGet st.holders pair = none ∧
          ∃ f, env.newFeeder pair (KeysOfMap tfWarms) = Except.ok f ∧
            st1.holders = mapSet st.holders pair f ∧
            st1.newHolds = st.newHolds ++ [f] ∧ st1.oldSince = st.oldSince) ∨
        (∃ hold old0 cur0, mapGet st.holders pair = some hold ∧
          hold.states.head? = some old0 ∧
          (hold.SubTfs env.tfSecs (KeysOfMap tfWarms) delOther).1.states.head? = some cur0 ∧
          st1.holders = mapSet st.holders pair
            (hold.SubTfs env.tfSecs (KeysOfMap tfWarms) delOther).1 ∧
          (old0.TimeFrame ≠ cur0.TimeFrame →
            st1.newHolds = st.newHolds ++
              [(hold.SubTfs env.tfSecs (KeysOfMap tfWarms) delOther).1] ∧
            st1.oldSince = st.oldSince) ∧
          (old0.TimeFrame = cur0.TimeFrame →
            st1.newHolds = st.newHolds ∧
            st1.oldSince =
              mapSet st.oldSince (pair ++ "|" ++ cur0.TimeFrame) cur0.NextMS))) := by
  unfold subPair
  simp only
  cases hg : mapGet st.holders pair with
  | none =>
    obtain ⟨f, hf⟩ := hfac
    simp only [hf]
    exact ⟨_, rfl, Or.inl ⟨trivial, f, rfl, rfl, rfl, rfl⟩⟩
  | some hold =>
    simp only
    have h1 : hold.states ≠ [] := hst hold hg
    have hkeys : KeysOfMap tfWarms ≠ [] := by
      cases tfWarms with
      | nil => exact absurd rfl htf
      | cons a t => simp [KeysOfMap]
    have h2 := subTfs_states_ne env.tfSecs hold (KeysOfMap tfWarms) delOther hkeys
    cases ho : hold.states with
    | nil => exact absurd ho h1
    | cons old0 orest =>
      cases hc : (hold.SubTfs env.tfSecs (KeysOfMap tfWarms) delOther).1.states with
      | nil => exact absurd hc h2
      | cons cur0 crest =>
        simp only [Feeder.getStates, ho, hc, List.head?_cons]
        by_cases hne : old0.TimeFrame = cur0.TimeFrame
        · have hb : (old0.TimeFrame != cur0.TimeFrame) = false := by simpa using hne
          simp only [hb, Bool.false_eq_true, if_false]
          split
          · exact ⟨_, rfl, Or.inr ⟨hold, old0, cur0, rfl, by rw [ho]; rfl, by rw [hc]; rfl, rfl,
              fun h => absurd hne h, fun _ => ⟨rfl, rfl⟩⟩⟩
          · exact ⟨_, rfl, Or.inr ⟨hold, old0, cur0, rfl, by rw [ho]; rfl, by rw [hc]; rfl, rfl,
              fun h => absurd hne h, fun _ => ⟨rfl, rfl⟩⟩⟩
        · have hb : (old0.TimeFrame != cur0.TimeFrame) = true := by simpa using hne
          simp only [hb, if_true]
          split
          · exact ⟨_, rfl, Or.inr ⟨hold, old0, cur0, rfl, by rw [ho]; rfl, by rw [hc]; rfl, rfl,
              fun _ => ⟨rfl, rfl⟩, fun h => absurd h hne⟩⟩
          · exact ⟨_, rfl, Or.inr ⟨hold, old0, cur0, rfl, by rw [ho]; rfl, by rw [hc]; rfl, rfl,
              fun _ => ⟨rfl, rfl⟩, fun h => absurd h hne⟩⟩

end Banbot

namespace Banbot

theorem subPairs_append (env : Env) (delOther : Bool)
    (a b : List (String × List (String × Int))) :
    ∀ st : SubState, subPairs env delOther (a ++ b) st =
      match subPairs env delOther a st with
      | Flow.done st1 => subPairs env delOther b st1
      | Flow.fail err st1 => Flow.fail err st1
      | Flow.panic => Flow.panic := by
  induction a with
  | nil => intro st; rfl
  | cons it t ih =>
    intro st
    rw [List.cons_append, subPairs, subPairs]
    cases subPair env delOther st it with
    | done st1 => exact ih st1
    | fail err st1 => rfl
    | panic => rfl


/-- The loop over the requested instruments, when the factory does not fail, every
requested instrument comes with a timeframe, and every feeder that is already subscribed
has a state record: it ends without a panic, `holders` gets the requested instruments and
keeps the others, the new feeders carry the symbols of requested instruments, and the
resume points of the subscribed feeders get keys of the requested instruments only. -/
theorem subPairs_spec (env : Env) (delOther : Bool) :
    ∀ (items : List (String × List (String × Int))) (st : SubState),
      (∀ it ∈ items, ∃ f, env.newFeeder it.1 (KeysOfMap it.2) = Except.ok f) →
      (KeysOfMap items).Nodup → (∀ it ∈ items, it.2 ≠ []) →
      (∀ it ∈ items, ∀ hold, mapGet st.holders it.1 = some hold → hold.states ≠ []) →
      ∃ st1, subPairs env delOther items st = Flow.done st1 ∧
        (∀ x, x ∈ KeysOfMap st1.holders ↔ x ∈ KeysOfMap st.holders ∨ x ∈ KeysOfMap items) ∧
        ((KeysOfMap st.holders).Nodup → (KeysOfMap st1.holders).Nodup) ∧
        (∀ x, x ∉ KeysOfMap items → mapGet st1.holders x = mapGet st.holders x) ∧
        (∃ added, st1.newHolds = st.newHolds ++ added ∧
          ((∀ it ∈ items, ∀ f, env.newFeeder it.1 (KeysOfMap it.2) = Except.ok f →
              f.getSymbol = it.1) →
            (∀ it ∈ items, ∀ hold, mapGet st.holders it.1 = some hold →
              hold.getSymbol = it.1) →
            ∀ f ∈ added, f.getSymbol ∈ KeysOfMap items)) ∧
        (∀ key, (∀ k ∈ KeysOfMap items, ∀ tf, key ≠ k ++ "|" ++ tf) →
          mapGet st1.oldSince key = mapGet st.oldSince key) ∧
        ((KeysOfMap st.oldSince).Nodup → (KeysOfMap st1.oldSince).Nodup) := by
  intro items
  induction items with
  | nil =>
    intro st _ _ _ _
    refine ⟨st, rfl, ?_, fun h => h, fun x _ => rfl, ⟨[], by simp, ?_⟩, fun key _ => rfl,
      fun h => h⟩
    · intro x; simp [KeysOfMap]
    · intro _ _ f hf; cases hf
  | cons it t ih =>
    intro st hfac hnd htf hst
    obtain ⟨pair, tfWarms⟩ := it
    have hnd2 : pair ∉ KeysOfMap t ∧ (KeysOfMap t).Nodup := by
      have : KeysOfMap ((pair, tfWarms) :: t) = pair :: KeysOfMap t := rfl
      rw [this, List.nodup_cons] at hnd
      exact hnd
    obtain ⟨st1, hs1, heff⟩ := subPair_done env delOther st pair tfWarms
      (hfac (pair, tfWarms) (List.mem_cons_self _ _))
      (fun hold hh => hst (pair, tfWarms) (List.mem_cons_self _ _) hold hh)
      (htf (pair, tfWarms) (List.mem_cons_self _ _))
    -- the facts on one instrument that the induction needs
    have hholders : ∃ h, st1.holders = mapSet st.holders pair h ∧
        ((∀ f, env.newFeeder pair (KeysOfMap tfWarms) = Except.ok f → f.getSymbol = pair) →
          (∀ hold, mapGet st.holders pair = some hold → hold.getSymbol = pair) →
          h.getSymbol = pair) ∧
        (st1.newHolds = st.newHolds ∨ st1.newHolds = st.newHolds ++ [h]) ∧
        (st1.oldSince = st.oldSince ∨
          ∃ tf v, st1.oldSince = mapSet st.oldSince (pair ++ "|" ++ tf) v) := by
      rcases heff with ⟨-, f, hf, e1, e2, e3⟩ | ⟨hold, old0, cur0, hg, -, -, e1, e2, e3⟩
      · exact ⟨f, e1, fun hs _ => hs f hf, Or.inr e2, Or.inl e3⟩
      · refine ⟨_, e1, fun _ hs => ?_, ?_, ?_⟩
        · rw [subTfs_symbol]
          exact hs hold hg
        · by_cases hne : old0.TimeFrame = cur0.TimeFrame
          · exact Or.inl (e3 hne).1
          · exact Or.inr (e2 hne).1
        · by_cases hne : old0.TimeFrame = cur0.TimeFrame
          · exact Or.inr ⟨_, _, (e3 hne).2⟩
          · exact Or.inl (e2 hne).2
    obtain ⟨h, eh, hsym, hnew, hold⟩ := hholders
    have hget : ∀ x, x ≠ pair → mapGet st1.holders x = mapGet st.holders x := by
      intro x hx
      rw [eh]
      exact mapGet_mapSet_ne _ _ _ _ hx
    obtain ⟨st2, hs2, k1, k2, k3, ⟨added, k4, k5⟩, k6, k7⟩ := ih st1
      (fun it hit => hfac it (List.mem_cons_of_mem _ hit)) hnd2.2
      (fun it hit => htf it (List.mem_cons_of_mem _ hit))
      (fun it hit hold hh => by
        have hne : it.1 ≠ pair := by
          intro heq
          apply hnd2.1
          rw [← heq]
          exact List.mem_map_of_mem _ hit
        rw [hget _ hne] at hh
        exact hst it (List.mem_cons_of_mem _ hit) hold hh)
    have hkeys : KeysOfMap ((pair, tfWarms) :: t) = pair :: KeysOfMap t := rfl
    refine ⟨st2, ?_, ?_, ?_, ?_, ?_, ?_, ?_⟩
    · show (match subPair env delOther st (pair, tfWarms) with
        | Flow.done st1 => subPairs env delOther t st1
        | Flow.fail err st1 => Flow.fail err st1
        | Flow.panic => Flow.panic) = Flow.done st2
      rw [hs1]
      exact hs2
    · intro x
      rw [k1 x, eh, keys_mapSet, hkeys, List.mem_cons]
      exact or_assoc.trans or_left_comm
    · intro hn
      apply k2
      rw [eh]
      exact nodup_keys_mapSet _ _ _ hn
    · intro x hx
      rw [hkeys, List.mem_cons, not_or] at hx
      rw [k3 x hx.2]
      exact hget x hx.1
    · rcases hnew with hn | hn
      · refine ⟨added, by rw [k4, hn], ?_⟩
        intro hs1' hs2' f hf
        rw [hkeys]
        refine List.mem_cons_of_mem _ (k5 (fun it hit => hs1' it (List.mem_cons_of_mem _ hit)) ?_ f hf)
        intro it hit hold' hh
        have hne : it.1 ≠ pair := by
          intro heq
          apply hnd2.1
          rw [← heq]
          exact List.mem_map_of_mem _ hit
        rw [hget _ hne] at hh
        exact hs2' it (List.mem_cons_of_mem _ hit) hold' hh
      · refine ⟨h :: added, by rw [k4, hn]; simp, ?_⟩
        intro hs1' hs2' f hf
        rw [hkeys]
        rcases List.mem_cons.mp hf with hfh | hfa
        · subst hfh
          rw [hsym (hs1' (pair, tfWarms) (List.mem_cons_self _ _))
            fun hold' hh => hs2' (pair, tfWarms) (List.mem_cons_self _ _) hold' hh]
          exact List.mem_cons_self _ _
        · refine List.mem_cons_of_mem _ (k5 (fun it hit => hs1' it (List.mem_cons_of_mem _ hit)) ?_ f hfa)
          intro it hit hold' hh
          have hne : it.1 ≠ pair := by
            intro heq
            apply hnd2.1
            rw [← heq]
            exact List.mem_map_of_mem _ hit
          rw [hget _ hne] at hh
          exact hs2' it (List.mem_cons_of_mem _ hit) hold' hh
    · intro key hkey
      rw [k6 key fun k hk tf => hkey k (by rw [hkeys]; exact List.mem_cons_of_mem _ hk) tf]
      rcases hold with ho | ⟨tf, v, ho⟩
      · rw [ho]
      · rw [ho]
        exact mapGet_mapSet_ne _ _ _ _ (hkey pair (by rw [hkeys]; exact List.mem_cons_self _ _) tf)
    · intro hn
      apply k7
      rcases hold with ho | ⟨tf, v, ho⟩
      · rw [ho]; exact hn
      · rw [ho]; exact nodup_keys_mapSet _ _ _ hn

/-- Writing the entries of a map with distinct keys into another map leaves each of them
readable there. -/
theorem foldl_mapSet_get (l : List (String × Int)) :
    ∀ (m0 : List (String × Int)) (k : String),
      (k ∉ KeysOfMap l →
        mapGet (l.foldl (fun m e => mapSet m e.1 e.2) m0) k = mapGet m0 k) ∧
      ((KeysOfMap l).Nodup → ∀ v, mapGet l k = some v →
        mapGet (l.foldl (fun m e => mapSet m e.1 e.2) m0) k = some v) := by
  induction l with
  | nil =>
    intro m0 k
    exact ⟨fun _ => rfl, fun _ v hv => by cases hv⟩
  | cons e t ih =>
    intro m0 k
    obtain ⟨a, b⟩ := e
    have hkeys : KeysOfMap ((a, b) :: t) = a :: KeysOfMap t := rfl
    rw [List.foldl_cons]
    constructor
    · intro hk
      rw [hkeys, List.mem_cons, not_or] at hk
      rw [(ih _ k).1 hk.2]
      exact mapGet_mapSet_ne _ _ _ _ hk.1
    · intro hnd v hv
      rw [hkeys, List.nodup_cons] at hnd
      rw [mapGet_cons] at hv
      by_cases hka : k = a
      · subst hka
        simp only [if_true, Option.some.injEq] at hv
        subst hv
        rw [(ih _ k).1 hnd.1]
        exact mapGet_mapSet_self _ _ _
      · rw [if_neg hka] at hv
        exact (ih _ k).2 hnd.2 v hv

theorem keys_foldl_mapDel {V : Type} (ks : List String) (m : List (String × V))
    (x : String) : x ∈ KeysOfMap (ks.foldl mapDel m) ↔ x ∈ KeysOfMap m ∧ x ∉ ks := by
  rw [← mapGet_isSome_iff, ← mapGet_isSome_iff]
  by_cases h : x ∈ ks
  · rw [foldl_mapDel_mem ks m x h]
    simp [h]
  · rw [foldl_mapDel_not_mem ks m x h]
    simp [h]

theorem mapGet_isNone_iff {V : Type} (m : List (String × V)) (k : String) :
    (mapGet m k).isNone = true ↔ k ∉ KeysOfMap m := by
  rw [← mapGet_eq_none_iff]
  cases mapGet m k <;> simp

theorem list_append_sep_inj {α : Type} (c : α) :
    ∀ (l1 l2 r1 r2 : List α), c ∉ l1 → c ∉ l2 → l1 ++ c :: r1 = l2 ++ c :: r2 → l1 = l2 := by
  intro l1
  induction l1 with
  | nil =>
    intro l2 r1 r2 _ h2 h
    cases l2 with
    | nil => rfl
    | cons x l2 =>
      simp only [List.nil_append, List.cons_append, List.cons.injEq] at h
      exact absurd (h.1 ▸ List.mem_cons_self _ _) h2
  | cons y l1 ih =>
    intro l2 r1 r2 h1 h2 h
    cases l2 with
    | nil =>
      simp only [List.nil_append, List.cons_append, List.cons.injEq] at h
      exact absurd (h.1 ▸ List.mem_cons_self _ _) h1
    | cons x l2 =>
      simp only [List.cons_append, List.cons.injEq] at h
      rw [h.1, ih l2 r1 r2 (fun hc => h1 (List.mem_cons_of_mem _ hc))
        (fun hc => h2 (List.mem_cons_of_mem _ hc)) h.2]

/-- Two resume keys `pair|timeframe` of instruments without the separator in their names
are equal only for the same instrument. -/
theorem resume_key_inj (a b s t : String) (ha : '|' ∉ a.data) (hb : '|' ∉ b.data)
    (h : a ++ "|" ++ s = b ++ "|" ++ t) : a = b := by
  have hd := congrArg String.data h
  simp only [String.data_append] at hd
  rw [List.append_assoc, List.append_assoc] at hd
  exact String.ext (list_append_sep_inj '|' a.data b.data _ _ ha hb hd)

end Banbot

namespace Banbot

/-- C16. `Provider.SubWarmPairs(items, delOther)` with a factory that makes a feeder for
every requested instrument (the maps have distinct keys, every requested instrument names
a timeframe and every held feeder has a state record, so that the call returns): with
`delOther` true the returned removed list has no repetition and holds exactly the
previously held instruments that are not keys of `items`, and afterwards the subscribed
instruments are exactly the keys of `items`; with `delOther` false the removed list is
empty and the subscribed instruments are the previous ones together with the keys of
`items`. -/
theorem C16_removed_list_and_subscribed_set (env : Env) (p : Provider)
    (items : List (String × List (String × Int))) (delOther : Bool)
    (hfac : ∀ it ∈ items, ∃ f, env.newFeeder it.1 (KeysOfMap it.2) = Except.ok f)
    (hitems : (KeysOfMap items).Nodup) (htf : ∀ it ∈ items, it.2 ≠ [])
    (hkeys : (KeysOfMap p.holders).Nodup)
    (hst : ∀ k hold, mapGet p.holders k = some hold → hold.states ≠ []) :
    ∃ p1 res, Provider.SubWarmPairs env p items delOther = some (p1, res) ∧
      (delOther = true →
        res.delPairs.Nodup ∧
        (∀ x, x ∈ res.delPairs ↔ x ∈ KeysOfMap p.holders ∧ x ∉ KeysOfMap items) ∧
        ∀ x, x ∈ KeysOfMap p1.holders ↔ x ∈ KeysOfMap items) ∧
      (delOther = false →
        res.delPairs = [] ∧
        ∀ x, x ∈ KeysOfMap p1.holders ↔ x ∈ KeysOfMap p.holders ∨ x ∈ KeysOfMap items) := by
  obtain ⟨st1, hs, k1, k2, -, -, -, -⟩ := subPairs_spec env delOther items
    { holders := p.holders } hfac hitems htf (fun it _ hold hh => hst it.1 hold hh)
  have hk1 : ∀ x, x ∈ KeysOfMap st1.holders ↔ x ∈ KeysOfMap p.holders ∨ x ∈ KeysOfMap items :=
    k1
  have hk2 : (KeysOfMap st1.holders).Nodup := k2 hkeys
  unfold Provider.SubWarmPairs
  rw [hs]
  refine ⟨_, _, rfl, ?_, ?_⟩
  · intro hd
    subst hd
    have hmem : ∀ x, x ∈ (KeysOfMap st1.holders).filter (fun pair => (mapGet items pair).isNone) ↔
        x ∈ KeysOfMap p.holders ∧ x ∉ KeysOfMap items := by
      intro x
      rw [List.mem_filter, mapGet_isNone_iff, hk1]
      constructor
      · rintro ⟨h1 | h1, h2⟩
        · exact ⟨h1, h2⟩
        · exact absurd h1 h2
      · rintro ⟨h1, h2⟩
        exact ⟨Or.inl h1, h2⟩
    refine ⟨?_, ?_, ?_⟩
    · exact List.Nodup.filter _ hk2
    · exact hmem
    · intro x
      show x ∈ KeysOfMap (List.foldl mapDel st1.holders
        ((KeysOfMap st1.holders).filter fun pair => (mapGet items pair).isNone)) ↔ _
      rw [keys_foldl_mapDel, hmem, hk1]
      constructor
      · rintro ⟨h1 | h1, h2⟩
        · by_contra hx
          exact h2 ⟨h1, hx⟩
        · exact h1
      · intro h1
        exact ⟨Or.inr h1, fun h2 => h2.2 h1⟩
  · intro hd
    subst hd
    refine ⟨rfl, ?_⟩
    intro x
    show x ∈ KeysOfMap (List.foldl mapDel st1.holders []) ↔ _
    exact hk1 x

theorem C16_removed_list_and_subscribed_set_witness :
    ∃ p1 res, Provider.SubWarmPairs (exampleEnv none) exampleProvider exampleItems true =
        some (p1, res) ∧
      (true = true →
        res.delPairs.Nodup ∧
        (∀ x, x ∈ res.delPairs ↔
          x ∈ KeysOfMap exampleProvider.holders ∧ x ∉ KeysOfMap exampleItems) ∧
        ∀ x, x ∈ KeysOfMap p1.holders ↔ x ∈ KeysOfMap exampleItems) ∧
      (true = false →
        res.delPairs = [] ∧
        ∀ x, x ∈ KeysOfMap p1.holders ↔
          x ∈ KeysOfMap exampleProvider.holders ∨ x ∈ KeysOfMap exampleItems) :=
  C16_removed_list_and_subscribed_set (exampleEnv none) exampleProvider exampleItems true
    (by
      intro it hit
      simp only [exampleItems, List.mem_cons, List.mem_singleton, List.not_mem_nil,
        or_false] at hit
      rcases hit with h | h <;> subst h <;> exact ⟨_, rfl⟩)
    (by decide)
    (by
      intro it hit
      simp only [exampleItems, List.mem_cons, List.mem_singleton, List.not_mem_nil,
        or_false] at hit
      rcases hit with h | h <;> subst h <;> simp)
    (by decide)
    (by
      intro k hold hh
      have hh2 : mapGet [("ETH", heldFeeder "ETH"), ("BTC", heldFeeder "BTC")] k = some hold :=
        hh
      rw [mapGet_cons] at hh2
      by_cases h1 : k = "ETH"
      · rw [if_pos h1] at hh2
        cases hh2
        simp [heldFeeder]
      · rw [if_neg h1, mapGet_cons] at hh2
        by_cases h2 : k = "BTC"
        · rw [if_pos h2] at hh2
          cases hh2
          simp [heldFeeder]
        · rw [if_neg h2, mapGet_nil] at hh2
          cases hh2)

end Banbot

namespace Banbot

/-- C17. `Provider.SubWarmPairs` on a requested instrument that is already subscribed (the
factory makes a feeder of the pair asked for, for every requested instrument; the maps
have distinct keys; every requested instrument names a timeframe; every held feeder has a
state record and the symbol it is held under; no requested instrument name contains the
separator of the resume keys): the instrument is afterwards held by the feeder that
`SubTfs` returns; that feeder is in the returned list of new feeders if and only if the
timeframe of its first state record (the smallest one) after `SubTfs` differs from the one
before; and otherwise the returned resume map has, under the key `pair|timeframe`, the
next-due timestamp of that first state record. -/
theorem C17_subscribed_instrument_is_new_iff_smallest_timeframe_changed (env : Env)
    (p : Provider) (items : List (String × List (String × Int))) (delOther : Bool)
    (pair : String) (tfWarms : List (String × Int)) (hold : Feeder)
    (hfac : ∀ it ∈ items, ∃ f, env.newFeeder it.1 (KeysOfMap it.2) = Except.ok f)
    (hfsym : ∀ it ∈ items, ∀ f, env.newFeeder it.1 (KeysOfMap it.2) = Except.ok f →
      f.getSymbol = it.1)
    (hitems : (KeysOfMap items).Nodup) (htf : ∀ it ∈ items, it.2 ≠ [])
    (hst : ∀ k h, mapGet p.holders k = some h → h.states ≠ [])
    (hsym : ∀ k h, mapGet p.holders k = some h → h.getSymbol = k)
    (hbar : ∀ it ∈ items, '|' ∉ it.1.data)
    (hmem : (pair, tfWarms) ∈ items) (hheld : mapGet p.holders pair = some hold) :
    ∃ p1 res old0 cur0, Provider.SubWarmPairs env p items delOther = some (p1, res) ∧
      hold.getStates.head? = some old0 ∧
      (hold.SubTfs env.tfSecs (KeysOfMap tfWarms) delOther).1.getStates.head? = some cur0 ∧
      mapGet p1.holders pair = some (hold.SubTfs env.tfSecs (KeysOfMap tfWarms) delOther).1 ∧
      ((hold.SubTfs env.tfSecs (KeysOfMap tfWarms) delOther).1 ∈ res.newHolds ↔
        old0.TimeFrame ≠ cur0.TimeFrame) ∧
      (old0.TimeFrame = cur0.TimeFrame →
        mapGet res.sinceMap (pair ++ "|" ++ cur0.TimeFrame) = some cur0.NextMS) := by
  obtain ⟨pre, post, hsplit⟩ := List.append_of_mem hmem
  subst hsplit
  have hk : KeysOfMap (pre ++ (pair, tfWarms) :: post) =
      KeysOfMap pre ++ pair :: KeysOfMap post := by
    simp [KeysOfMap]
  rw [hk, List.nodup_append, List.nodup_cons] at hitems
  obtain ⟨hndpre, ⟨hpost, hndpost⟩, hdisj⟩ := hitems
  have hpre : pair ∉ KeysOfMap pre := fun h => hdisj h (List.mem_cons_self _ _)
  have hpp : ∀ it ∈ post, it.1 ∉ KeysOfMap pre := fun it hit h =>
    hdisj h (List.mem_cons_of_mem _ (List.mem_map_of_mem _ hit))
  have hpne : ∀ it ∈ post, it.1 ≠ pair := fun it hit heq =>
    hpost (heq ▸ List.mem_map_of_mem _ hit)
  have inpre : ∀ it ∈ pre, it ∈ pre ++ (pair, tfWarms) :: post := fun it hit =>
    List.mem_append_left _ hit
  have inpost : ∀ it ∈ post, it ∈ pre ++ (pair, tfWarms) :: post := fun it hit =>
    List.mem_append_right _ (List.mem_cons_of_mem _ hit)
  -- the instruments before the one looked at
  obtain ⟨sa, hsa, -, -, a3, ⟨addA, a4, a5⟩, -, a7⟩ := subPairs_spec env delOther pre
    { holders := p.holders } (fun it hit => hfac it (inpre it hit)) hndpre
    (fun it hit => htf it (inpre it hit)) (fun it _ h hh => hst it.1 h hh)
  have ha5 := a5 (fun it hit => hfsym it (inpre it hit)) (fun it _ h hh => hsym it.1 h hh)
  have hga : mapGet sa.holders pair = some hold := by
    rw [a3 pair hpre]
    exact hheld
  have hnewA : sa.newHolds = addA := by
    rw [a4]
    rfl
  have hndA : (KeysOfMap sa.oldSince).Nodup := a7 List.nodup_nil
  -- the instrument looked at
  obtain ⟨sb, hsb, heff⟩ := subPair_done env delOther sa pair tfWarms (hfac _ hmem)
    (fun h hh => by
      rw [hga] at hh
      cases hh
      exact hst pair _ hheld)
    (htf _ hmem)
  rcases heff with ⟨hnone, -⟩ | ⟨hold1, old0, cur0, hg, ho, hc, e1, e2, e3⟩
  · rw [hga] at hnone
    cases hnone
  rw [hga] at hg
  cases hg
  have hgetb : ∀ x, x ≠ pair → mapGet sb.holders x = mapGet sa.holders x := by
    intro x hx
    rw [e1]
    exact mapGet_mapSet_ne _ _ _ _ hx
  have hpostget : ∀ it ∈ post, mapGet sb.holders it.1 = mapGet p.holders it.1 := by
    intro it hit
    rw [hgetb _ (hpne it hit), a3 _ (hpp it hit)]
  -- the instruments after it
  obtain ⟨sc, hsc, -, -, c3, ⟨addC, c4, c5⟩, c6, c7⟩ := subPairs_spec env delOther post sb
    (fun it hit => hfac it (inpost it hit)) hndpost (fun it hit => htf it (inpost it hit))
    (fun it hit h hh => by
      rw [hpostget it hit] at hh
      exact hst it.1 h hh)
  have hc5 := c5 (fun it hit => hfsym it (inpost it hit)) (fun it hit h hh => by
      rw [hpostget it hit] at hh
      exact hsym it.1 h hh)
  have htotal : subPairs env delOther (pre ++ (pair, tfWarms) :: post)
      { holders := p.holders } = Flow.done sc := by
    rw [subPairs_append, hsa]
    show (match subPair env delOther sa (pair, tfWarms) with
      | Flow.done st1 => subPairs env delOther post st1
      | Flow.fail err st1 => Flow.fail err st1
      | Flow.panic => Flow.panic) = Flow.done sc
    rw [hsb]
    exact hsc
  have hgc : mapGet sc.holders pair =
      some (hold.SubTfs env.tfSecs (KeysOfMap tfWarms) delOther).1 := by
    rw [c3 pair hpost, e1]
    exact mapGet_mapSet_self _ _ _
  have hsymnew : (hold.SubTfs env.tfSecs (KeysOfMap tfWarms) delOther).1.getSymbol = pair := by
    rw [subTfs_symbol]
    exact hsym pair hold hheld
  unfold Provider.SubWarmPairs
  rw [htotal]
  refine ⟨_, _, old0, cur0, rfl, ho, hc, ?_, ?_, ?_⟩
  · show mapGet (List.foldl mapDel sc.holders
      (if delOther = true then
        (KeysOfMap sc.holders).filter fun x => (mapGet
          (pre ++ (pair, tfWarms) :: post) x).isNone
      else [])) pair = _
    rw [foldl_mapDel_not_mem, hgc]
    intro hdel
    by_cases hd : delOther = true
    · rw [if_pos hd, List.mem_filter, mapGet_isNone_iff, hk] at hdel
      exact hdel.2 (List.mem_append_right _ (List.mem_cons_self _ _))
    · rw [if_neg hd] at hdel
      cases hdel
  · show (hold.SubTfs env.tfSecs (KeysOfMap tfWarms) delOther).1 ∈ sc.newHolds ↔ _
    rw [c4]
    constructor
    · intro hin heq
      rw [(e3 heq).1, hnewA] at hin
      rcases List.mem_append.mp hin with h | h
      · have := ha5 _ h
        rw [hsymnew] at this
        exact hpre this
      · have := hc5 _ h
        rw [hsymnew] at this
        exact hpost this
    · intro hne
      rw [(e2 hne).1]
      exact List.mem_append_left _ (List.mem_append_right _ (List.mem_singleton_self _))
  · intro heq
    show mapGet (List.foldl (fun m e => mapSet m e.1 e.2)
      (Provider.warmJobs env sc.warmJobs).1 sc.oldSince) _ = _
    refine (foldl_mapSet_get sc.oldSince _ _).2 (c7 ?_) _ ?_
    · rw [(e3 heq).2]
      exact nodup_keys_mapSet _ _ _ hndA
    · rw [c6, (e3 heq).2]
      · exact mapGet_mapSet_self _ _ _
      · intro k hkin tf hkey
        obtain ⟨it, hit, rfl⟩ := List.mem_map.mp hkin
        have := resume_key_inj pair it.1 cur0.TimeFrame tf (hbar _ hmem)
          (hbar it (inpost it hit)) hkey
        exact hpne it hit this.symm

theorem C17_subscribed_instrument_is_new_iff_smallest_timeframe_changed_witness :
    ∃ p1 res old0 cur0,
      Provider.SubWarmPairs (exampleEnv none) exampleProvider exampleItems true =
        some (p1, res) ∧
      (heldFeeder "BTC").getStates.head? = some old0 ∧
      ((heldFeeder "BTC").SubTfs (exampleEnv none).tfSecs (KeysOfMap [("1m", (10 : Int))])
        true).1.getStates.head? = some cur0 ∧
      mapGet p1.holders "BTC" = some ((heldFeeder "BTC").SubTfs (exampleEnv none).tfSecs
        (KeysOfMap [("1m", (10 : Int))]) true).1 ∧
      (((heldFeeder "BTC").SubTfs (exampleEnv none).tfSecs (KeysOfMap [("1m", (10 : Int))])
        true).1 ∈ res.newHolds ↔ old0.TimeFrame ≠ cur0.TimeFrame) ∧
      (old0.TimeFrame = cur0.TimeFrame →
        mapGet res.sinceMap ("BTC" ++ "|" ++ cur0.TimeFrame) = some cur0.NextMS) :=
  C17_subscribed_instrument_is_new_iff_smallest_timeframe_changed (exampleEnv none)
    exampleProvider exampleItems true "BTC" [("1m", 10)] (heldFeeder "BTC")
    (by
      intro it hit
      simp only [exampleItems, List.mem_cons, List.mem_singleton, List.not_mem_nil,
        or_false] at hit
      rcases hit with h | h <;> subst h <;> exact ⟨_, rfl⟩)
    (by
      intro it hit f hf
      simp only [exampleItems, List.mem_cons, List.mem_singleton, List.not_mem_nil,
        or_false] at hit
      rcases hit with h | h <;> subst h <;> cases hf <;> rfl)
    (by decide)
    (by
      intro it hit
      simp only [exampleItems, List.mem_cons, List.mem_singleton, List.not_mem_nil,
        or_false] at hit
      rcases hit with h | h <;> subst h <;> simp)
    (by
      intro k hold hh
      have hh2 : mapGet [("ETH", heldFeeder "ETH"), ("BTC", heldFeeder "BTC")] k = some hold :=
        hh
      rw [mapGet_cons] at hh2
      by_cases h1 : k = "ETH"
      · rw [if_pos h1] at hh2
        cases hh2
        simp [heldFeeder]
      · rw [if_neg h1, mapGet_cons] at hh2
        by_cases h2 : k = "BTC"
        · rw [if_pos h2] at hh2
          cases hh2
          simp [heldFeeder]
        · rw [if_neg h2, mapGet_nil] at hh2
          cases hh2)
    (by
      intro k hold hh
      have hh2 : mapGet [("ETH", heldFeeder "ETH"), ("BTC", heldFeeder "BTC")] k = some hold :=
        hh
      rw [mapGet_cons] at hh2
      by_cases h1 : k = "ETH"
      · rw [if_pos h1] at hh2
        cases hh2
        exact h1.symm
      · rw [if_neg h1, mapGet_cons] at hh2
        by_cases h2 : k = "BTC"
        · rw [if_pos h2] at hh2
          cases hh2
          exact h2.symm
        · rw [if_neg h2, mapGet_nil] at hh2
          cases hh2)
    (by
      intro it hit
      simp only [exampleItems, List.mem_cons, List.mem_singleton, List.not_mem_nil,
        or_false] at hit
      rcases hit with h | h <;> subst h <;> decide)
    (by decide) (by decide)

end Banbot

namespace Banbot

/-! ## The live message handler -/

/-- The handler on a message of a subscribed instrument whose push interval is shorter than
the timeframe and whose bars are `init` followed by `lastBar`: the slice expressions do not
panic, and the handler goes on with the completed set. -/
theorem makeOnKlineMsg_short (exgName market : String) (now : Int) (p : LiveProvider)
    (msg : KLineMsg) (hold : Feeder) (init : List Kline) (lastBar : Kline)
    (hexg : msg.ExgName = exgName) (hmk : msg.Market = market)
    (hheld : mapGet p.provider.holders msg.Pair = some hold)
    (hint : msg.Interval < msg.TFSecs) (harr : msg.Arr = init ++ [lastBar]) :
    makeOnKlineMsg exgName market now p msg =
      if (takeWaitBar p msg.Pair hold init lastBar).1.length > 0 then
        some ((takeWaitBar p msg.Pair hold init lastBar).2.1.onNewBars msg.Pair
          (msg.TFSecs * 1000) (takeWaitBar p msg.Pair hold init lastBar).1)
      else
        match fastStream msg (takeWaitBar p msg.Pair hold init lastBar).2.2 with
        | none => none
        | some true =>
          some ((takeWaitBar p msg.Pair hold init lastBar).2.1.store msg.Pair
            ((takeWaitBar p msg.Pair hold init lastBar).2.2.setWaitBar (some lastBar)))
        | some false =>
          some (lastBarRule now (takeWaitBar p msg.Pair hold init lastBar).2.1 msg
            (takeWaitBar p msg.Pair hold init lastBar).2.2 (msg.TFSecs * 1000) lastBar) := by
  have hidx : ((msg.Arr.length : Int) - 1).toNat = init.length := by
    rw [harr]
    simp
  have hlt : ¬ ((msg.Arr.length : Int) - 1 < 0) := by
    rw [harr]
    simp
  have hget : msg.Arr[init.length]? = some lastBar := by
    rw [harr]
    simp
  have htake : msg.Arr.take init.length = init := by
    rw [harr]
    simp
  unfold makeOnKlineMsg
  have h1 : ¬ (msg.ExgName ≠ exgName ∨ msg.Market ≠ market) := by
    rw [hexg, hmk]
    simp
  have h2 : ¬ (msg.Interval ≥ msg.TFSecs) := by omega
  simp only [h1, if_false, hheld, h2, hlt, hidx, hget, htake]

/-- The statement on the pending bar when the pending bar predates the last bar. -/
theorem takeWaitBar_older (p : LiveProvider) (pair : String) (hold : Feeder)
    (doneArr : List Kline) (lastBar w : Kline) (hw : hold.getWaitBar = some w)
    (hlt : w.Time < lastBar.Time) :
    takeWaitBar p pair hold doneArr lastBar =
      (w :: doneArr, p.store pair (hold.setWaitBar none), hold.setWaitBar none) := by
  unfold takeWaitBar
  rw [hw]
  simp only [hlt, if_true]

/-- The statement on the pending bar when there is no pending bar, or it does not predate
the last bar. -/
theorem takeWaitBar_none (p : LiveProvider) (pair : String) (hold : Feeder)
    (doneArr : List Kline) (lastBar : Kline)
    (hw : ∀ w, hold.getWaitBar = some w → ¬ w.Time < lastBar.Time) :
    takeWaitBar p pair hold doneArr lastBar = (doneArr, p, hold) := by
  unfold takeWaitBar
  cases h : hold.getWaitBar with
  | none => rfl
  | some w =>
    simp only [hw w h, if_false]

theorem pendingBar_store (p : LiveProvider) (pair : String) (hold : Feeder) :
    pendingBar (p.store pair hold) pair = hold.getWaitBar := by
  unfold pendingBar LiveProvider.store
  simp only [mapGet_mapSet_self, Option.some_bind]

theorem mapGet_store (p : LiveProvider) (pair : String) (hold : Feeder) :
    mapGet (p.store pair hold).provider.holders pair = some hold := by
  unfold LiveProvider.store
  simp only [mapGet_mapSet_self]

end Banbot

namespace Banbot

theorem deliveredBars_onNewBars (p : LiveProvider) (pair : String) (tfMSecs : Int)
    (bars : List Kline) :
    deliveredBars (p.onNewBars pair tfMSecs bars) pair = deliveredBars p pair ++ bars := by
  unfold deliveredBars LiveProvider.onNewBars
  simp

theorem deliveredBars_store (p : LiveProvider) (pair x : String) (hold : Feeder) :
    deliveredBars (p.store pair hold) x = deliveredBars p x := rfl

theorem pendingBar_onNewBars (p : LiveProvider) (pair x : String) (tfMSecs : Int)
    (bars : List Kline) : pendingBar (p.onNewBars pair tfMSecs bars) x = pendingBar p x := rfl

theorem pendingBar_of_held (p : LiveProvider) (pair : String) (hold : Feeder)
    (h : mapGet p.provider.holders pair = some hold) : pendingBar p pair = hold.getWaitBar := by
  unfold pendingBar
  rw [h]
  rfl

/-- The fast-stream condition does not panic on a feeder with a state record. -/
theorem fastStream_isSome (msg : KLineMsg) (hold : Feeder) (h : hold.getStates ≠ []) :
    ∃ b, fastStream msg hold = some b := by
  unfold fastStream
  split
  · cases hs : hold.getStates with
    | nil => exact absurd hs h
    | cons st0 rest => exact ⟨_, rfl⟩
  · exact ⟨_, rfl⟩

/-- What the handler does with the last bar when nothing was completed: it is delivered
alone, or it becomes the pending bar. -/
theorem lastBarRule_cases (now : Int) (p : LiveProvider) (msg : KLineMsg) (hold : Feeder)
    (tfMSecs : Int) (lastBar : Kline) :
    (Int.tdiv (lastBar.Time + tfMSecs - now) 1000 * 2 < msg.Interval ∧
        lastBarRule now p msg hold tfMSecs lastBar = p.onNewBars msg.Pair tfMSecs [lastBar]) ∨
      (¬ Int.tdiv (lastBar.Time + tfMSecs - now) 1000 * 2 < msg.Interval ∧
        lastBarRule now p msg hold tfMSecs lastBar =
          p.store msg.Pair (hold.setWaitBar (some lastBar))) := by
  unfold lastBarRule
  by_cases h : Int.tdiv (lastBar.Time + tfMSecs - now) 1000 * 2 < msg.Interval
  · exact Or.inl ⟨h, by simp only [h, if_true]⟩
  · exact Or.inr ⟨h, by simp only [h, if_false]⟩

/-- C21 (counterexample). Timeframe 60 s, push interval 5 s, a message of three bars whose
last bar closes at 240000 ms, handled at 100000 ms: the first two bars are delivered, and
the last bar is neither delivered nor held as the pending bar. -/
theorem C21_last_bar_of_three_is_neither_delivered_nor_pending :
    ∃ p1, makeOnKlineMsg "binance" "spot" 100000 liveExample
        (liveMsg 5 [⟨60000⟩, ⟨120000⟩, ⟨180000⟩]) = some p1 ∧
      deliveredBars p1 "BTC" = [⟨60000⟩, ⟨120000⟩] ∧
      (⟨180000⟩ : Kline) ∉ deliveredBars p1 "BTC" ∧ pendingBar p1 "BTC" = none :=
  ⟨_, rfl, by decide, by decide, by decide⟩

/-- C21 (amended). A message of a subscribed feeder with a state record, with a push
interval shorter than the timeframe and the bars `init` followed by `lastBar`: the handler
returns; when the completed set (the older pending bar, if any, and `init`) is empty, the
last bar has been delivered, alone, or is the pending bar afterwards; when the completed
set is not empty, it is what is delivered, and the pending bar is the one that the
statement on the pending bar left (none, or the one held before): the last bar is not
stored. -/
theorem C21_last_bar_kept_when_nothing_completed (exgName market : String) (now : Int)
    (p : LiveProvider) (msg : KLineMsg) (hold : Feeder) (init : List Kline) (lastBar : Kline)
    (hexg : msg.ExgName = exgName) (hmk : msg.Market = market)
    (hheld : mapGet p.provider.holders msg.Pair = some hold)
    (hint : msg.Interval < msg.TFSecs) (harr : msg.Arr = init ++ [lastBar])
    (hst : hold.getStates ≠ []) :
    ∃ p1, makeOnKlineMsg exgName market now p msg = some p1 ∧
      ((takeWaitBar p msg.Pair hold init lastBar).1 = [] →
        (p1.delivered = p.delivered ++
            [{ pair := msg.Pair, tfMSecs := msg.TFSecs * 1000, bars := [lastBar] }] ∧
          pendingBar p1 msg.Pair = pendingBar p msg.Pair) ∨
        (p1.delivered = p.delivered ∧ pendingBar p1 msg.Pair = some lastBar)) ∧
      ((takeWaitBar p msg.Pair hold init lastBar).1 ≠ [] →
        p1.delivered = p.delivered ++
          [{ pair := msg.Pair, tfMSecs := msg.TFSecs * 1000,
             bars := (takeWaitBar p msg.Pair hold init lastBar).1 }] ∧
        pendingBar p1 msg.Pair = (takeWaitBar p msg.Pair hold init lastBar).2.2.getWaitBar) := by
  rw [makeOnKlineMsg_short exgName market now p msg hold init lastBar hexg hmk hheld hint harr]
  by_cases hold_older : ∃ w, hold.getWaitBar = some w ∧ w.Time < lastBar.Time
  · obtain ⟨w, hw, hlt⟩ := hold_older
    rw [takeWaitBar_older p msg.Pair hold init lastBar w hw hlt]
    rw [if_pos (show (w :: init).length > 0 from Nat.succ_pos _)]
    refine ⟨_, rfl, ?_, ?_⟩
    · intro h
      cases h
    · intro _
      refine ⟨rfl, ?_⟩
      rw [pendingBar_onNewBars, pendingBar_store]
  · have hno : ∀ w, hold.getWaitBar = some w → ¬ w.Time < lastBar.Time :=
      fun w hw hlt => hold_older ⟨w, hw, hlt⟩
    rw [takeWaitBar_none p msg.Pair hold init lastBar hno]
    cases init with
    | cons b rest =>
      rw [if_pos (show (b :: rest).length > 0 from Nat.succ_pos _)]
      refine ⟨_, rfl, ?_, ?_⟩
      · intro h
        cases h
      · intro _
        refine ⟨rfl, ?_⟩
        rw [pendingBar_onNewBars]
        exact pendingBar_of_held p msg.Pair hold hheld
    | nil =>
      simp only [List.length_nil, gt_iff_lt, lt_self_iff_false, if_false]
      obtain ⟨b, hb⟩ := fastStream_isSome msg hold hst
      rw [hb]
      cases b with
      | true =>
        refine ⟨_, rfl, ?_, ?_⟩
        · intro _
          exact Or.inr ⟨rfl, by rw [pendingBar_store]; rfl⟩
        · intro h
          exact absurd rfl h
      | false =>
        refine ⟨_, rfl, ?_, ?_⟩
        · intro _
          rcases lastBarRule_cases now p msg hold (msg.TFSecs * 1000) lastBar with
            ⟨-, h⟩ | ⟨-, h⟩
          · rw [h]
            exact Or.inl ⟨rfl, rfl⟩
          · rw [h]
            exact Or.inr ⟨rfl, by rw [pendingBar_store]; rfl⟩
        · intro h
          exact absurd rfl h

theorem C21_last_bar_kept_when_nothing_completed_witness :
    ∃ p1, makeOnKlineMsg "binance" "spot" 100000 liveExample (liveMsg 5 [⟨60000⟩]) = some p1 ∧
      ((takeWaitBar liveExample (liveMsg 5 [⟨60000⟩]).Pair (heldFeeder "BTC") [] ⟨60000⟩).1 = [] →
        (p1.delivered = liveExample.delivered ++
            [{ pair := (liveMsg 5 [⟨60000⟩]).Pair,
               tfMSecs := (liveMsg 5 [⟨60000⟩]).TFSecs * 1000, bars := [⟨60000⟩] }] ∧
          pendingBar p1 (liveMsg 5 [⟨60000⟩]).Pair =
            pendingBar liveExample (liveMsg 5 [⟨60000⟩]).Pair) ∨
        (p1.delivered = liveExample.delivered ∧
          pendingBar p1 (liveMsg 5 [⟨60000⟩]).Pair = some ⟨60000⟩)) ∧
      ((takeWaitBar liveExample (liveMsg 5 [⟨60000⟩]).Pair (heldFeeder "BTC") [] ⟨60000⟩).1 ≠ [] →
        p1.delivered = liveExample.delivered ++
          [{ pair := (liveMsg 5 [⟨60000⟩]).Pair,
             tfMSecs := (liveMsg 5 [⟨60000⟩]).TFSecs * 1000,
             bars := (takeWaitBar liveExample (liveMsg 5 [⟨60000⟩]).Pair (heldFeeder "BTC") []
               ⟨60000⟩).1 }] ∧
        pendingBar p1 (liveMsg 5 [⟨60000⟩]).Pair =
          (takeWaitBar liveExample (liveMsg 5 [⟨60000⟩]).Pair (heldFeeder "BTC") []
            ⟨60000⟩).2.2.getWaitBar) :=
  C21_last_bar_kept_when_nothing_completed "binance" "spot" 100000 liveExample
    (liveMsg 5 [⟨60000⟩]) (heldFeeder "BTC") [] ⟨60000⟩ rfl rfl (by decide) (by decide) rfl
    (by decide)

/-- C23. A message of the subscribed instrument "BTC" with an empty bar list, timeframe
60 s and push interval 5 s: the handler ends in a panic, at the slice expression
`msg.Arr[:lastIdx]` with `lastIdx = -1`. -/
theorem C23_empty_message_panics :
    mapGet liveExample.provider.holders (liveMsg 5 []).Pair = some (heldFeeder "BTC") ∧
      (liveMsg 5 []).Interval < (liveMsg 5 []).TFSecs ∧
      makeOnKlineMsg "binance" "spot" 100000 liveExample (liveMsg 5 []) = none := by
  decide

/-- C24 (counterexample). Timeframe 60 s, push interval 7 s, one bar that closes at
120000 ms, handled at 116300 ms with no pending bar: 3700 ms remain, which is not less than
half the push interval (3500 ms), and the bar is delivered. -/
theorem C24_delivered_with_more_than_half_interval_left :
    ¬ ((60000 + (liveMsg 7 [⟨60000⟩]).TFSecs * 1000 - 116300) * 2 <
        (liveMsg 7 [⟨60000⟩]).Interval * 1000) ∧
      fastStream (liveMsg 7 [⟨60000⟩]) (heldFeeder "BTC") = some false ∧
      ∃ p1, makeOnKlineMsg "binance" "spot" 116300 liveExample (liveMsg 7 [⟨60000⟩]) =
          some p1 ∧
        deliveredBars p1 "BTC" = [⟨60000⟩] ∧ pendingBar p1 "BTC" = none :=
  ⟨by decide, by decide, _, rfl, by decide, by decide⟩

/-- C24 (amended). A message with a push interval shorter than the timeframe and the one
bar `lastBar`, for a feeder without an older pending bar, when the fast-stream condition
is false: with the time that remains until the close of the bar, `lastBar.Time +
tfMSecs - now`, cut to whole seconds (toward zero), the bar is delivered at once when twice
these seconds are less than the push interval in seconds, and otherwise it is stored as the
pending bar and not delivered. -/
theorem C24_half_interval_rule_in_whole_seconds (exgName market : String) (now : Int)
    (p : LiveProvider) (msg : KLineMsg) (hold : Feeder) (lastBar : Kline)
    (hexg : msg.ExgName = exgName) (hmk : msg.Market = market)
    (hheld : mapGet p.provider.holders msg.Pair = some hold)
    (hint : msg.Interval < msg.TFSecs) (harr : msg.Arr = [lastBar])
    (hw : ∀ w, hold.getWaitBar = some w → ¬ w.Time < lastBar.Time)
    (hfast : fastStream msg hold = some false) :
    ∃ p1, makeOnKlineMsg exgName market now p msg = some p1 ∧
      if Int.tdiv (lastBar.Time + msg.TFSecs * 1000 - now) 1000 * 2 < msg.Interval then
        p1.delivered = p.delivered ++
          [{ pair := msg.Pair, tfMSecs := msg.TFSecs * 1000, bars := [lastBar] }] ∧
        pendingBar p1 msg.Pair = pendingBar p msg.Pair
      else p1.delivered = p.delivered ∧ pendingBar p1 msg.Pair = some lastBar := by
  rw [makeOnKlineMsg_short exgName market now p msg hold [] lastBar hexg hmk hheld hint harr,
    takeWaitBar_none p msg.Pair hold [] lastBar hw]
  simp only [List.length_nil, gt_iff_lt, lt_self_iff_false, if_false, hfast]
  refine ⟨_, rfl, ?_⟩
  rcases lastBarRule_cases now p msg hold (msg.TFSecs * 1000) lastBar with ⟨hc, h⟩ | ⟨hc, h⟩
  · rw [h, if_pos hc]
    exact ⟨rfl, rfl⟩
  · rw [h, if_neg hc]
    exact ⟨rfl, by rw [pendingBar_store]; rfl⟩

theorem C24_half_interval_rule_in_whole_seconds_witness :
    ∃ p1, makeOnKlineMsg "binance" "spot" 116300 liveExample (liveMsg 7 [⟨60000⟩]) = some p1 ∧
      if Int.tdiv ((⟨60000⟩ : Kline).Time + (liveMsg 7 [⟨60000⟩]).TFSecs * 1000 - 116300) 1000 * 2
          < (liveMsg 7 [⟨60000⟩]).Interval then
        p1.delivered = liveExample.delivered ++
          [{ pair := (liveMsg 7 [⟨60000⟩]).Pair,
             tfMSecs := (liveMsg 7 [⟨60000⟩]).TFSecs * 1000, bars := [⟨60000⟩] }] ∧
        pendingBar p1 (liveMsg 7 [⟨60000⟩]).Pair =
          pendingBar liveExample (liveMsg 7 [⟨60000⟩]).Pair
      else p1.delivered = liveExample.delivered ∧
        pendingBar p1 (liveMsg 7 [⟨60000⟩]).Pair = some ⟨60000⟩ :=
  C24_half_interval_rule_in_whole_seconds "binance" "spot" 116300 liveExample
    (liveMsg 7 [⟨60000⟩]) (heldFeeder "BTC") ⟨60000⟩ rfl rfl (by decide) (by decide) rfl
    (by decide) (by decide)

/-- C25. A message of a subscribed feeder whose push interval is at least the timeframe
length: the handler makes one delivery, of the bars of the message in their order, and
leaves the provider, and with it the pending bar, as it was. -/
theorem C25_all_bars_delivered_when_interval_covers_timeframe (exgName market : String)
    (now : Int) (p : LiveProvider) (msg : KLineMsg) (hold : Feeder)
    (hexg : msg.ExgName = exgName) (hmk : msg.Market = market)
    (hheld : mapGet p.provider.holders msg.Pair = some hold)
    (hint : msg.Interval ≥ msg.TFSecs) :
    ∃ p1, makeOnKlineMsg exgName market now p msg = some p1 ∧
      p1.delivered = p.delivered ++
        [{ pair := msg.Pair, tfMSecs := msg.TFSecs * 1000, bars := msg.Arr }] ∧
      deliveredBars p1 msg.Pair = deliveredBars p msg.Pair ++ msg.Arr ∧
      p1.provider = p.provider ∧ pendingBar p1 msg.Pair = pendingBar p msg.Pair := by
  have h1 : ¬ (msg.ExgName ≠ exgName ∨ msg.Market ≠ market) := by
    rw [hexg, hmk]
    simp
  refine ⟨p.onNewBars msg.Pair (msg.TFSecs * 1000) msg.Arr, ?_, rfl,
    deliveredBars_onNewBars _ _ _ _, rfl, rfl⟩
  unfold makeOnKlineMsg
  simp only [h1, if_false, hheld, hint, if_true]

theorem C25_all_bars_delivered_when_interval_covers_timeframe_witness :
    ∃ p1, makeOnKlineMsg "binance" "spot" 100000 liveExample
        (liveMsg 60 [⟨60000⟩, ⟨120000⟩]) = some p1 ∧
      p1.delivered = liveExample.delivered ++
        [{ pair := (liveMsg 60 [⟨60000⟩, ⟨120000⟩]).Pair,
           tfMSecs := (liveMsg 60 [⟨60000⟩, ⟨120000⟩]).TFSecs * 1000,
           bars := (liveMsg 60 [⟨60000⟩, ⟨120000⟩]).Arr }] ∧
      deliveredBars p1 (liveMsg 60 [⟨60000⟩, ⟨120000⟩]).Pair =
        deliveredBars liveExample (liveMsg 60 [⟨60000⟩, ⟨120000⟩]).Pair ++
          (liveMsg 60 [⟨60000⟩, ⟨120000⟩]).Arr ∧
      p1.provider = liveExample.provider ∧
      pendingBar p1 (liveMsg 60 [⟨60000⟩, ⟨120000⟩]).Pair =
        pendingBar liveExample (liveMsg 60 [⟨60000⟩, ⟨120000⟩]).Pair :=
  C25_all_bars_delivered_when_interval_covers_timeframe "binance" "spot" 100000 liveExample
    (liveMsg 60 [⟨60000⟩, ⟨120000⟩]) (heldFeeder "BTC") rfl rfl (by decide) (by decide)

end Banbot

namespace Banbot

/-- C26. A message of a subscribed feeder with a push interval shorter than the timeframe
and the bars `init` followed by `lastBar`. If the feeder holds a pending bar `w` with a
timestamp before that of `lastBar`, the completed set is `w` followed by `init`, the
pending bar is cleared, and the completed set is delivered. Otherwise the completed set is
`init` and the statement leaves the pending bar alone; when `init` is not empty it is
delivered, and when it is empty no completed set is delivered: a delivery that the handler
then makes is that of the last bar alone, and the pending bar afterwards is the one held
before or the last bar. -/
theorem C26_completed_set (exgName market : String) (now : Int)
    (p : LiveProvider) (msg : KLineMsg) (hold : Feeder) (init : List Kline) (lastBar : Kline)
    (hexg : msg.ExgName = exgName) (hmk : msg.Market = market)
    (hheld : mapGet p.provider.holders msg.Pair = some hold)
    (hint : msg.Interval < msg.TFSecs) (harr : msg.Arr = init ++ [lastBar]) :
    (∀ w, hold.getWaitBar = some w → w.Time < lastBar.Time →
      (takeWaitBar p msg.Pair hold init lastBar).1 = w :: init ∧
      (takeWaitBar p msg.Pair hold init lastBar).2.2.getWaitBar = none ∧
      ∃ p1, makeOnKlineMsg exgName market now p msg = some p1 ∧
        p1.delivered = p.delivered ++
          [{ pair := msg.Pair, tfMSecs := msg.TFSecs * 1000, bars := w :: init }] ∧
        pendingBar p1 msg.Pair = none) ∧
      ((∀ w, hold.getWaitBar = some w → ¬ w.Time < lastBar.Time) →
        (takeWaitBar p msg.Pair hold init lastBar).1 = init ∧
        (takeWaitBar p msg.Pair hold init lastBar).2.2.getWaitBar = hold.getWaitBar ∧
        (init ≠ [] →
          ∃ p1, makeOnKlineMsg exgName market now p msg = some p1 ∧
            p1.delivered = p.delivered ++
              [{ pair := msg.Pair, tfMSecs := msg.TFSecs * 1000, bars := init }] ∧
            pendingBar p1 msg.Pair = hold.getWaitBar) ∧
        (init = [] →
          ∀ p1, makeOnKlineMsg exgName market now p msg = some p1 →
            (p1.delivered = p.delivered ∨
              p1.delivered = p.delivered ++
                [{ pair := msg.Pair, tfMSecs := msg.TFSecs * 1000, bars := [lastBar] }]) ∧
            (pendingBar p1 msg.Pair = hold.getWaitBar ∨
              pendingBar p1 msg.Pair = some lastBar))) := by
  rw [makeOnKlineMsg_short exgName market now p msg hold init lastBar hexg hmk hheld hint harr]
  constructor
  · intro w hw hlt
    rw [takeWaitBar_older p msg.Pair hold init lastBar w hw hlt]
    refine ⟨rfl, rfl, ?_⟩
    rw [if_pos (show (w :: init).length > 0 from Nat.succ_pos _)]
    refine ⟨_, rfl, rfl, ?_⟩
    rw [pendingBar_onNewBars, pendingBar_store]
    rfl
  · intro hno
    rw [takeWaitBar_none p msg.Pair hold init lastBar hno]
    refine ⟨rfl, rfl, ?_, ?_⟩
    · intro hne
      cases init with
      | nil => exact absurd rfl hne
      | cons b rest =>
        rw [if_pos (show (b :: rest).length > 0 from Nat.succ_pos _)]
        refine ⟨_, rfl, rfl, ?_⟩
        rw [pendingBar_onNewBars]
        exact pendingBar_of_held p msg.Pair hold hheld
    · intro hnil p1 hp1
      subst hnil
      simp only [List.length_nil, gt_iff_lt, lt_self_iff_false, if_false] at hp1
      cases hf : fastStream msg hold with
      | none =>
        rw [hf] at hp1
        cases hp1
      | some b =>
        rw [hf] at hp1
        cases b with
        | true =>
          simp only [Option.some.injEq] at hp1
          subst hp1
          exact ⟨Or.inl rfl, Or.inr (by rw [pendingBar_store]; rfl)⟩
        | false =>
          simp only [Option.some.injEq] at hp1
          subst hp1
          rcases lastBarRule_cases now p msg hold (msg.TFSecs * 1000) lastBar with
            ⟨-, h⟩ | ⟨-, h⟩
          · rw [h]
            exact ⟨Or.inr rfl, Or.inl (pendingBar_of_held p msg.Pair hold hheld)⟩
          · rw [h]
            exact ⟨Or.inl rfl, Or.inr (by rw [pendingBar_store]; rfl)⟩

theorem C26_completed_set_witness :
    (takeWaitBar livePending "BTC" ((heldFeeder "BTC").setWaitBar (some ⟨60000⟩))
        [⟨120000⟩] ⟨180000⟩).1 = [⟨60000⟩, ⟨120000⟩] ∧
      (takeWaitBar livePending "BTC" ((heldFeeder "BTC").setWaitBar (some ⟨60000⟩))
        [⟨120000⟩] ⟨180000⟩).2.2.getWaitBar = none ∧
      ∃ p1, makeOnKlineMsg "binance" "spot" 100000 livePending
          (liveMsg 5 [⟨120000⟩, ⟨180000⟩]) = some p1 ∧
        p1.delivered = livePending.delivered ++
          [{ pair := "BTC", tfMSecs := 60 * 1000, bars := [⟨60000⟩, ⟨120000⟩] }] ∧
        pendingBar p1 "BTC" = none :=
  (C26_completed_set "binance" "spot" 100000 livePending (liveMsg 5 [⟨120000⟩, ⟨180000⟩])
    ((heldFeeder "BTC").setWaitBar (some ⟨60000⟩)) [⟨120000⟩] ⟨180000⟩ rfl rfl (by decide)
    (by decide) rfl).1 ⟨60000⟩ rfl (by decide)

/-- C27 (counterexample). Push interval 5 s, a message of one bar of 60 s that closes at
120000 ms, handled at 119000 ms, for a feeder without a pending bar whose smallest
timeframe is 30 s: the bar is delivered and not stored as the pending bar. -/
theorem C27_fast_stream_bar_delivered_when_feeder_timeframe_is_short :
    (liveMsg 5 [⟨60000⟩]).Interval ≤ 5 ∧ (liveMsg 5 [⟨60000⟩]).TFSecs ≥ 60 ∧
      pendingBar liveShort "BTC" = none ∧
      ∃ p1, makeOnKlineMsg "binance" "spot" 119000 liveShort (liveMsg 5 [⟨60000⟩]) = some p1 ∧
        deliveredBars p1 "BTC" = [⟨60000⟩] ∧ pendingBar p1 "BTC" = none :=
  ⟨by decide, by decide, by decide, _, rfl, by decide, by decide⟩

/-- C27 (amended). A message with a push interval shorter than the timeframe and the one
bar `lastBar`, for a feeder without an older pending bar: if the push interval is at most
5 s and the smallest timeframe of the feeder (its first state record) is at least 60 s
long, the handler delivers nothing and stores `lastBar` as the pending bar, whatever the
current time `now` is. -/
theorem C27_fast_stream_buffers_last_bar (exgName market : String) (now : Int)
    (p : LiveProvider) (msg : KLineMsg) (hold : Feeder) (lastBar : Kline) (st0 : PairTFCache)
    (hexg : msg.ExgName = exgName) (hmk : msg.Market = market)
    (hheld : mapGet p.provider.holders msg.Pair = some hold)
    (hint : msg.Interval < msg.TFSecs) (harr : msg.Arr = [lastBar])
    (hw : ∀ w, hold.getWaitBar = some w → ¬ w.Time < lastBar.Time)
    (h5 : msg.Interval ≤ 5) (hst : hold.getStates.head? = some st0) (h60 : st0.TFSecs ≥ 60) :
    ∃ p1, makeOnKlineMsg exgName market now p msg = some p1 ∧
      p1.delivered = p.delivered ∧ pendingBar p1 msg.Pair = some lastBar := by
  have hfast : fastStream msg hold = some true := by
    unfold fastStream
    rw [if_pos h5, hst]
    simp only [h60, decide_True]
  rw [makeOnKlineMsg_short exgName market now p msg hold [] lastBar hexg hmk hheld hint harr,
    takeWaitBar_none p msg.Pair hold [] lastBar hw]
  simp only [List.length_nil, gt_iff_lt, lt_self_iff_false, if_false, hfast]
  exact ⟨_, rfl, rfl, by rw [pendingBar_store]; rfl⟩

theorem C27_fast_stream_buffers_last_bar_witness :
    ∃ p1, makeOnKlineMsg "binance" "spot" 119000 liveExample (liveMsg 5 [⟨60000⟩]) = some p1 ∧
      p1.delivered = liveExample.delivered ∧
      pendingBar p1 (liveMsg 5 [⟨60000⟩]).Pair = some ⟨60000⟩ :=
  C27_fast_stream_buffers_last_bar "binance" "spot" 119000 liveExample (liveMsg 5 [⟨60000⟩])
    (heldFeeder "BTC") ⟨60000⟩ ⟨"1m", 60, 60000⟩ rfl rfl (by decide) (by decide) rfl
    (by decide) (by decide) rfl (by decide)

end Banbot

namespace Banbot

/-- The four ways in which the handler ends on a message of a subscribed feeder with a
state record, a push interval shorter than the timeframe and the bars `init` followed by
`lastBar`: the older pending bar and `init` are delivered and the buffer is cleared; `init`
is delivered; the last bar is delivered alone; the last bar becomes the pending bar. -/
theorem makeOnKlineMsg_step (exgName market : String) (now : Int) (p : LiveProvider)
    (msg : KLineMsg) (hold : Feeder) (init : List Kline) (lastBar : Kline)
    (hexg : msg.ExgName = exgName) (hmk : msg.Market = market)
    (hheld : mapGet p.provider.holders msg.Pair = some hold)
    (hint : msg.Interval < msg.TFSecs) (harr : msg.Arr = init ++ [lastBar])
    (hst : hold.getStates ≠ []) :
    ∃ p1 hold1, makeOnKlineMsg exgName market now p msg = some p1 ∧
      mapGet p1.provider.holders msg.Pair = some hold1 ∧ hold1.getStates = hold.getStates ∧
      ((∃ w, hold.getWaitBar = some w ∧ w.Time < lastBar.Time ∧
          deliveredBars p1 msg.Pair = deliveredBars p msg.Pair ++ w :: init ∧
          hold1.getWaitBar = none) ∨
        ((∀ w, hold.getWaitBar = some w → ¬ w.Time < lastBar.Time) ∧
          ((init ≠ [] ∧ deliveredBars p1 msg.Pair = deliveredBars p msg.Pair ++ init ∧
              hold1.getWaitBar = hold.getWaitBar) ∨
            (init = [] ∧ deliveredBars p1 msg.Pair = deliveredBars p msg.Pair ++ [lastBar] ∧
              hold1.getWaitBar = hold.getWaitBar) ∨
            (init = [] ∧ deliveredBars p1 msg.Pair = deliveredBars p msg.Pair ∧
              hold1.getWaitBar = some lastBar)))) := by
  rw [makeOnKlineMsg_short exgName market now p msg hold init lastBar hexg hmk hheld hint harr]
  by_cases hold_older : ∃ w, hold.getWaitBar = some w ∧ w.Time < lastBar.Time
  · obtain ⟨w, hw, hlt⟩ := hold_older
    rw [takeWaitBar_older p msg.Pair hold init lastBar w hw hlt]
    rw [if_pos (show (w :: init).length > 0 from Nat.succ_pos _)]
    refine ⟨_, hold.setWaitBar none, rfl, mapGet_store p msg.Pair _, rfl, Or.inl ?_⟩
    exact ⟨w, hw, hlt, deliveredBars_onNewBars _ _ _ _, rfl⟩
  · have hno : ∀ w, hold.getWaitBar = some w → ¬ w.Time < lastBar.Time :=
      fun w hw hlt => hold_older ⟨w, hw, hlt⟩
    rw [takeWaitBar_none p msg.Pair hold init lastBar hno]
    cases init with
    | cons b rest =>
      rw [if_pos (show (b :: rest).length > 0 from Nat.succ_pos _)]
      refine ⟨_, hold, rfl, hheld, rfl, Or.inr ⟨hno, Or.inl ?_⟩⟩
      exact ⟨List.cons_ne_nil _ _, deliveredBars_onNewBars _ _ _ _, rfl⟩
    | nil =>
      rw [if_neg (show ¬ ([] : List Kline).length > 0 from Nat.lt_irrefl 0)]
      obtain ⟨b, hb⟩ := fastStream_isSome msg hold hst
      rw [hb]
      cases b with
      | true =>
        refine ⟨_, hold.setWaitBar (some lastBar), rfl, mapGet_store p msg.Pair _, rfl,
          Or.inr ⟨hno, Or.inr (Or.inr ⟨rfl, rfl, rfl⟩)⟩⟩
      | false =>
        rcases lastBarRule_cases now p msg hold (msg.TFSecs * 1000) lastBar with
          ⟨-, h⟩ | ⟨-, h⟩
        · rw [h]
          refine ⟨_, hold, rfl, hheld, rfl, Or.inr ⟨hno, Or.inr (Or.inl ?_)⟩⟩
          exact ⟨rfl, deliveredBars_onNewBars _ _ _ _, rfl⟩
        · rw [h]
          refine ⟨_, hold.setWaitBar (some lastBar), rfl, mapGet_store p msg.Pair _, rfl,
            Or.inr ⟨hno, Or.inr (Or.inr ⟨rfl, rfl, rfl⟩)⟩⟩

/-- The handler over a run of messages for one feeder, none of which repeats a bar: what
has been delivered, then the pending bar, is a part, in the same order, of what had been
delivered, the pending bar and the bars of the messages. -/
theorem handleAll_sublist (exgName market pair : String) :
    ∀ (msgs : List (Int × KLineMsg)) (p : LiveProvider) (hold : Feeder),
      mapGet p.provider.holders pair = some hold → hold.getStates ≠ [] →
      (∀ m ∈ msgs, m.2.ExgName = exgName ∧ m.2.Market = market ∧ m.2.Pair = pair ∧
        m.2.Interval < m.2.TFSecs ∧ m.2.Arr ≠ []) →
      ((deliveredBars p pair ++ (pendingBar p pair).toList ++
        (msgs.map fun m => m.2.Arr).flatten).map Kline.Time).Pairwise (· < ·) →
      ∃ p1, handleAll exgName market msgs p = some p1 ∧
        (deliveredBars p1 pair ++ (pendingBar p1 pair).toList).Sublist
          (deliveredBars p pair ++ (pendingBar p pair).toList ++
            (msgs.map fun m => m.2.Arr).flatten) := by
  intro msgs
  induction msgs with
  | nil =>
    intro p hold _ _ _ _
    refine ⟨p, rfl, ?_⟩
    simp
  | cons m ms ih =>
    intro p hold hheld hst hmsgs hasc
    obtain ⟨hexg, hmk, hpair, hint, hne⟩ := hmsgs m (List.mem_cons_self _ _)
    have harr : m.2.Arr = m.2.Arr.dropLast ++ [m.2.Arr.getLast hne] :=
      (List.dropLast_append_getLast hne).symm
    generalize m.2.Arr.dropLast = init at harr
    generalize m.2.Arr.getLast hne = lastBar at harr
    rw [← hpair] at hheld
    obtain ⟨p1, hold1, hp1, hheld1, hst1, hcases⟩ := makeOnKlineMsg_step exgName market m.1 p
      m.2 hold init lastBar hexg hmk hheld hint harr hst
    rw [hpair] at hheld hheld1 hcases
    have hpend : pendingBar p pair = hold.getWaitBar := pendingBar_of_held p pair hold hheld
    have hpend1 : pendingBar p1 pair = hold1.getWaitBar :=
      pendingBar_of_held p1 pair hold1 hheld1
    have hflat : ((m :: ms).map fun m => m.2.Arr).flatten =
        init ++ lastBar :: (ms.map fun m => m.2.Arr).flatten := by
      simp [harr]
    rw [hflat, hpend] at hasc ⊢
    -- a pending bar stands before the last bar, so it predates it
    have hnone : (∀ w, hold.getWaitBar = some w → ¬ w.Time < lastBar.Time) →
        hold.getWaitBar = none := by
      intro hno
      cases hw : hold.getWaitBar with
      | none => rfl
      | some w =>
        exfalso
        apply hno w hw
        rw [hw] at hasc
        have h1 : [lastBar].Sublist (init ++ lastBar :: (ms.map fun m => m.2.Arr).flatten) :=
          (List.Sublist.cons₂ lastBar (List.nil_sublist _)).trans
            (List.sublist_append_right _ _)
        have h2 : [w, lastBar].Sublist (deliveredBars p pair ++ (some w).toList ++
            (init ++ lastBar :: (ms.map fun m => m.2.Arr).flatten)) := by
          rw [List.append_assoc]
          exact (List.Sublist.cons₂ w h1).trans (List.sublist_append_right _ _)
        have h3 := List.Pairwise.sublist (h2.map Kline.Time) hasc
        simpa using h3
    have hstep : (deliveredBars p1 pair ++ (pendingBar p1 pair).toList ++
        (ms.map fun m => m.2.Arr).flatten).Sublist
        (deliveredBars p pair ++ hold.getWaitBar.toList ++
          (init ++ lastBar :: (ms.map fun m => m.2.Arr).flatten)) := by
      rw [hpend1]
      rcases hcases with ⟨w, hw, -, hd, hw1⟩ | ⟨hno, ⟨-, hd, hw1⟩ | ⟨hi, hd, hw1⟩ | ⟨hi, hd, hw1⟩⟩
      · rw [hd, hw1, hw]
        simp only [Option.toList, List.append_nil, List.append_assoc, List.cons_append,
          List.nil_append]
        refine List.Sublist.append_left ?_ _
        refine List.Sublist.cons₂ _ ?_
        refine List.Sublist.append_left ?_ _
        exact List.sublist_cons_self _ _
      · rw [hd, hw1, hnone hno]
        simp only [Option.toList, List.append_nil, List.append_assoc]
        refine List.Sublist.append_left ?_ _
        refine List.Sublist.append_left ?_ _
        exact List.sublist_cons_self _ _
      · rw [hd, hw1, hnone hno, hi]
        simp only [Option.toList, List.append_nil, List.append_assoc, List.nil_append,
          List.singleton_append]
        exact List.Sublist.refl _
      · rw [hd, hw1, hnone hno, hi]
        simp only [Option.toList, List.append_nil, List.append_assoc, List.nil_append,
          List.singleton_append]
        exact List.Sublist.refl _
    obtain ⟨p2, hp2, hsub2⟩ := ih p1 hold1 hheld1 (by rw [hst1]; exact hst)
      (fun x hx => hmsgs x (List.mem_cons_of_mem _ hx))
      (List.Pairwise.sublist (hstep.map Kline.Time) hasc)
    refine ⟨p2, ?_, hsub2.trans hstep⟩
    show (match makeOnKlineMsg exgName market m.1 p m.2 with
      | none => none
      | some p1 => handleAll exgName market ms p1) = some p2
    rw [hp1]
    exact hp2

/-- C22 (counterexample). Timeframe 60 s, push interval 5 s: the message with the bar at
60000 ms leaves that bar pending; the next message, with the bars at 60000 ms and
120000 ms, has the pending bar and the bar at 60000 ms of the message delivered together.
Each message has ascending bars, and the last-bar timestamps do not decrease. -/
theorem C22_pending_bar_delivered_with_its_copy :
    (∀ m ∈ [(100000, liveMsg 5 [⟨60000⟩]), (125000, liveMsg 5 [⟨60000⟩, ⟨120000⟩])],
        (m.2.Arr.map Kline.Time).Pairwise (· < ·) ∧ m.2.Interval < m.2.TFSecs) ∧
      ∃ p1, handleAll "binance" "spot"
          [(100000, liveMsg 5 [⟨60000⟩]), (125000, liveMsg 5 [⟨60000⟩, ⟨120000⟩])]
          liveExample = some p1 ∧
        deliveredBars p1 "BTC" = [⟨60000⟩, ⟨60000⟩] ∧
        ¬ ((deliveredBars p1 "BTC").map Kline.Time).Pairwise (· < ·) :=
  ⟨by decide, _, rfl, by decide, by decide⟩

/-- C22 (amended). Messages handled one after the other for one subscribed feeder with a
state record, each with a push interval shorter than the timeframe and at least one bar,
such that the timestamps of what was delivered before, of the pending bar and of all bars
of the messages, in the order of their arrival, strictly increase (no bar comes twice): no
message ends in a panic, the timestamps of the bars delivered to the feeder, in the order
of delivery, strictly increase, and the bars delivered, then the pending bar, are among the
bars that came, in the order in which they came. -/
theorem C22_delivered_timestamps_strictly_increase (exgName market pair : String)
    (msgs : List (Int × KLineMsg)) (p : LiveProvider) (hold : Feeder)
    (hheld : mapGet p.provider.holders pair = some hold) (hst : hold.getStates ≠ [])
    (hmsgs : ∀ m ∈ msgs, m.2.ExgName = exgName ∧ m.2.Market = market ∧ m.2.Pair = pair ∧
      m.2.Interval < m.2.TFSecs ∧ m.2.Arr ≠ [])
    (hasc : ((deliveredBars p pair ++ (pendingBar p pair).toList ++
      (msgs.map fun m => m.2.Arr).flatten).map Kline.Time).Pairwise (· < ·)) :
    ∃ p1, handleAll exgName market msgs p = some p1 ∧
      ((deliveredBars p1 pair).map Kline.Time).Pairwise (· < ·) ∧
      (deliveredBars p1 pair ++ (pendingBar p1 pair).toList).Sublist
        (deliveredBars p pair ++ (pendingBar p pair).toList ++
          (msgs.map fun m => m.2.Arr).flatten) := by
  obtain ⟨p1, hp1, hsub⟩ := handleAll_sublist exgName market pair msgs p hold hheld hst hmsgs hasc
  refine ⟨p1, hp1, ?_, hsub⟩
  have h1 : (deliveredBars p1 pair).Sublist
      (deliveredBars p pair ++ (pendingBar p pair).toList ++
        (msgs.map fun m => m.2.Arr).flatten) :=
    (List.sublist_append_left _ _).trans hsub
  exact List.Pairwise.sublist (h1.map Kline.Time) hasc

theorem C22_delivered_timestamps_strictly_increase_witness :
    ∃ p1, handleAll "binance" "spot"
        [(100000, liveMsg 5 [⟨60000⟩]), (125000, liveMsg 5 [⟨120000⟩]),
          (185000, liveMsg 5 [⟨180000⟩, ⟨240000⟩])] liveExample = some p1 ∧
      ((deliveredBars p1 "BTC").map Kline.Time).Pairwise (· < ·) ∧
      (deliveredBars p1 "BTC" ++ (pendingBar p1 "BTC").toList).Sublist
        (deliveredBars liveExample "BTC" ++ (pendingBar liveExample "BTC").toList ++
          ([(100000, liveMsg 5 [⟨60000⟩]), (125000, liveMsg 5 [⟨120000⟩]),
            (185000, liveMsg 5 [⟨180000⟩, ⟨240000⟩])].map fun m => m.2.Arr).flatten) :=
  C22_delivered_timestamps_strictly_increase "binance" "spot" "BTC"
    [(100000, liveMsg 5 [⟨60000⟩]), (125000, liveMsg 5 [⟨120000⟩]),
      (185000, liveMsg 5 [⟨180000⟩, ⟨240000⟩])] liveExample (heldFeeder "BTC")
    (by decide) (by decide) (by decide) (by decide)

end Banbot

namespace Banbot

/-! ## The order kept by the insertion, and the head of the working list -/

/-- The merge order in words: of two feeders of the list, the one in front has the smaller
next-due timestamp, or the same one and then, unless both are exhausted, a symbol that is
not greater. -/
theorem mergeOrdered_iff (l : List Feeder) :
    MergeOrdered l ↔ l.Pairwise fun a b =>
      a.getNextMS < b.getNextMS ∨
        (a.getNextMS = b.getNextMS ∧ (a.getNextMS = MaxInt64 ∨ a.getSymbol ≤ b.getSymbol)) := by
  unfold MergeOrdered
  constructor
  · intro h
    refine h.imp ?_
    intro a b hab
    rw [sortLess_false_iff] at hab
    rcases hab with h1 | ⟨h1, h2 | h2⟩
    · exact Or.inl h1
    · exact Or.inr ⟨h1.symm, Or.inl (h1 ▸ h2)⟩
    · refine Or.inr ⟨h1.symm, Or.inr ?_⟩
      rw [← not_lt, String.lt_iff_toList_lt]
      exact not_lt.mpr h2
  · intro h
    refine h.imp ?_
    intro a b hab
    rw [sortLess_false_iff]
    rcases hab with h1 | ⟨h1, h2 | h2⟩
    · exact Or.inl h1
    · exact Or.inr ⟨h1.symm, Or.inl (h1 ▸ h2)⟩
    · refine Or.inr ⟨h1.symm, Or.inr ?_⟩
      rw [← not_lt, String.lt_iff_toList_lt] at h2
      exact not_lt.mp h2

theorem searchLoop_bounds (f : Nat → Bool) :
    ∀ fuel i j, i ≤ j → i ≤ searchLoop f fuel i j ∧ searchLoop f fuel i j ≤ j := by
  intro fuel
  induction fuel with
  | zero =>
    intro i j hij
    exact ⟨le_refl _, hij⟩
  | succ fuel ih =>
    intro i j hij
    unfold searchLoop
    by_cases hlt : i < j
    · simp only [hlt, if_true]
      by_cases hf : f ((i + j) / 2) = true
      · simp only [hf, Bool.not_true, Bool.false_eq_true, if_false]
        have := ih i ((i + j) / 2) (by omega)
        exact ⟨this.1, by omega⟩
      · simp only [hf, Bool.not_false, if_true]
        have := ih ((i + j) / 2 + 1) j (by omega)
        exact ⟨by omega, this.2⟩
    · simp only [hlt, if_false]
      exact ⟨le_refl _, hij⟩

/-- The insertion puts the feeder at some index of the list, whatever the order of the
list: the result is never empty. -/
theorem SortFeeders_insert_shape (l : List Feeder) (h : Feeder) :
    ∃ k, k ≤ l.length ∧ SortFeeders l (some h) true = some (l.take k ++ h :: l.drop k) := by
  have hb := (searchLoop_bounds (fun i =>
    match l[i]? with
    | some a => searchAfter h.getNextMS h.getSymbol a
    | none => false) l.length 0 l.length (Nat.zero_le _)).2
  refine ⟨_, hb, ?_⟩
  unfold SortFeeders
  simp only [if_true]
  rw [← copyWithin_set h l _ hb]
  rfl

/-- The second half of `step` does not panic. -/
theorem deliver_ne_panic (hold : Feeder) (bar : Kline) (s s1 : RunState) :
    deliver hold bar s ≠ StepResult.panic s1 := by
  unfold deliver
  by_cases hgt : bar.Time > s.lastBarMs
  · simp only [hgt, if_true]
    by_cases herr : (wgWait s).retErr.isSome = true
    · simp only [herr, if_true]
      intro h
      cases h
    · simp only [herr]
      by_cases herr2 : (hold.RunBar bar).isSome = true
      · simp only [herr2, if_true]
        intro h
        cases h
      · simp only [herr2]
        intro h
        cases h
  · simp only [hgt, if_false]
    intro h
    cases h

/-- A call of `step`, in a state in which `hold` is set whenever the working list is not
empty, panics exactly when it rebuilds the working list and `makeFeeders` returns no
feeder. -/
theorem step_panic_iff (mk : Nat → List Feeder → List Feeder) (ver : Int) (s : RunState)
    (hs : s.holds ≠ [] → s.hold ≠ none) :
    (∃ s1, step mk ver s = StepResult.panic s1) ↔
      (ver > s.oldVer ∨ s.holds.length = 0) ∧ mk s.calls (s.hold.toList ++ s.holds) = [] := by
  unfold step refresh
  by_cases hre : ver > s.oldVer ∨ s.holds.length = 0
  · simp only [hre, if_true, SortFeeders_full, Option.map_some', true_and]
    cases hm : sortSlice sortLess (mk s.calls (s.hold.toList ++ s.holds)) with
    | nil =>
      have hnil : mk s.calls (s.hold.toList ++ s.holds) = [] := by
        have := (sortSlice_perm sortLess (mk s.calls (s.hold.toList ++ s.holds))).length_eq
        rw [hm] at this
        exact List.length_eq_zero.mp this.symm
      simp only [hnil, iff_true]
      exact ⟨_, rfl⟩
    | cons hold rest =>
      have hne : mk s.calls (s.hold.toList ++ s.holds) ≠ [] := by
        intro hnil
        rw [hnil] at hm
        cases hm
      simp only [hne, iff_false, not_exists]
      intro s1
      cases hold.GetBar with
      | none =>
        intro h
        cases h
      | some bar => exact deliver_ne_panic _ _ _ _
  · simp only [hre, if_false, false_and, iff_false, not_exists]
    have hholds : s.holds ≠ [] := by
      intro h
      apply hre
      right
      rw [h]
      rfl
    cases hh : s.hold with
    | none => exact absurd hh (hs hholds)
    | some h =>
      obtain ⟨k, -, hk⟩ := SortFeeders_insert_shape s.holds h
      rw [hk]
      simp only [Option.map_some']
      intro s1
      cases hl : List.take k s.holds ++ h :: List.drop k s.holds with
      | nil => simp at hl
      | cons hold rest =>
        simp only
        cases hold.GetBar with
        | none =>
          intro h
          cases h
        | some bar => exact deliver_ne_panic _ _ _ _

/-- After a call of `step` that returned true, `hold` is set. -/
theorem step_next_hold (mk : Nat → List Feeder → List Feeder) (ver : Int) (s s1 : RunState)
    (h : step mk ver s = StepResult.next s1) : s1.hold ≠ none := by
  unfold step at h
  cases hr : refresh mk ver s with
  | none => rw [hr] at h; cases h
  | some s0 =>
    rw [hr] at h
    simp only at h
    cases hl : s0.holds with
    | nil => rw [hl] at h; cases h
    | cons hold rest =>
      rw [hl] at h
      simp only at h
      cases hb : hold.GetBar with
      | none => rw [hb] at h; cases h
      | some bar =>
        rw [hb] at h
        simp only at h
        rw [(deliver_next _ _ _ _ h).1]
        intro hnone
        cases hnone

/-- A run in which `makeFeeders` always returns at least one feeder does not panic. -/
theorem runLoop_no_panic (mk : Nat → List Feeder → List Feeder)
    (hmk : ∀ k live, mk k live ≠ []) :
    ∀ (fuel : Nat) (versions : List (Option Int)) (s : RunState),
      (s.holds ≠ [] → s.hold ≠ none) → (runLoop mk fuel versions s).1 ≠ Outcome.panicked := by
  intro fuel
  induction fuel with
  | zero =>
    intro versions s _ h
    cases h
  | succ fuel ih =>
    intro versions s hs
    unfold runLoop
    simp only
    split
    · intro h
      cases h
    · cases hstep : step mk ((versions.headD none).getD 0) s with
      | next s1 =>
        simp only
        exact ih _ s1 (fun _ => step_next_hold mk _ s s1 hstep)
      | stop s1 =>
        simp only
        intro h
        cases h
      | panic s1 =>
        exfalso
        have := (step_panic_iff mk ((versions.headD none).getD 0) s hs).mp ⟨s1, hstep⟩
        exact hmk _ _ this.2

end Banbot

namespace Banbot

/-- C28 (counterexample). The list with the one exhausted feeder "B" is sorted; the
insertion of the exhausted feeder "A" returns "B" in front of "A", although the two have
the same next-due timestamp (the sentinel) and "A" is the smaller symbol. -/
theorem C28_insertion_exhausted_tie_not_by_symbol :
    SortFeeders [histFeeder "B" []] (some (histFeeder "A" [])) true =
        some [histFeeder "B" [], histFeeder "A" []] ∧
      (histFeeder "B" []).getNextMS = (histFeeder "A" []).getNextMS ∧
      strLess (histFeeder "A" []).getSymbol (histFeeder "B" []).getSymbol = true := by
  decide

/-- C28 (amended). A feeder list in the order of the scheduler (of two feeders the one in
front has the smaller next-due timestamp, or the same one and then, unless they are
exhausted, a symbol that is not greater) and a feeder `h`: `SortFeeders(list, h, true)`
returns a list that is in that order again, has one feeder more, and is a permutation of
`h` and the feeders of the list; with next-due timestamps in the range of `int64` the
exhausted feeders stand last in it. -/
theorem C28_insertion_keeps_merge_order (l : List Feeder) (h : Feeder)
    (hl : l.Pairwise fun a b =>
      a.getNextMS < b.getNextMS ∨
        (a.getNextMS = b.getNextMS ∧ (a.getNextMS = MaxInt64 ∨ a.getSymbol ≤ b.getSymbol))) :
    ∃ r, SortFeeders l (some h) true = some r ∧
      (r.Pairwise fun a b =>
        a.getNextMS < b.getNextMS ∨
          (a.getNextMS = b.getNextMS ∧ (a.getNextMS = MaxInt64 ∨ a.getSymbol ≤ b.getSymbol))) ∧
      r.length = l.length + 1 ∧ r.Perm (h :: l) ∧
      ((∀ f ∈ h :: l, f.getNextMS ≤ MaxInt64) → ExhaustedLast r) := by
  obtain ⟨r, he, hr, hp⟩ := SortFeeders_insert_ordered l h ((mergeOrdered_iff l).mpr hl)
  refine ⟨r, he, (mergeOrdered_iff r).mp hr, ?_, hp, ?_⟩
  · rw [hp.length_eq]
    rfl
  · intro hrange
    exact mergeOrdered_exhaustedLast r hr fun f hf => hrange f (hp.mem_iff.mp hf)

theorem C28_insertion_keeps_merge_order_witness :
    ∃ r, SortFeeders [histFeeder "A" [⟨1⟩], histFeeder "C" [⟨5⟩], histFeeder "D" []]
        (some (histFeeder "B" [⟨5⟩])) true = some r ∧
      (r.Pairwise fun a b =>
        a.getNextMS < b.getNextMS ∨
          (a.getNextMS = b.getNextMS ∧ (a.getNextMS = MaxInt64 ∨ a.getSymbol ≤ b.getSymbol))) ∧
      r.length = [histFeeder "A" [⟨1⟩], histFeeder "C" [⟨5⟩], histFeeder "D" []].length + 1 ∧
      r.Perm (histFeeder "B" [⟨5⟩] ::
        [histFeeder "A" [⟨1⟩], histFeeder "C" [⟨5⟩], histFeeder "D" []]) ∧
      ((∀ f ∈ histFeeder "B" [⟨5⟩] ::
          [histFeeder "A" [⟨1⟩], histFeeder "C" [⟨5⟩], histFeeder "D" []],
          f.getNextMS ≤ MaxInt64) → ExhaustedLast r) :=
  C28_insertion_keeps_merge_order
    [histFeeder "A" [⟨1⟩], histFeeder "C" [⟨5⟩], histFeeder "D" []] (histFeeder "B" [⟨5⟩])
    ((mergeOrdered_iff _).mp (by decide))

/-- C30. A call of the closure `step` of `RunHistFeeders`, in a state in which `hold` is
set whenever the working list is not empty (as it is at the start of the run and after
every call that returned true): the call panics, at `holds[0]` of an empty working list,
exactly when it rebuilds the working list (the version is greater than the last one
applied, or the working list is empty) and `makeFeeders` returns no feeder; and when
`makeFeeders` always returns at least one feeder, no call of `step` in a run of
`RunHistFeeders` panics. -/
theorem C30_head_access_fails_only_on_empty_rebuild
    (mk : Nat → List Feeder → List Feeder) (ver : Int) (s : RunState)
    (hs : s.holds ≠ [] → s.hold ≠ none) :
    ((∃ s1, step mk ver s = StepResult.panic s1) ↔
        (ver > s.oldVer ∨ s.holds.length = 0) ∧
          mk s.calls (s.hold.toList ++ s.holds) = []) ∧
      (∀ s1, step mk ver s = StepResult.panic s1 → s1.holds = []) ∧
      (∀ s1, step mk ver s = StepResult.next s1 → s1.holds ≠ [] → s1.hold ≠ none) ∧
      ((∀ k live, mk k live ≠ []) →
        ∀ fuel versions, (RunHistFeeders fuel mk versions).1 ≠ Outcome.panicked) := by
  refine ⟨step_panic_iff mk ver s hs, ?_, fun s1 h _ => step_next_hold mk ver s s1 h, ?_⟩
  · intro s1 hp
    have hiff := (step_panic_iff mk ver s hs).mp ⟨s1, hp⟩
    unfold step refresh at hp
    simp only [hiff.1, if_true, SortFeeders_full, Option.map_some', hiff.2] at hp
    have hnil : sortSlice sortLess ([] : List Feeder) = [] := rfl
    simp only [hnil, StepResult.panic.injEq] at hp
    rw [← hp]
  · intro hmk fuel versions
    exact runLoop_no_panic mk hmk fuel versions {} (fun h => absurd rfl h)

theorem C30_head_access_fails_only_on_empty_rebuild_witness :
    ((∃ s1, step (fun _ _ => []) 0 {} = StepResult.panic s1) ↔
        ((0 : Int) > ({} : RunState).oldVer ∨ ({} : RunState).holds.length = 0) ∧
          (fun (_ : Nat) (_ : List Feeder) => ([] : List Feeder)) ({} : RunState).calls
            (({} : RunState).hold.toList ++ ({} : RunState).holds) = []) ∧
      (∀ s1, step (fun _ _ => []) 0 {} = StepResult.panic s1 → s1.holds = []) ∧
      (∀ s1, step (fun _ _ => []) 0 {} = StepResult.next s1 → s1.holds ≠ [] →
        s1.hold ≠ none) ∧
      ((∀ k live, (fun (_ : Nat) (_ : List Feeder) => ([] : List Feeder)) k live ≠ []) →
        ∀ fuel versions,
          (RunHistFeeders fuel (fun _ _ => []) versions).1 ≠ Outcome.panicked) :=
  C30_head_access_fails_only_on_empty_rebuild (fun _ _ => []) 0 {} (fun h => absurd rfl h)

end Banbot

namespace Banbot

/-! ## Replay completeness -/

theorem deliveredOf_append (sym : String) (t1 t2 : List Event) :
    deliveredOf sym (t1 ++ t2) = deliveredOf sym t1 ++ deliveredOf sym t2 := by
  unfold deliveredOf
  exact List.filterMap_append _ _ _

theorem deliveries_append (t1 t2 : List Event) :
    deliveries (t1 ++ t2) = deliveries t1 ++ deliveries t2 := by
  unfold deliveries
  exact List.filterMap_append _ _ _

theorem deliveredOf_runBar (sym a : String) (bar : Kline) (err : Option Error) :
    deliveredOf sym [Event.runBar a bar err] = if a = sym then [bar] else [] := by
  unfold deliveredOf
  by_cases h : a = sym
  · simp [h]
  · simp [h]

theorem runningOf_append (sym : String) (r1 r2 : List (Feeder × Kline)) :
    runningOf sym (r1 ++ r2) = runningOf sym r1 ++ runningOf sym r2 := by
  unfold runningOf
  exact List.filterMap_append _ _ _

theorem runningOf_singleton (sym : String) (hold : Feeder) (bar : Kline) :
    runningOf sym [(hold, bar)] = if hold.getSymbol = sym then [bar] else [] := by
  unfold runningOf
  by_cases h : hold.getSymbol = sym
  · simp [h]
  · simp [h]

theorem deliveredOf_runBars (sym : String) (r : List (Feeder × Kline)) :
    deliveredOf sym (r.map fun x => Event.runBar x.1.getSymbol x.2 none) = runningOf sym r := by
  induction r with
  | nil => rfl
  | cons x xs ih =>
    rw [List.map_cons, ← List.singleton_append, deliveredOf_append, ih, deliveredOf_runBar,
      ← List.singleton_append (l := xs), runningOf_append, runningOf_singleton]

theorem deliveries_runBars (r : List (Feeder × Kline)) :
    deliveries (r.map fun x => Event.runBar x.1.getSymbol x.2 none) =
      r.map fun x => (x.1.getSymbol, x.2) := by
  induction r with
  | nil => rfl
  | cons x xs ih =>
    rw [List.map_cons, ← List.singleton_append, deliveries_append, ih]
    rfl

theorem runBar_none (f : Feeder) (bar : Kline) (h : f.barErrs = []) : f.RunBar bar = none := by
  unfold Feeder.RunBar
  rw [h]
  rfl

/-- Goroutines whose deliveries do not fail, run with no error recorded: each delivers its
bar. -/
theorem foldl_runTask_ok : ∀ (ts : List (Feeder × Kline)) (s : RunState), s.retErr = none →
    (∀ x ∈ ts, x.1.barErrs = []) →
    ts.foldl runTask s =
      { s with trace := s.trace ++ ts.map fun x => Event.runBar x.1.getSymbol x.2 none } := by
  intro ts
  induction ts with
  | nil =>
    intro s _ _
    simp
  | cons x xs ih =>
    intro s he hx
    have h1 : runTask s x =
        { s with trace := s.trace ++ [Event.runBar x.1.getSymbol x.2 none] } := by
      unfold runTask
      rw [he, runBar_none x.1 x.2 (hx x (List.mem_cons_self _ _))]
      simp [he]
    rw [List.foldl_cons, h1, ih _
      (show ({ s with trace := s.trace ++ [Event.runBar x.1.getSymbol x.2 none] } :
        RunState).retErr = none from he) fun y hy => hx y (List.mem_cons_of_mem _ hy)]
    simp

theorem wgWait_ok (s : RunState) (he : s.retErr = none)
    (hr : ∀ x ∈ s.running, x.1.barErrs = []) :
    wgWait s = { s with
      running := []
      trace := s.trace ++ (s.running.map fun x => Event.runBar x.1.getSymbol x.2 none) ++
        [Event.wait] } := by
  unfold wgWait
  rw [foldl_runTask_ok s.running s he hr]

/-- The second half of `step` when no error is recorded and no delivery fails: the call
returns true, and the bar is delivered or handed to a goroutine. -/
theorem deliver_complete (hold : Feeder) (bar : Kline) (s : RunState) (he : s.retErr = none)
    (hr : ∀ x ∈ s.running, x.1.barErrs = []) (hb : hold.barErrs = []) :
    ∃ s1, deliver hold bar s = StepResult.next s1 ∧ s1.retErr = none ∧
      s1.oldVer = s.oldVer ∧ s1.hold = s.hold ∧ s1.holds = s.holds ∧ s1.calls = s.calls ∧
      (∀ x ∈ s1.running, x.1.barErrs = []) ∧
      (∀ sym, deliveredOf sym s1.trace ++ runningOf sym s1.running =
        deliveredOf sym s.trace ++ runningOf sym s.running ++
          if hold.getSymbol = sym then [bar] else []) ∧
      deliveries s1.trace ++ s1.running.map (fun x => (x.1.getSymbol, x.2)) =
        deliveries s.trace ++ s.running.map (fun x => (x.1.getSymbol, x.2)) ++
          [(hold.getSymbol, bar)] := by
  unfold deliver
  by_cases hgt : bar.Time > s.lastBarMs
  · have h3 : (wgWait s).retErr = none := by
      rw [wgWait_ok s he hr]
      exact he
    simp only [hgt, if_true, h3, Option.isSome_none, Bool.false_eq_true, if_false,
      runBar_none hold bar hb]
    refine ⟨_, rfl, rfl, ?_, ?_, ?_, ?_, ?_, ?_, ?_⟩
    · rw [wgWait_ok s he hr]
    · rw [wgWait_ok s he hr]
    · rw [wgWait_ok s he hr]
    · rw [wgWait_ok s he hr]
    · rw [wgWait_ok s he hr]
      intro x hx
      cases hx
    · intro sym
      rw [wgWait_ok s he hr]
      show deliveredOf sym (s.trace ++ (s.running.map fun x =>
          Event.runBar x.1.getSymbol x.2 none) ++ [Event.wait] ++
          [Event.runBar hold.getSymbol bar none] ++ [Event.newTime bar.Time]) ++
        runningOf sym [] = _
      rw [deliveredOf_append, deliveredOf_append, deliveredOf_append, deliveredOf_append,
        deliveredOf_runBars, deliveredOf_runBar]
      show deliveredOf sym s.trace ++ runningOf sym s.running ++ [] ++ _ ++ [] ++ [] = _
      simp only [List.append_nil]
    · rw [wgWait_ok s he hr]
      show deliveries (s.trace ++ (s.running.map fun x =>
          Event.runBar x.1.getSymbol x.2 none) ++ [Event.wait] ++
          [Event.runBar hold.getSymbol bar none] ++ [Event.newTime bar.Time]) ++ [] = _
      rw [deliveries_append, deliveries_append, deliveries_append, deliveries_append,
        deliveries_runBars]
      show deliveries s.trace ++ _ ++ [] ++ [(hold.getSymbol, bar)] ++ [] ++ [] = _
      simp only [List.append_nil]
  · simp only [hgt, if_false]
    refine ⟨_, rfl, he, rfl, rfl, rfl, rfl, ?_, ?_, ?_⟩
    · intro x hx
      rcases List.mem_append.mp hx with h | h
      · exact hr x h
      · rw [List.mem_singleton.mp h]
        exact hb
    · intro sym
      show deliveredOf sym (s.trace ++ [Event.spawn hold.getSymbol bar]) ++
        runningOf sym (s.running ++ [(hold, bar)]) = _
      rw [deliveredOf_append, runningOf_append, runningOf_singleton]
      show deliveredOf sym s.trace ++ [] ++ _ = _
      simp only [List.append_nil, List.append_assoc]
    · show deliveries (s.trace ++ [Event.spawn hold.getSymbol bar]) ++
        (s.running ++ [(hold, bar)]).map (fun x => (x.1.getSymbol, x.2)) = _
      rw [deliveries_append, List.map_append]
      show deliveries s.trace ++ [] ++ _ = _
      simp only [List.append_nil, List.append_assoc, List.map_cons, List.map_nil]

end Banbot

namespace Banbot

theorem liveFeeders_of_calls (fs : List Feeder) (s : RunState) (h : s.calls ≠ 0) :
    liveFeeders fs s = s.hold.toList ++ s.holds := by
  unfold liveFeeders
  rw [if_neg h]

theorem pairs_eq_nil_of_bars (l : List Feeder) (h : ∀ g ∈ l, g.bars = []) :
    l.flatMap Feeder.pairs = [] := by
  induction l with
  | nil => rfl
  | cons a t ih =>
    rw [List.flatMap_cons, ih fun g hg => h g (List.mem_cons_of_mem _ hg)]
    unfold Feeder.pairs
    rw [h a (List.mem_cons_self _ _)]
    rfl

/-- The first statement of `step` in a replay without generation messages: it does not
panic, and the working list afterwards holds the feeders at work. -/
theorem refresh_complete (fs : List Feeder) (mk : Nat → List Feeder → List Feeder)
    (hmk : ∀ k live, (mk k live).Perm (if k = 0 then fs else live))
    (s : RunState) (hs : Inv s) (hc : Complete fs s) :
    ∃ s0, refresh mk 0 s = some s0 ∧ s0.holds.Perm (liveFeeders fs s) ∧
      s0.retErr = s.retErr ∧ s0.oldVer = 0 ∧ s0.running = s.running ∧ s0.calls ≠ 0 ∧
      (∀ sym, deliveredOf sym s0.trace = deliveredOf sym s.trace) ∧
      deliveries s0.trace = deliveries s.trace := by
  obtain ⟨-, hord, -, -, hcalls, -, -⟩ := hs
  obtain ⟨-, hver, hhold, -, -, -, -, -⟩ := hc
  unfold refresh
  by_cases hre : (0 : Int) > s.oldVer ∨ s.holds.length = 0
  · simp only [hre, if_true, SortFeeders_full, Option.map_some']
    refine ⟨_, rfl, ?_, rfl, ?_, rfl, Nat.succ_ne_zero _, ?_, ?_⟩
    · exact (sortSlice_perm sortLess _).trans (hmk _ _)
    · show max s.oldVer 0 = 0
      rw [hver]
      rfl
    · intro sym
      show deliveredOf sym (s.trace ++ [Event.makeFeeders, Event.sortFull]) = _
      rw [deliveredOf_append]
      show deliveredOf sym s.trace ++ [] = _
      rw [List.append_nil]
    · show deliveries (s.trace ++ [Event.makeFeeders, Event.sortFull]) = _
      rw [deliveries_append]
      show deliveries s.trace ++ [] = _
      rw [List.append_nil]
  · simp only [hre, if_false]
    have hholds : s.holds ≠ [] := by
      intro h
      apply hre
      right
      rw [h]
      rfl
    have hc0 : s.calls ≠ 0 := hcalls hholds
    cases hh : s.hold with
    | none => exact absurd hh (hhold hc0)
    | some h =>
      obtain ⟨r, he, -, hp⟩ := SortFeeders_insert_ordered s.holds h hord
      rw [he]
      simp only [Option.map_some']
      refine ⟨_, rfl, ?_, rfl, hver, rfl, hc0, ?_, ?_⟩
      · rw [liveFeeders_of_calls fs s hc0, hh]
        exact hp
      · intro sym
        show deliveredOf sym (s.trace ++ [Event.sortInsert _]) = _
        rw [deliveredOf_append]
        show deliveredOf sym s.trace ++ [] = _
        rw [List.append_nil]
      · show deliveries (s.trace ++ [Event.sortInsert _]) = _
        rw [deliveries_append]
        show deliveries s.trace ++ [] = _
        rw [List.append_nil]

/-- Behind an exhausted head, every feeder of a list in merge order without a timestamp at
the sentinel is exhausted. -/
theorem mergeOrdered_all_exhausted (hold : Feeder) (rest : List Feeder)
    (hord : MergeOrdered (hold :: rest)) (hsc : hold.script = [])
    (hlt : ∀ g ∈ hold :: rest, ∀ o ∈ g.script, o.1 < MaxInt64) :
    ∀ g ∈ hold :: rest, g.bars = [] := by
  intro g hg
  have hgs : g.script = [] := by
    rcases List.mem_cons.mp hg with h | h
    · rw [h]
      exact hsc
    · unfold MergeOrdered at hord
      have hrel := (List.pairwise_cons.mp hord).1 g h
      rw [sortLess_false_iff] at hrel
      have hmax : hold.getNextMS = MaxInt64 := by
        unfold Feeder.getNextMS
        rw [hsc]
      cases hg2 : g.script with
      | nil => rfl
      | cons o tail =>
        exfalso
        have hnext : g.getNextMS = o.1 := by
          unfold Feeder.getNextMS
          rw [hg2]
        have ho : o.1 < MaxInt64 := hlt g hg o (by rw [hg2]; exact List.mem_cons_self _ _)
        rw [hmax, hnext] at hrel
        rcases hrel with h1 | ⟨h1, -⟩
        · omega
        · omega
  unfold Feeder.bars
  rw [hgs]
  rfl

/-- One round of the replay without generation messages and without delivery errors over
regular feeders: the call of `step` delivers one more bar, or hands it to a goroutine, and
returns true; or it finds the head of the working list exhausted and returns false, and
then every bar has been delivered or is with a goroutine. -/
theorem step_complete (fs : List Feeder) (mk : Nat → List Feeder → List Feeder)
    (hfs : ∀ f ∈ fs, f.Regular)
    (hmk : ∀ k live, (mk k live).Perm (if k = 0 then fs else live)) (hne : fs ≠ [])
    (s : RunState) (hs : Inv s) (hc : Complete fs s) :
    (∃ s1, step mk 0 s = StepResult.next s1 ∧ Complete fs s1) ∨
      (∃ s1, step mk 0 s = StepResult.stop s1 ∧ s1.retErr = none ∧
        (∀ x ∈ s1.running, x.1.barErrs = []) ∧
        (∀ f ∈ fs, deliveredOf f.getSymbol s1.trace ++ runningOf f.getSymbol s1.running =
          f.bars) ∧
        (deliveries s1.trace ++ s1.running.map (fun x => (x.1.getSymbol, x.2))).Perm
          (fs.flatMap Feeder.pairs)) := by
  obtain ⟨s0, hr, hperm, he0, hv0, hrun0, hc0, hd0, hda0⟩ :=
    refresh_complete fs mk hmk s hs hc
  obtain ⟨-, hord0, hreg0, -, -, -⟩ := refresh_spec fs mk hfs hmk 0 s s0 hs hr
  obtain ⟨he, hver, hhold, hnd, hlive, hrun, hper, hall⟩ := hc
  have hlne : liveFeeders fs s ≠ [] := by
    unfold liveFeeders
    by_cases h0 : s.calls = 0
    · rw [if_pos h0]
      exact hne
    · rw [if_neg h0]
      cases hh : s.hold with
      | none => exact absurd hh (hhold h0)
      | some h => simp
  unfold step
  rw [hr]
  simp only
  cases hl : s0.holds with
  | nil =>
    rw [hl] at hperm
    exact absurd hperm.nil_eq.symm hlne
  | cons hold rest =>
    simp only
    rw [hl] at hperm hord0 hreg0
    have hmemlive : ∀ g, g ∈ hold :: rest ↔ g ∈ liveFeeders fs s := fun g => hperm.mem_iff
    cases hsc : hold.script with
    | nil =>
      have hgb : hold.GetBar = none := by
        unfold Feeder.GetBar
        rw [hsc]
      rw [hgb]
      simp only
      right
      have hex := mergeOrdered_all_exhausted hold rest hord0 hsc
        (fun g hg => (hlive g ((hmemlive g).mp hg)).2)
      refine ⟨_, rfl, he0.trans he, ?_, ?_, ?_⟩
      · intro x hx
        exact hrun x (hrun0 ▸ hx)
      · intro f hf
        obtain ⟨g, hg, -, hgbars⟩ := hper f hf
        rw [hex g ((hmemlive g).mpr hg), List.append_nil] at hgbars
        show deliveredOf f.getSymbol (s0.trace ++ [Event.getBar hold.getSymbol none]) ++
          runningOf f.getSymbol s0.running = _
        rw [deliveredOf_append, hd0, hrun0]
        show deliveredOf _ s.trace ++ [] ++ _ = _
        rw [List.append_nil]
        exact hgbars
      · show (deliveries (s0.trace ++ [Event.getBar hold.getSymbol none]) ++
          s0.running.map (fun x => (x.1.getSymbol, x.2))).Perm _
        rw [deliveries_append, hda0, hrun0]
        show (deliveries s.trace ++ [] ++ _).Perm _
        rw [List.append_nil]
        have hz : (liveFeeders fs s).flatMap Feeder.pairs = [] :=
          pairs_eq_nil_of_bars _ (fun g hg => hex g ((hmemlive g).mpr hg))
        rw [hz, List.append_nil] at hall
        exact hall
    | cons o tail =>
      have hreg := (hreg0 hold (List.mem_cons_self _ _)).1
      have ho : o.2.map Kline.Time = some o.1 :=
        (hreg.1 o (by rw [hsc]; exact List.mem_cons_self _ _)).2
      cases hb : o.2 with
      | none =>
        rw [hb] at ho
        cases ho
      | some bar =>
        have hgb : hold.GetBar = some bar := by
          unfold Feeder.GetBar
          rw [hsc]
          exact hb
        rw [hgb]
        simp only
        left
        have hholdlive := hlive hold ((hmemlive hold).mp (List.mem_cons_self _ _))
        obtain ⟨s1, hdel, e1, e2, e3, e4, e5, e6, e7, e8⟩ := deliver_complete hold.CallNext bar
          { s0 with
            hold := some hold.CallNext
            holds := rest
            trace := s0.trace ++
              [Event.getBar hold.getSymbol (some bar), Event.callNext hold.getSymbol] }
          (he0.trans he) (fun x hx => hrun x (hrun0 ▸ hx)) hholdlive.1
        refine ⟨s1, hdel, ?_⟩
        have e3a : s1.hold = some hold.CallNext := e3
        have e4a : s1.holds = rest := e4
        have e5a : s1.calls = s0.calls := e5
        have hcalls1 : s1.calls ≠ 0 := by
          rw [e5a]
          exact hc0
        have hlive1 : liveFeeders fs s1 = hold.CallNext :: rest := by
          rw [liveFeeders_of_calls fs s1 hcalls1, e3a, e4a]
          rfl
        have hbars : hold.bars = bar :: hold.CallNext.bars := by
          unfold Feeder.bars Feeder.CallNext
          rw [hsc]
          simp [hb]
        have htail : hold.CallNext.script = tail := by
          unfold Feeder.CallNext
          rw [hsc]
          rfl
        have ht : ∀ sym, deliveredOf sym (s0.trace ++
            [Event.getBar hold.getSymbol (some bar), Event.callNext hold.getSymbol]) =
            deliveredOf sym s.trace := by
          intro sym
          rw [deliveredOf_append, hd0]
          show _ ++ [] = _
          rw [List.append_nil]
        have e7a : ∀ sym, deliveredOf sym s1.trace ++ runningOf sym s1.running =
            deliveredOf sym s.trace ++ runningOf sym s.running ++
              if hold.getSymbol = sym then [bar] else [] := by
          intro sym
          rw [e7 sym]
          show deliveredOf sym (s0.trace ++
            [Event.getBar hold.getSymbol (some bar), Event.callNext hold.getSymbol]) ++
            runningOf sym s0.running ++ _ = _
          rw [ht, hrun0]
          rfl
        have e8a : deliveries s1.trace ++ s1.running.map (fun x => (x.1.getSymbol, x.2)) =
            deliveries s.trace ++ s.running.map (fun x => (x.1.getSymbol, x.2)) ++
              [(hold.getSymbol, bar)] := by
          rw [e8]
          show deliveries (s0.trace ++
            [Event.getBar hold.getSymbol (some bar), Event.callNext hold.getSymbol]) ++
            s0.running.map (fun x => (x.1.getSymbol, x.2)) ++ _ = _
          rw [deliveries_append, hda0, hrun0]
          show deliveries s.trace ++ [] ++ _ ++ _ = _
          rw [List.append_nil]
          rfl
        have hnd2 : ((hold :: rest).map Feeder.getSymbol).Nodup :=
          (hperm.map _).nodup_iff.mpr hnd
        refine ⟨e1, e2.trans hv0, ?_, ?_, ?_, e6, ?_, ?_⟩
        · intro _
          rw [e3a]
          intro h
          cases h
        · rw [hlive1]
          exact hnd2
        · rw [hlive1]
          intro g hg
          rcases List.mem_cons.mp hg with h | h
          · rw [h]
            refine ⟨hholdlive.1, ?_⟩
            intro o1 ho1
            rw [htail] at ho1
            exact hholdlive.2 o1 (by rw [hsc]; exact List.mem_cons_of_mem _ ho1)
          · exact hlive g ((hmemlive g).mp (List.mem_cons_of_mem _ h))
        · intro f hf
          obtain ⟨g, hg, hgs, hgbars⟩ := hper f hf
          rw [hlive1]
          rcases List.mem_cons.mp ((hmemlive g).mpr hg) with h | h
          · rw [h] at hgs hgbars
            refine ⟨hold.CallNext, List.mem_cons_self _ _, hgs, ?_⟩
            rw [e7a, if_pos hgs, ← hgbars, hbars]
            simp
          · refine ⟨g, List.mem_cons_of_mem _ h, hgs, ?_⟩
            have hdiff : hold.getSymbol ≠ f.getSymbol := by
              intro heq
              rw [List.map_cons, List.nodup_cons] at hnd2
              apply hnd2.1
              rw [heq, ← hgs]
              exact List.mem_map_of_mem _ h
            rw [e7a, if_neg hdiff, List.append_nil]
            exact hgbars
        · rw [hlive1, e8a, List.flatMap_cons]
          have hp1 : hold.pairs = (hold.getSymbol, bar) :: hold.CallNext.pairs := by
            unfold Feeder.pairs
            rw [hbars]
            rfl
          have hp2 : (deliveries s.trace ++ s.running.map (fun x => (x.1.getSymbol, x.2)) ++
              [(hold.getSymbol, bar)] ++ (hold.CallNext.pairs ++ rest.flatMap Feeder.pairs)) =
              deliveries s.trace ++ s.running.map (fun x => (x.1.getSymbol, x.2)) ++
                (hold :: rest).flatMap Feeder.pairs := by
            rw [List.flatMap_cons, hp1]
            simp
          rw [hp2]
          exact (List.Perm.append_left _ (hperm.flatMap_right Feeder.pairs)).trans hall

end Banbot

namespace Banbot

/-- The replay without generation messages and without delivery errors over regular
feeders, with fuel for every cursor position: it returns nil, and every bar has been
delivered, to its feeder in the order of the feeder. -/
theorem runLoop_complete (fs : List Feeder) (mk : Nat → List Feeder → List Feeder)
    (hfs : ∀ f ∈ fs, f.Regular)
    (hmk : ∀ k live, (mk k live).Perm (if k = 0 then fs else live)) (hne : fs ≠ []) :
    ∀ (fuel : Nat) (s : RunState), Inv s → Complete fs s → remaining fs s < fuel →
      (runLoop mk fuel [] s).1 = Outcome.returned none ∧
      (∀ f ∈ fs, deliveredOf f.getSymbol (runLoop mk fuel [] s).2.trace = f.bars) ∧
      (deliveries (runLoop mk fuel [] s).2.trace).Perm (fs.flatMap Feeder.pairs) := by
  intro fuel
  induction fuel with
  | zero =>
    intro s _ _ h
    omega
  | succ fuel ih =>
    intro s hs hc hlt
    unfold runLoop
    simp only [List.headD_nil, Option.getD_none, lt_self_iff_false, if_false, List.tail_nil]
    rcases step_complete fs mk hfs hmk hne s hs hc with
      ⟨s1, h1, hc1⟩ | ⟨s1, h1, he1, hr1, hp1, ha1⟩
    · have hinv := step_inv fs mk hfs hmk 0 s hs
      rw [h1] at hinv
      have hrem := step_remaining fs mk hfs hmk 0 s s1 hs h1
      rw [h1]
      exact ih s1 hinv hc1 (by omega)
    · rw [h1]
      simp only
      rw [wgWait_ok s1 he1 hr1]
      refine ⟨?_, ?_, ?_⟩
      · show Outcome.returned s1.retErr = _
        rw [he1]
      · intro f hf
        show deliveredOf f.getSymbol (s1.trace ++
          (s1.running.map fun x => Event.runBar x.1.getSymbol x.2 none) ++ [Event.wait]) = _
        rw [deliveredOf_append, deliveredOf_append, deliveredOf_runBars]
        show _ ++ _ ++ [] = _
        rw [List.append_nil]
        exact hp1 f hf
      · show (deliveries (s1.trace ++
          (s1.running.map fun x => Event.runBar x.1.getSymbol x.2 none) ++ [Event.wait])).Perm _
        rw [deliveries_append, deliveries_append, deliveries_runBars]
        show (_ ++ _ ++ []).Perm _
        rw [List.append_nil]
        exact ha1

theorem complete_init (fs : List Feeder) (hsym : (fs.map Feeder.getSymbol).Nodup)
    (hreg : ∀ f ∈ fs, f.barErrs = [] ∧ ∀ o ∈ f.script, o.1 < MaxInt64) : Complete fs {} := by
  have hlive : liveFeeders fs {} = fs := rfl
  refine ⟨rfl, rfl, fun h => absurd rfl h, ?_, ?_, ?_, ?_, ?_⟩
  · rw [hlive]
    exact hsym
  · rw [hlive]
    exact hreg
  · intro x hx
    cases hx
  · intro f hf
    rw [hlive]
    exact ⟨f, hf, rfl, rfl⟩
  · rw [hlive]
    exact List.Perm.refl _

/-- C29 (counterexample). Over no feeder at all the replay ends in a panic, at `holds[0]`
of the empty working list; and over the feeder "A" without bars and the feeder "B" with one
bar at the timestamp `math.MaxInt64`, both regular, the replay returns nil and has
delivered nothing. -/
theorem C29_replay_fails_without_feeders_and_with_sentinel_timestamp :
    (RunHistFeeders 10 (staticFeeders []) []).1 = Outcome.panicked ∧
      (∀ f ∈ [histFeeder "A" [], histFeeder "B" [⟨MaxInt64⟩]], f.Regular) ∧
      ([histFeeder "A" [], histFeeder "B" [⟨MaxInt64⟩]].map Feeder.getSymbol).Nodup ∧
      (RunHistFeeders 10 (staticFeeders [histFeeder "A" [], histFeeder "B" [⟨MaxInt64⟩]])
        []).1 = Outcome.returned none ∧
      deliveries (RunHistFeeders 10
        (staticFeeders [histFeeder "A" [], histFeeder "B" [⟨MaxInt64⟩]]) []).2.trace = [] := by
  decide

/-- C29 (amended). At least one feeder, distinct symbols, each feeder regular (bars with
strictly increasing timestamps above zero, the timestamp of the next bar reported as
next-due and the sentinel when no bar remains) with timestamps below the sentinel
`math.MaxInt64` and without a failing delivery, no generation message, the feeder list of
`HistProvider.LoopMain` over an unchanged map: with fuel for every bar, `RunHistFeeders`
returns nil, what was delivered to each feeder is the list of its bars in their order, and
the deliveries as a whole are a permutation of the bars of all feeders. -/
theorem C29_replay_delivers_every_bar_once (fs : List Feeder) (fuel : Nat) (hne : fs ≠ [])
    (hsym : (fs.map Feeder.getSymbol).Nodup)
    (hreg : ∀ f ∈ fs, f.Regular ∧ f.barErrs = [] ∧ ∀ o ∈ f.script, o.1 < MaxInt64)
    (hfuel : totalBars fs < fuel) :
    (RunHistFeeders fuel (staticFeeders fs) []).1 = Outcome.returned none ∧
      (∀ f ∈ fs,
        deliveredOf f.getSymbol (RunHistFeeders fuel (staticFeeders fs) []).2.trace = f.bars) ∧
      (deliveries (RunHistFeeders fuel (staticFeeders fs) []).2.trace).Perm
        (fs.flatMap Feeder.pairs) := by
  unfold RunHistFeeders
  exact runLoop_complete fs (staticFeeders fs) (fun f hf => (hreg f hf).1)
    (staticFeeders_perm fs) hne fuel {} inv_init
    (complete_init fs hsym fun f hf => (hreg f hf).2) hfuel

theorem C29_replay_delivers_every_bar_once_witness :
    (RunHistFeeders 10
        (staticFeeders [histFeeder "A" [⟨1⟩, ⟨3⟩], histFeeder "B" [⟨1⟩, ⟨2⟩]]) []).1 =
        Outcome.returned none ∧
      (∀ f ∈ [histFeeder "A" [⟨1⟩, ⟨3⟩], histFeeder "B" [⟨1⟩, ⟨2⟩]],
        deliveredOf f.getSymbol (RunHistFeeders 10
          (staticFeeders [histFeeder "A" [⟨1⟩, ⟨3⟩], histFeeder "B" [⟨1⟩, ⟨2⟩]]) []).2.trace =
          f.bars) ∧
      (deliveries (RunHistFeeders 10
        (staticFeeders [histFeeder "A" [⟨1⟩, ⟨3⟩], histFeeder "B" [⟨1⟩, ⟨2⟩]]) []).2.trace).Perm
        ([histFeeder "A" [⟨1⟩, ⟨3⟩], histFeeder "B" [⟨1⟩, ⟨2⟩]].flatMap Feeder.pairs) :=
  C29_replay_delivers_every_bar_once
    [histFeeder "A" [⟨1⟩, ⟨3⟩], histFeeder "B" [⟨1⟩, ⟨2⟩]] 10 (by decide) (by decide)
    (by decide) (by decide)

end Banbot
